import Mathlib

/-!
Verification of the transaction admission and ordering engine (`TxService`)
of the bls-wallet aggregator, against its natural-language specification.

The engine source (`TxService.add`, `LowestAcceptableNonce`,
`tryMoveFutureTxs`, `ensureFutureTxSpace`, `replaceReadyTx`,
`isRewardBetter`) is embedded below as pure Lean functions over explicit
state.  The ordered-pool collaborator `TxTable` is not part of the provided
sources (only its consumer `TxService` is), so it is modelled from the
specification of the Ordered Pool contract (spec section 4.1) together with
the data-model invariants of spec section 3.

Asynchronous `await`s in the source are sequenced in program order.  The two
unbounded `while`/`do-while` loops of the source are embedded with an
explicit fuel argument; running out of fuel (which models divergence of the
source loop) or hitting the `ethers.BigNumber.from(null)` exception is an
explicit `TxError`, and the state at the point of the error is retained,
exactly as thrown exceptions leave the pools in the source.
-/

/-- One pending signed account operation (spec section 3, and the fields of
`TransactionData` used by `TxService`): a pool-assigned serial `txId`
(absent before first insertion), the signing account `pubKey`, the
account-scoped `nonce`, the offered `tokenRewardAmount`, and an opaque
`payload` standing for the signed operation body. -/
structure TransactionData where
  txId : Option Nat := none
  pubKey : String
  nonce : Nat
  tokenRewardAmount : Nat
  payload : String := ""
  deriving DecidableEq, Repr

/-- A caller-visible rejection reason, as returned by `TxService.add`:
a `type` tag (the source uses the strings "duplicate-nonce" and
"insufficient-reward") and a human-readable description. -/
structure AddTransactionFailure where
  type : String
  description : String
  deriving DecidableEq, Repr

/-- The configuration record of `TxService` (source `TxService.defaultConfig`
reads both values from the environment). -/
structure TxServiceConfig where
  txQueryLimit : Nat
  maxFutureTxs : Nat
  deriving DecidableEq, Repr

/-- The serial id of a stored record (source `tx.txId!`); records held in a
pool always carry an id. -/
def idOf (tx : TransactionData) : Nat := tx.txId.getD 0

/-- Whether two records claim the same (account, nonce) slot. -/
def sameKey (a b : TransactionData) : Bool :=
  a.pubKey == b.pubKey && a.nonce == b.nonce

/-- Modelled from the spec: the Ordered Pool (section 4.1), the `TxTable`
collaborator whose implementation is not among the provided sources.  The
records are kept in insertion (serial-id) order; `nextId` is the next serial
to assign. -/
structure TxTable where
  txs : List TransactionData := []
  nextId : Nat := 0
  deriving DecidableEq, Repr

def TxTable.empty : TxTable := {}

/-- Modelled from the spec: pool insertion of one record, assigning a fresh
serial id (section 4.1 `add`); per the section 3 invariant on the pools, a
record at an (account, nonce) pair already stored is entirely superseded by
the newcomer, which gets a new id. -/
def TxTable.addTx (t : TxTable) (tx : TransactionData) : TxTable :=
  { txs := t.txs.filter (fun r => !(sameKey r tx)) ++ [{ tx with txId := some t.nextId }]
    nextId := t.nextId + 1 }

/-- Modelled from the spec: variadic `add(...txs)` inserts the records in
order (section 4.1). -/
def TxTable.add (t : TxTable) (txs : List TransactionData) : TxTable :=
  txs.foldl TxTable.addTx t

/-- Modelled from the spec: `remove` deletes a record by identity
(section 4.1); the engine always passes records previously fetched from the
pool, so identity is the serial id. -/
def TxTable.removeTx (t : TxTable) (tx : TransactionData) : TxTable :=
  { t with txs := t.txs.filter (fun r => !(r.txId == tx.txId)) }

/-- Modelled from the spec: variadic `remove(...txs)` (section 4.1). -/
def TxTable.remove (t : TxTable) (txs : List TransactionData) : TxTable :=
  txs.foldl TxTable.removeTx t

/-- Modelled from the spec: `find(account, nonce)` (section 4.1). -/
def TxTable.find (t : TxTable) (pubKey : String) (nonce : Nat) :
    Option TransactionData :=
  t.txs.find? (fun r => r.pubKey == pubKey && r.nonce == nonce)

/-- All records of one account, in storage order. -/
def TxTable.keyTxs (t : TxTable) (pubKey : String) : List TransactionData :=
  t.txs.filter (fun r => r.pubKey == pubKey)

/-- Insertion step of the nonce-ascending ordering used by the pool
queries. -/
def insertByNonce (tx : TransactionData) :
    List TransactionData → List TransactionData
  | [] => [tx]
  | r :: rest =>
    if tx.nonce ≤ r.nonce then tx :: r :: rest else r :: insertByNonce tx rest

/-- Nonce-ascending insertion sort, realising the ordering the pool queries
promise (spec section 4.1). -/
def sortByNonce : List TransactionData → List TransactionData
  | [] => []
  | r :: rest => insertByNonce r (sortByNonce rest)

/-- Modelled from the spec: `pubKeyTxsInNonceOrder(account, limit)`
(section 4.1): the account's records in ascending nonce order, at most
`limit` of them. -/
def TxTable.pubKeyTxsInNonceOrder (t : TxTable) (pubKey : String)
    (limit : Nat) : List TransactionData :=
  (sortByNonce (t.keyTxs pubKey)).take limit

/-- Modelled from the spec: `findAfter(account, nonce, limit)`
(section 4.1): the account's records with nonce strictly above the given
one, ascending, at most `limit` of them. -/
def TxTable.findAfter (t : TxTable) (pubKey : String) (nonce : Nat)
    (limit : Nat) : List TransactionData :=
  ((sortByNonce (t.keyTxs pubKey)).filter (fun r => nonce < r.nonce)).take limit

/-- Modelled from the spec: `nextNonceOf(account)` is the highest stored
nonce plus one, or absent when the account has no records (section 4.1). -/
def TxTable.nextNonceOf (t : TxTable) (pubKey : String) : Option Nat :=
  match (t.keyTxs pubKey).map (fun r => r.nonce) with
  | [] => none
  | n :: rest => some (rest.foldl Nat.max n + 1)

/-- Modelled from the spec: `count()` (section 4.1). -/
def TxTable.count (t : TxTable) : Nat := t.txs.length

/-- Modelled from the spec: `first()`, the globally oldest record by id
(section 4.1); records are kept in id order. -/
def TxTable.First (t : TxTable) : Option TransactionData := t.txs.head?

/-- Modelled from the spec: `clearBeforeId(id)` deletes every record with id
below the threshold, across all accounts (section 4.1). -/
def TxTable.clearBeforeId (t : TxTable) (i : Nat) : TxTable :=
  { t with txs := t.txs.filter (fun r => decide (i ≤ idOf r)) }

/-- The two mutable pools owned by the engine (source `TxService`
constructor). -/
structure TxServiceState where
  readyTxTable : TxTable := {}
  futureTxTable : TxTable := {}
  deriving DecidableEq, Repr

/-- Error outcomes of one `add` call that the source does not report as
failures: the uncaught `ethers.BigNumber.from(null)` exception inside
`LowestAcceptableNonce`, and divergence of one of the source's unbounded
loops (fuel exhaustion in this embedding). -/
inductive TxError
  | invalidBigNumber
  | outOfFuel
  deriving DecidableEq, Repr

deriving instance DecidableEq for Except

/-- Result of one `TxService.add` call: either the returned failure list or
a thrown error, together with the pool state when the call ended. -/
structure AddOutcome where
  result : Except TxError (List AddTransactionFailure)
  state : TxServiceState
  deriving DecidableEq, Repr

/-- Source `TxService.LowestAcceptableNonce`: with
`nextLocalNonce = readyTxTable.nextNonceOf(pubKey)`, the source returns
`nextChainNonce` when `nextChainNonce.gt(nextLocalNonce ?? 0)` and otherwise
returns `ethers.BigNumber.from(nextLocalNonce)` — which throws when
`nextLocalNonce` is null (modelled as `none`). -/
def TxService.LowestAcceptableNonce (ready : TxTable) (nextChainNonce : Nat)
    (pubKey : String) : Option Nat :=
  let nextLocalNonce := ready.nextNonceOf pubKey
  if nextLocalNonce.getD 0 < nextChainNonce then some nextChainNonce
  else nextLocalNonce

/-- The formula the specification gives for the lowest acceptable nonce:
`max(chainNextNonce, readyPool.nextNonceOf(account) ?? chainNextNonce)`
(spec section 4.2 step 2).  Stated separately so it can be compared with the
source's `TxService.LowestAcceptableNonce`. -/
def specLowestAcceptableNonce (ready : TxTable) (nextChainNonce : Nat)
    (pubKey : String) : Nat :=
  max nextChainNonce ((ready.nextNonceOf pubKey).getD nextChainNonce)

/-- Source `TxService.ensureFutureTxSpace`: when the future table has
reached `maxFutureTxs`, drop the longest-stored records by clearing every id
below `first.txId! + (size - maxFutureTxs + 1)`; when `First()` reports the
table empty despite the count, skip pruning. -/
def TxService.ensureFutureTxSpace (cfg : TxServiceConfig) (future : TxTable) :
    TxTable :=
  let size := future.count
  if cfg.maxFutureTxs ≤ size then
    match future.First with
    | none => future
    | some first =>
      future.clearBeforeId (idOf first + (size - cfg.maxFutureTxs + 1))
  else future

/-- Result of the page scan inside `tryMoveFutureTxs`. -/
structure ScanResult where
  futureTxsToRemove : List TransactionData
  txsToAdd : List TransactionData
  newLowest : Nat
  deriving DecidableEq, Repr

/-- The `for (const tx of futureTxs)` scan inside source
`tryMoveFutureTxs`: records below the rising floor are collected for
removal only (stale), a record at the floor is collected for removal and,
stripped of its id, for insertion into ready, advancing the floor; the
first record above the floor stops the scan. -/
def TxService.scanFutureTxs (lowestAcceptableNonce : Nat) :
    List TransactionData → ScanResult
  | [] => ⟨[], [], lowestAcceptableNonce⟩
  | tx :: rest =>
    if tx.nonce < lowestAcceptableNonce then
      let s := TxService.scanFutureTxs lowestAcceptableNonce rest
      ⟨tx :: s.futureTxsToRemove, s.txsToAdd, s.newLowest⟩
    else if tx.nonce = lowestAcceptableNonce then
      let s := TxService.scanFutureTxs (lowestAcceptableNonce + 1) rest
      ⟨tx :: s.futureTxsToRemove, { tx with txId := none } :: s.txsToAdd,
        s.newLowest⟩
    else ⟨[], [], lowestAcceptableNonce⟩

/-- The `do ... while (futureTxsToRemove.length === txQueryLimit)` loop of
source `tryMoveFutureTxs`, with explicit fuel standing for the unbounded
iteration. -/
def TxService.tryMoveFutureTxsLoop (cfg : TxServiceConfig) (pubKey : String) :
    Nat → Nat → TxServiceState → Option TxError × TxServiceState
  | 0, _, st => (some TxError.outOfFuel, st)
  | fuel + 1, lowestAcceptableNonce, st =>
    let futureTxs := st.futureTxTable.pubKeyTxsInNonceOrder pubKey
      cfg.txQueryLimit
    let s := TxService.scanFutureTxs lowestAcceptableNonce futureTxs
    let st1 : TxServiceState :=
      { readyTxTable := st.readyTxTable.add s.txsToAdd
        futureTxTable := st.futureTxTable.remove s.futureTxsToRemove }
    if s.futureTxsToRemove.length = cfg.txQueryLimit then
      TxService.tryMoveFutureTxsLoop cfg pubKey fuel s.newLowest st1
    else (none, st1)

/-- Source `TxService.tryMoveFutureTxs`.  The fuel `count + 1` is enough for
every terminating run of the source loop (each further iteration removes
`txQueryLimit > 0` records from the future table). -/
def TxService.tryMoveFutureTxs (cfg : TxServiceConfig) (pubKey : String)
    (lowestAcceptableNonce : Nat) (st : TxServiceState) :
    Option TxError × TxServiceState :=
  TxService.tryMoveFutureTxsLoop cfg pubKey (st.futureTxTable.count + 1)
    lowestAcceptableNonce st

/-- The "duplicate-nonce" failure built by source `replaceReadyTx` when the
replacement target has vanished. -/
def duplicateNonceFailure (txData : TransactionData) : AddTransactionFailure :=
  { type := "duplicate-nonce"
    description := "nonce " ++ toString txData.nonce ++
      " was a replacement candidate but it appears to have been submitted during processing" }

/-- The "insufficient-reward" failure built by source `replaceReadyTx`. -/
def insufficientRewardFailure (txData existingTx : TransactionData) :
    AddTransactionFailure :=
  { type := "insufficient-reward"
    description := toString txData.tokenRewardAmount ++
      " is an insufficient reward because there is already a tx with this nonce with a reward of " ++
      toString existingTx.tokenRewardAmount }

/-- Source `TxService.isRewardBetter`: strict reward comparison
(`leftReward.gt(rightReward)`). -/
def TxService.isRewardBetter (left right : TransactionData) : Bool :=
  right.tokenRewardAmount < left.tokenRewardAmount

/-- One page of the cascade in source `replaceReadyTx`: each followup record
is removed and re-inserted without its id (so it receives a fresh one), in
page order. -/
def TxService.reinsertFollowups (ready : TxTable)
    (followupTxs : List TransactionData) : TxTable :=
  followupTxs.foldl (fun t tx => (t.removeTx tx).addTx { tx with txId := none })
    ready

/-- The `while (true)` cascade loop of source `replaceReadyTx`, with
explicit fuel standing for the unbounded iteration. -/
def TxService.replaceReadyTxLoop (cfg : TxServiceConfig) (pubKey : String) :
    Nat → Nat → TxServiceState → Option TxError × TxServiceState
  | 0, _, st => (some TxError.outOfFuel, st)
  | fuel + 1, lastNonceReplaced, st =>
    let followupTxs := st.readyTxTable.findAfter pubKey lastNonceReplaced
      cfg.txQueryLimit
    if followupTxs.length = 0 then (none, st)
    else
      let st1 : TxServiceState :=
        { st with
          readyTxTable := TxService.reinsertFollowups st.readyTxTable
            followupTxs }
      let newLast := ((followupTxs.getLast?).map (fun tx => tx.nonce)).getD 0
      if followupTxs.length < cfg.txQueryLimit then (none, st1)
      else TxService.replaceReadyTxLoop cfg pubKey fuel newLast st1

/-- Source `TxService.replaceReadyTx`: look up the existing ready record at
the submitted (account, nonce); reject with "duplicate-nonce" when absent
and with "insufficient-reward" when the newcomer does not strictly improve
the reward; otherwise swap the records and, unless the replaced nonce was
the account's highest ready nonce, re-insert every higher-nonce ready
record of the account.  The fuel `count + 1` is enough for every
terminating run of the source loop. -/
def TxService.replaceReadyTx (cfg : TxServiceConfig)
    (lowestAcceptableNonce : Nat) (st : TxServiceState)
    (txData : TransactionData) : AddOutcome :=
  match st.readyTxTable.find txData.pubKey txData.nonce with
  | none => { result := Except.ok [duplicateNonceFailure txData], state := st }
  | some existingTx =>
    if !(TxService.isRewardBetter txData existingTx) then
      { result := Except.ok [insufficientRewardFailure txData existingTx]
        state := st }
    else
      let st1 : TxServiceState :=
        { st with
          readyTxTable := (st.readyTxTable.removeTx existingTx).addTx txData }
      if lowestAcceptableNonce - 1 = txData.nonce then
        { result := Except.ok [], state := st1 }
      else
        match TxService.replaceReadyTxLoop cfg txData.pubKey
          (st1.readyTxTable.count + 1) txData.nonce st1 with
        | (none, st2) => { result := Except.ok [], state := st2 }
        | (some e, st2) => { result := Except.error e, state := st2 }

/-- Source `TxService.add`, the engine entry point.  The awaited result of
`walletService.checkTx(txData)` — the oracle's failure list and the
account's next chain nonce — is passed in as `checkTxFailures` and
`nextNonce`, since `WalletService` is an external collaborator of the
engine. -/
def TxService.add (cfg : TxServiceConfig) (st : TxServiceState)
    (checkTxFailures : List AddTransactionFailure) (nextNonce : Nat)
    (txData : TransactionData) : AddOutcome :=
  if 0 < checkTxFailures.length then
    { result := Except.ok checkTxFailures, state := st }
  else
    match TxService.LowestAcceptableNonce st.readyTxTable nextNonce
      txData.pubKey with
    | none => { result := Except.error TxError.invalidBigNumber, state := st }
    | some lowestAcceptableNonce =>
      if txData.nonce < lowestAcceptableNonce then
        TxService.replaceReadyTx cfg lowestAcceptableNonce st txData
      else if lowestAcceptableNonce = txData.nonce then
        let st1 : TxServiceState :=
          { st with readyTxTable := st.readyTxTable.addTx txData }
        match TxService.tryMoveFutureTxs cfg txData.pubKey
          (lowestAcceptableNonce + 1) st1 with
        | (none, st2) => { result := Except.ok [], state := st2 }
        | (some e, st2) => { result := Except.error e, state := st2 }
      else
        let newFuture :=
          (TxService.ensureFutureTxSpace cfg st.futureTxTable).addTx txData
        { result := Except.ok [], state := { st with futureTxTable := newFuture } }

/-- One element of a submission sequence: the operation together with what
the oracle answered for this call. -/
structure Submission where
  txData : TransactionData
  checkTxFailures : List AddTransactionFailure := []
  nextNonce : Nat
  deriving DecidableEq, Repr

/-- State transition of one `submit` call: a thrown error leaves the pools
as they were at the point of the throw. -/
def submitStep (cfg : TxServiceConfig) (st : TxServiceState)
    (s : Submission) : TxServiceState :=
  (TxService.add cfg st s.checkTxFailures s.nextNonce s.txData).state

/-- Run a sequence of `submit` calls from the given state. -/
def runSubmissionsFrom (cfg : TxServiceConfig) (st : TxServiceState)
    (subs : List Submission) : TxServiceState :=
  subs.foldl (submitStep cfg) st

/-- Run a sequence of `submit` calls from empty pools. -/
def runSubmissions (cfg : TxServiceConfig) (subs : List Submission) :
    TxServiceState :=
  runSubmissionsFrom cfg {} subs

/-- The account's ready-pool nonces in ascending order. -/
def readyNoncesOf (t : TxTable) (pubKey : String) : List Nat :=
  (sortByNonce (t.keyTxs pubKey)).map (fun r => r.nonce)

/-- No two records of the pool occupy the same (account, nonce) slot. -/
def TxTable.KeysUnique (t : TxTable) : Prop :=
  List.Pairwise (fun a b => ¬(a.pubKey = b.pubKey ∧ a.nonce = b.nonce)) t.txs

/-- Well-formedness of a pool: records are stored in strictly increasing
serial-id order, every stored record carries an id, and all ids are below
the next serial to assign. -/
structure TxTable.WF (t : TxTable) : Prop where
  idsSorted : List.Pairwise (fun a b => idOf a < idOf b) t.txs
  idsAssigned : ∀ tx ∈ t.txs, tx.txId.isSome = true
  idsBelowNext : ∀ tx ∈ t.txs, idOf tx < t.nextId

/-- The id-free value content of a record: everything but the serial id. -/
def valueOf (tx : TransactionData) : String × Nat × Nat × String :=
  (tx.pubKey, tx.nonce, tx.tokenRewardAmount, tx.payload)

/-- The multiset of id-free record values stored in a pool. -/
def tableValues (t : TxTable) : Multiset (String × Nat × Nat × String) :=
  (t.txs.map valueOf : List _)

/-- Test fixture for promotion runs: a bare operation of one account. -/
def c3tx (pk : String) (n : Nat) : TransactionData :=
  { pubKey := pk, nonce := n, tokenRewardAmount := 0 }

/-- Test fixture: the stored form of `c3tx` under serial id `j`. -/
def c3rec (pk : String) (n j : Nat) : TransactionData :=
  { txId := some j, pubKey := pk, nonce := n, tokenRewardAmount := 0 }

/-- Test fixture: a clean submission of `c3tx pk n` with chain nonce `N`. -/
def c3sub (pk : String) (n N : Nat) : Submission :=
  { txData := c3tx pk n, nextNonce := N }

/-- Contiguity of the Ready pool relative to a fixed per-account chain
nonce: every account's stored nonces form, as a multiset, a contiguous run
starting at that account's chain nonce. -/
def ReadyRuns (chainNonce : String → Nat) (t : TxTable) : Prop :=
  ∀ q : String, ∃ m : Nat,
    ((t.keyTxs q).map (fun r => r.nonce)).Perm
      (List.range' (chainNonce q) m)

/-- The Ready-pool invariant maintained by the engine: well-formed ids,
unique (account, nonce) slots, and contiguous per-account nonce runs. -/
def ReadyInv (chainNonce : String → Nat) (t : TxTable) : Prop :=
  t.WF ∧ t.KeysUnique ∧ ReadyRuns chainNonce t

/-! ## Ordering lemmas for the nonce-ascending pool queries -/

theorem insertByNonce_perm (tx : TransactionData) (l : List TransactionData) :
    (insertByNonce tx l).Perm (tx :: l) := by
  induction l with
  | nil => simp [insertByNonce]
  | cons r rest ih =>
    simp only [insertByNonce]
    split
    · exact List.Perm.refl _
    · exact (ih.cons r).trans (List.Perm.swap tx r rest)

theorem sortByNonce_perm (l : List TransactionData) : (sortByNonce l).Perm l := by
  induction l with
  | nil => rfl
  | cons r rest ih =>
    exact (insertByNonce_perm r (sortByNonce rest)).trans (ih.cons r)

theorem insertByNonce_pairwise {tx : TransactionData} {l : List TransactionData}
    (h : List.Pairwise (fun a b => a.nonce ≤ b.nonce) l) :
    List.Pairwise (fun a b => a.nonce ≤ b.nonce) (insertByNonce tx l) := by
  induction l with
  | nil => simp [insertByNonce]
  | cons r rest ih =>
    rcases h with _ | ⟨hr, hrest⟩
    simp only [insertByNonce]
    split
    · refine List.Pairwise.cons ?_ (List.Pairwise.cons hr hrest)
      intro s hs
      rcases List.mem_cons.mp hs with rfl | hs2
      · assumption
      · exact le_trans (by assumption) (hr s hs2)
    · refine List.Pairwise.cons ?_ (ih hrest)
      intro s hs
      rcases List.mem_cons.mp ((insertByNonce_perm tx rest).mem_iff.mp hs) with
        rfl | hs2
      · omega
      · exact hr s hs2

theorem sortByNonce_pairwise (l : List TransactionData) :
    List.Pairwise (fun a b => a.nonce ≤ b.nonce) (sortByNonce l) := by
  induction l with
  | nil => simp [sortByNonce]
  | cons r rest ih => exact insertByNonce_pairwise ih

/-! ## Basic pool lemmas -/

theorem mem_keyTxs {t : TxTable} {pk : String} {tx : TransactionData} :
    tx ∈ t.keyTxs pk ↔ tx ∈ t.txs ∧ tx.pubKey = pk := by
  simp [TxTable.keyTxs, List.mem_filter]

theorem find_eq_some {t : TxTable} {pk : String} {n : Nat} {tx : TransactionData}
    (h : t.find pk n = some tx) : tx ∈ t.txs ∧ tx.pubKey = pk ∧ tx.nonce = n := by
  have hmem := List.mem_of_find?_eq_some h
  have hpred := List.find?_some h
  simp only [Bool.and_eq_true, beq_iff_eq] at hpred
  exact ⟨hmem, hpred.1, hpred.2⟩

theorem find_eq_none {t : TxTable} {pk : String} {n : Nat} :
    t.find pk n = none ↔ ∀ tx ∈ t.txs, ¬(tx.pubKey = pk ∧ tx.nonce = n) := by
  simp [TxTable.find, List.find?_eq_none]

theorem le_foldl_max (l : List Nat) (a : Nat) : a ≤ l.foldl Nat.max a := by
  induction l generalizing a with
  | nil => simp
  | cons x xs ih => exact le_trans (Nat.le_max_left a x) (ih (Nat.max a x))

theorem mem_le_foldl_max {l : List Nat} {x : Nat} (hx : x ∈ l) (a : Nat) :
    x ≤ l.foldl Nat.max a := by
  induction l generalizing a with
  | nil => cases hx
  | cons y ys ih =>
    rcases List.mem_cons.mp hx with rfl | hx2
    · exact le_trans (Nat.le_max_right a x) (le_foldl_max ys _)
    · exact ih hx2 _

theorem foldl_max_mem (l : List Nat) (a : Nat) :
    l.foldl Nat.max a = a ∨ l.foldl Nat.max a ∈ l := by
  induction l generalizing a with
  | nil => simp
  | cons x xs ih =>
    rcases ih (Nat.max a x) with h | h
    · rcases Nat.le_total x a with hle | hle
      · left; simp only [List.foldl_cons]; rw [h]
        exact Nat.max_eq_left hle
      · right; simp only [List.foldl_cons]; rw [h]
        have hx : a.max x = x := Nat.max_eq_right hle
        rw [hx]; exact List.mem_cons_self x xs
    · right; exact List.mem_cons_of_mem x h

theorem nextNonceOf_eq_none {t : TxTable} {pk : String} :
    t.nextNonceOf pk = none ↔ t.keyTxs pk = [] := by
  unfold TxTable.nextNonceOf
  cases h : (t.keyTxs pk).map (fun r => r.nonce) with
  | nil => simp [List.map_eq_nil_iff.mp h]
  | cons n rest =>
    simp only []
    constructor
    · intro hc; cases hc
    · intro hc; rw [hc] at h; cases h

theorem lt_nextNonceOf {t : TxTable} {pk : String} {tx : TransactionData} {m : Nat}
    (htx : tx ∈ t.txs) (hpk : tx.pubKey = pk) (h : t.nextNonceOf pk = some m) :
    tx.nonce < m := by
  have hmemk : tx ∈ t.keyTxs pk := mem_keyTxs.mpr ⟨htx, hpk⟩
  have hmemn : tx.nonce ∈ (t.keyTxs pk).map (fun r => r.nonce) :=
    List.mem_map.mpr ⟨tx, hmemk, rfl⟩
  unfold TxTable.nextNonceOf at h
  cases hmap : (t.keyTxs pk).map (fun r => r.nonce) with
  | nil => rw [hmap] at hmemn; cases hmemn
  | cons n rest =>
    rw [hmap] at h hmemn
    simp only [Option.some.injEq] at h
    rcases List.mem_cons.mp hmemn with heq | hmem2
    · have := le_foldl_max rest n; omega
    · have := mem_le_foldl_max hmem2 n; omega

theorem nextNonceOf_isSome {t : TxTable} {pk : String} {tx : TransactionData}
    (htx : tx ∈ t.txs) (hpk : tx.pubKey = pk) : (t.nextNonceOf pk).isSome = true := by
  cases h : t.nextNonceOf pk with
  | some m => rfl
  | none =>
    have hk := nextNonceOf_eq_none.mp h
    have : tx ∈ t.keyTxs pk := mem_keyTxs.mpr ⟨htx, hpk⟩
    rw [hk] at this; cases this

theorem lowestAcceptable_of_nextNonce {t : TxTable} {pk : String} {c m : Nat}
    (h : t.nextNonceOf pk = some m) :
    TxService.LowestAcceptableNonce t c pk = some (max c m) := by
  unfold TxService.LowestAcceptableNonce
  rw [h]
  show (if m < c then some c else some m) = some (max c m)
  split
  · have hx : max c m = c := by omega
    rw [hx]
  · have hx : max c m = m := by omega
    rw [hx]

theorem lowestAcceptable_of_empty {t : TxTable} {pk : String} {c : Nat}
    (h : t.nextNonceOf pk = none) :
    TxService.LowestAcceptableNonce t c pk = if 0 < c then some c else none := by
  unfold TxService.LowestAcceptableNonce
  rw [h]
  rfl

theorem lowestAcceptable_gt {t : TxTable} {pk : String} {c L : Nat}
    {tx : TransactionData} (h : TxService.LowestAcceptableNonce t c pk = some L)
    (htx : tx ∈ t.txs) (hpk : tx.pubKey = pk) : tx.nonce < L := by
  cases hm : t.nextNonceOf pk with
  | none =>
    have : tx ∈ t.keyTxs pk := mem_keyTxs.mpr ⟨htx, hpk⟩
    rw [nextNonceOf_eq_none.mp hm] at this; cases this
  | some m =>
    rw [lowestAcceptable_of_nextNonce hm] at h
    have := lt_nextNonceOf htx hpk hm
    have hL : L = max c m := by injection h with h2; omega
    have := Nat.le_max_right c m
    omega

/-! ## Well-formedness and key-uniqueness preservation -/

theorem sameKey_eq_true {a b : TransactionData} :
    sameKey a b = true ↔ a.pubKey = b.pubKey ∧ a.nonce = b.nonce := by
  simp [sameKey]

theorem sameKey_eq_false {a b : TransactionData} :
    sameKey a b = false ↔ ¬(a.pubKey = b.pubKey ∧ a.nonce = b.nonce) := by
  rw [← Bool.not_eq_true, sameKey_eq_true]

theorem txId_beq_false {a b : TransactionData} (ha : a.txId.isSome = true)
    (hb : b.txId.isSome = true) (hne : idOf a ≠ idOf b) :
    (a.txId == b.txId) = false := by
  rcases Option.isSome_iff_exists.mp ha with ⟨i, hi⟩
  rcases Option.isSome_iff_exists.mp hb with ⟨j, hj⟩
  have : i ≠ j := by
    intro hij
    apply hne
    simp [idOf, hi, hj, hij]
  simp [hi, hj, this]

theorem filter_ne_id_perm :
    ∀ (l : List TransactionData), List.Pairwise (fun a b => idOf a < idOf b) l →
      (∀ r ∈ l, r.txId.isSome = true) → ∀ tx ∈ l,
      l.Perm (tx :: l.filter (fun r => !(r.txId == tx.txId))) := by
  intro l
  induction l with
  | nil => intro _ _ tx htx; cases htx
  | cons h rest ih =>
    intro hpw hsome tx htx
    rcases hpw with _ | ⟨hlt, hpw2⟩
    rcases List.mem_cons.mp htx with rfl | htx2
    · have hself : (tx.txId == tx.txId) = true := by simp
      have hfilter : rest.filter (fun r => !(r.txId == tx.txId)) = rest := by
        apply List.filter_eq_self.mpr
        intro r hr
        have := txId_beq_false (hsome r (List.mem_cons_of_mem tx hr))
          (hsome tx (List.mem_cons_self tx rest))
          (by have := hlt r hr; omega)
        simp [this]
      simp [List.filter_cons, hself, hfilter]
    · have hne : (h.txId == tx.txId) = false := by
        apply txId_beq_false (hsome h (List.mem_cons_self h rest))
          (hsome tx (List.mem_cons_of_mem h htx2))
        have := hlt tx htx2; omega
      have ihp := ih hpw2 (fun r hr => hsome r (List.mem_cons_of_mem h hr)) tx htx2
      simp only [List.filter_cons, hne, Bool.not_false, if_true]
      exact (ihp.cons h).trans (List.Perm.swap tx h _)

theorem idOf_newTx {tx : TransactionData} {i : Nat} :
    idOf { tx with txId := some i } = i := rfl

theorem WF_addTx {t : TxTable} (h : t.WF) (tx : TransactionData) :
    (t.addTx tx).WF := by
  obtain ⟨hpw, hsome, hlt⟩ := h
  refine ⟨?_, ?_, ?_⟩
  · simp only [TxTable.addTx]
    apply List.pairwise_append.mpr
    refine ⟨hpw.filter _, by simp, ?_⟩
    intro a ha b hb
    rw [List.mem_singleton] at hb
    subst hb
    rw [idOf_newTx]
    exact hlt a (List.mem_of_mem_filter ha)
  · simp only [TxTable.addTx]
    intro r hr
    rcases List.mem_append.mp hr with hr2 | hr2
    · exact hsome r (List.mem_of_mem_filter hr2)
    · rw [List.mem_singleton] at hr2; subst hr2; rfl
  · simp only [TxTable.addTx]
    intro r hr
    rcases List.mem_append.mp hr with hr2 | hr2
    · have := hlt r (List.mem_of_mem_filter hr2)
      omega
    · rw [List.mem_singleton] at hr2; subst hr2
      rw [idOf_newTx]; omega

theorem WF_filter {t : TxTable} (h : t.WF) (p : TransactionData → Bool) :
    TxTable.WF { t with txs := t.txs.filter p } := by
  obtain ⟨hpw, hsome, hlt⟩ := h
  exact ⟨hpw.filter p, fun r hr => hsome r (List.mem_of_mem_filter hr),
    fun r hr => hlt r (List.mem_of_mem_filter hr)⟩

theorem WF_removeTx {t : TxTable} (h : t.WF) (tx : TransactionData) :
    (t.removeTx tx).WF := WF_filter h _

theorem WF_clearBeforeId {t : TxTable} (h : t.WF) (i : Nat) :
    (t.clearBeforeId i).WF := WF_filter h _

theorem WF_remove {t : TxTable} (h : t.WF) (l : List TransactionData) :
    (t.remove l).WF := by
  induction l generalizing t with
  | nil => exact h
  | cons x xs ih => exact ih (WF_removeTx h x)

theorem WF_add {t : TxTable} (h : t.WF) (l : List TransactionData) :
    (t.add l).WF := by
  induction l generalizing t with
  | nil => exact h
  | cons x xs ih => exact ih (WF_addTx h x)

theorem KeysUnique_filter {t : TxTable} (h : t.KeysUnique)
    (p : TransactionData → Bool) :
    TxTable.KeysUnique { t with txs := t.txs.filter p } := h.filter p

theorem KeysUnique_removeTx {t : TxTable} (h : t.KeysUnique)
    (tx : TransactionData) : (t.removeTx tx).KeysUnique := h.filter _

theorem KeysUnique_clearBeforeId {t : TxTable} (h : t.KeysUnique) (i : Nat) :
    (t.clearBeforeId i).KeysUnique := h.filter _

theorem KeysUnique_remove {t : TxTable} (h : t.KeysUnique)
    (l : List TransactionData) : (t.remove l).KeysUnique := by
  induction l generalizing t with
  | nil => exact h
  | cons x xs ih => exact ih (KeysUnique_removeTx h x)

theorem KeysUnique_addTx {t : TxTable} (h : t.KeysUnique)
    (tx : TransactionData) : (t.addTx tx).KeysUnique := by
  unfold TxTable.KeysUnique at h ⊢
  simp only [TxTable.addTx]
  apply List.pairwise_append.mpr
  refine ⟨h.filter _, by simp, ?_⟩
  intro a ha b hb
  rw [List.mem_singleton] at hb
  subst hb
  have hkey := List.of_mem_filter ha
  rw [Bool.not_eq_true'] at hkey
  have := sameKey_eq_false.mp hkey
  intro hc
  exact this ⟨hc.1, hc.2⟩

theorem KeysUnique_add {t : TxTable} (h : t.KeysUnique)
    (l : List TransactionData) : (t.add l).KeysUnique := by
  induction l generalizing t with
  | nil => exact h
  | cons x xs ih => exact ih (KeysUnique_addTx h x)

theorem count_addTx_le {t : TxTable} {tx : TransactionData} :
    (t.addTx tx).count ≤ t.count + 1 := by
  simp only [TxTable.addTx, TxTable.count, List.length_append, List.length_cons,
    List.length_nil]
  have := List.length_filter_le (fun r => !(sameKey r tx)) t.txs
  omega

theorem count_removeTx_le {t : TxTable} {tx : TransactionData} :
    (t.removeTx tx).count ≤ t.count :=
  List.length_filter_le _ t.txs

theorem count_remove_le {t : TxTable} {l : List TransactionData} :
    (t.remove l).count ≤ t.count := by
  induction l generalizing t with
  | nil => exact le_refl _
  | cons x xs ih => exact le_trans ih count_removeTx_le

theorem count_clearBeforeId_le {t : TxTable} {i : Nat} :
    (t.clearBeforeId i).count ≤ t.count :=
  List.length_filter_le _ t.txs

/-! ## Claim C2 -/

/-- Claim C2 (code bug evidence): the specification states that
`lowestAcceptable = max(chainNextNonce, readyPool.nextNonceOf(account) ?? chainNextNonce)`,
so with no Ready records the result should equal `chainNextNonce`, including
for `chainNextNonce = 0`.  The source instead evaluates
`ethers.BigNumber.from(nextLocalNonce)` with `nextLocalNonce = null` in
exactly that case, which throws (embedded as `none`): at `chainNextNonce = 0`
with an empty Ready pool the code crashes where the specified formula yields
`0`, and a whole `add` call at that input throws `invalidBigNumber` instead
of accepting the nonce-0 operation. -/
theorem C2_lowestAcceptableNonce_crashes_at_zero :
    TxService.LowestAcceptableNonce TxTable.empty 0 "a" = none ∧
    specLowestAcceptableNonce TxTable.empty 0 "a" = 0 ∧
    (TxService.add { txQueryLimit := 8, maxFutureTxs := 8 } {} []
        0 { pubKey := "a", nonce := 0, tokenRewardAmount := 1 }).result =
      Except.error TxError.invalidBigNumber :=
  ⟨rfl, rfl, rfl⟩

/-! ## Branch equations for the engine entry point -/

theorem add_eq_failures {cfg : TxServiceConfig} {st : TxServiceState}
    {fs : List AddTransactionFailure} {nn : Nat} {txData : TransactionData}
    (h : fs ≠ []) :
    TxService.add cfg st fs nn txData = { result := Except.ok fs, state := st } := by
  unfold TxService.add
  rw [if_pos (by cases fs with | nil => exact absurd rfl h | cons a l => simp)]

theorem add_eq_error_bignum {cfg : TxServiceConfig} {st : TxServiceState}
    {nn : Nat} {txData : TransactionData}
    (h : TxService.LowestAcceptableNonce st.readyTxTable nn txData.pubKey = none) :
    TxService.add cfg st [] nn txData =
      { result := Except.error TxError.invalidBigNumber, state := st } := by
  unfold TxService.add
  rw [if_neg (by simp), h]

theorem add_eq_replace {cfg : TxServiceConfig} {st : TxServiceState}
    {nn L : Nat} {txData : TransactionData}
    (hL : TxService.LowestAcceptableNonce st.readyTxTable nn txData.pubKey = some L)
    (hlt : txData.nonce < L) :
    TxService.add cfg st [] nn txData = TxService.replaceReadyTx cfg L st txData := by
  unfold TxService.add
  rw [if_neg (by simp), hL]
  exact if_pos hlt

theorem add_eq_ready {cfg : TxServiceConfig} {st : TxServiceState}
    {nn L : Nat} {txData : TransactionData} {e : Option TxError}
    {st2 : TxServiceState}
    (hL : TxService.LowestAcceptableNonce st.readyTxTable nn txData.pubKey = some L)
    (heq : L = txData.nonce)
    (hloop : TxService.tryMoveFutureTxs cfg txData.pubKey (L + 1)
      { st with readyTxTable := st.readyTxTable.addTx txData } = (e, st2)) :
    TxService.add cfg st [] nn txData =
      { result := e.elim (Except.ok []) Except.error, state := st2 } := by
  unfold TxService.add
  rw [if_neg (by simp), hL]
  show (if txData.nonce < L then TxService.replaceReadyTx cfg L st txData
    else if L = txData.nonce then _ else _) = _
  rw [if_neg (by omega), if_pos heq]
  show (match TxService.tryMoveFutureTxs cfg txData.pubKey (L + 1)
      { st with readyTxTable := st.readyTxTable.addTx txData } with
    | (none, st2) => ({ result := Except.ok [], state := st2 } : AddOutcome)
    | (some e, st2) => ({ result := Except.error e, state := st2 } : AddOutcome)) = _
  cases e with
  | none => rw [hloop]; rfl
  | some err => rw [hloop]; rfl

theorem add_eq_future {cfg : TxServiceConfig} {st : TxServiceState}
    {nn L : Nat} {txData : TransactionData}
    (hL : TxService.LowestAcceptableNonce st.readyTxTable nn txData.pubKey = some L)
    (hgt : L < txData.nonce) :
    TxService.add cfg st [] nn txData =
      { result := Except.ok []
        state := { st with futureTxTable :=
          (TxService.ensureFutureTxSpace cfg st.futureTxTable).addTx txData } } := by
  unfold TxService.add
  rw [if_neg (by simp), hL]
  show (if txData.nonce < L then TxService.replaceReadyTx cfg L st txData
    else if L = txData.nonce then _ else _) = _
  rw [if_neg (by omega), if_neg (by omega)]

/-! ## Branch equations for replacement -/

theorem replace_eq_dup {cfg : TxServiceConfig} {st : TxServiceState}
    {L : Nat} {txData : TransactionData}
    (hnone : st.readyTxTable.find txData.pubKey txData.nonce = none) :
    TxService.replaceReadyTx cfg L st txData =
      { result := Except.ok [duplicateNonceFailure txData], state := st } := by
  unfold TxService.replaceReadyTx
  rw [hnone]

theorem replace_eq_insufficient {cfg : TxServiceConfig} {st : TxServiceState}
    {L : Nat} {txData ex : TransactionData}
    (hfind : st.readyTxTable.find txData.pubKey txData.nonce = some ex)
    (hnb : txData.tokenRewardAmount ≤ ex.tokenRewardAmount) :
    TxService.replaceReadyTx cfg L st txData =
      { result := Except.ok [insufficientRewardFailure txData ex], state := st } := by
  unfold TxService.replaceReadyTx
  rw [hfind]
  show (if !(TxService.isRewardBetter txData ex) then _ else _) = _
  rw [if_pos (by simp [TxService.isRewardBetter]; omega)]

theorem replace_eq_swap_last {cfg : TxServiceConfig} {st : TxServiceState}
    {L : Nat} {txData ex : TransactionData}
    (hfind : st.readyTxTable.find txData.pubKey txData.nonce = some ex)
    (hb : ex.tokenRewardAmount < txData.tokenRewardAmount)
    (hlast : L - 1 = txData.nonce) :
    TxService.replaceReadyTx cfg L st txData =
      { result := Except.ok []
        state := { st with readyTxTable :=
          (st.readyTxTable.removeTx ex).addTx txData } } := by
  unfold TxService.replaceReadyTx
  rw [hfind]
  show (if !(TxService.isRewardBetter txData ex) then _ else _) = _
  rw [if_neg (by simp [TxService.isRewardBetter]; omega), if_pos hlast]

theorem replace_eq_swap_cascade {cfg : TxServiceConfig} {st : TxServiceState}
    {L : Nat} {txData ex : TransactionData} {e : Option TxError}
    {st2 : TxServiceState}
    (hfind : st.readyTxTable.find txData.pubKey txData.nonce = some ex)
    (hb : ex.tokenRewardAmount < txData.tokenRewardAmount)
    (hnl : L - 1 ≠ txData.nonce)
    (hloop : TxService.replaceReadyTxLoop cfg txData.pubKey
      (((st.readyTxTable.removeTx ex).addTx txData).count + 1) txData.nonce
      { st with readyTxTable := (st.readyTxTable.removeTx ex).addTx txData } =
      (e, st2)) :
    TxService.replaceReadyTx cfg L st txData =
      { result := e.elim (Except.ok []) Except.error, state := st2 } := by
  unfold TxService.replaceReadyTx
  rw [hfind]
  show (if !(TxService.isRewardBetter txData ex) then _ else _) = _
  rw [if_neg (by simp [TxService.isRewardBetter]; omega), if_neg hnl]
  show (match TxService.replaceReadyTxLoop cfg txData.pubKey
      (((st.readyTxTable.removeTx ex).addTx txData).count + 1) txData.nonce
      { st with readyTxTable := (st.readyTxTable.removeTx ex).addTx txData } with
    | (none, st2) => ({ result := Except.ok [], state := st2 } : AddOutcome)
    | (some e, st2) => ({ result := Except.error e, state := st2 } : AddOutcome)) = _
  cases e with
  | none => rw [hloop]; rfl
  | some err => rw [hloop]; rfl

/-! ## Claim C9 -/

/-- Claim C9 (confirmed): a submitted operation whose nonce is below the
account's lowest-acceptable nonce, when the Ready pool holds no record at
that (account, nonce), is rejected with the "duplicate-nonce" failure as the
sole rejection reason and both pools are left untouched. -/
theorem C9_duplicate_nonce_race (cfg : TxServiceConfig) (st : TxServiceState)
    (nextNonce L : Nat) (txData : TransactionData)
    (hL : TxService.LowestAcceptableNonce st.readyTxTable nextNonce
      txData.pubKey = some L)
    (hlt : txData.nonce < L)
    (hnone : st.readyTxTable.find txData.pubKey txData.nonce = none) :
    TxService.add cfg st [] nextNonce txData =
      { result := Except.ok [duplicateNonceFailure txData], state := st } := by
  rw [add_eq_replace hL hlt]
  exact replace_eq_dup hnone

/-- Witness for C9 at a concrete input: the Ready pool holds nonce 5 for the
account, so nonce 4 is below the lowest acceptable, and no record sits at
nonce 4. -/
theorem C9_duplicate_nonce_race_witness :
    TxService.add { txQueryLimit := 8, maxFutureTxs := 8 }
        { readyTxTable := { txs := [{ txId := some 0, pubKey := "a", nonce := 5, tokenRewardAmount := 1, payload := "x" }], nextId := 1 } }
        [] 5
        { pubKey := "a", nonce := 4, tokenRewardAmount := 9, payload := "y" } =
      { result := Except.ok [duplicateNonceFailure { pubKey := "a", nonce := 4, tokenRewardAmount := 9, payload := "y" }]
        state := { readyTxTable := { txs := [{ txId := some 0, pubKey := "a", nonce := 5, tokenRewardAmount := 1, payload := "x" }], nextId := 1 } } } :=
  C9_duplicate_nonce_race _ _ 5 6 _ (by decide) (by decide) (by decide)

/-! ## Claim C10 -/

/-- Claim C10 (confirmed): whenever `add` returns a non-empty rejection list
— oracle validation failures, "duplicate-nonce", or "insufficient-reward" —
neither pool has been mutated: every rejecting path returns before any pool
write. -/
theorem C10_rejection_atomicity (cfg : TxServiceConfig) (st : TxServiceState)
    (fs : List AddTransactionFailure) (nextNonce : Nat)
    (txData : TransactionData) (fs' : List AddTransactionFailure)
    (h : (TxService.add cfg st fs nextNonce txData).result = Except.ok fs')
    (hne : fs' ≠ []) :
    (TxService.add cfg st fs nextNonce txData).state = st := by
  by_cases hfs : fs = []
  · subst hfs
    cases hLo : TxService.LowestAcceptableNonce st.readyTxTable nextNonce
      txData.pubKey with
    | none => rw [add_eq_error_bignum hLo]
    | some L =>
      rcases Nat.lt_trichotomy txData.nonce L with hlt | heq | hgt
      · rw [add_eq_replace hLo hlt] at h ⊢
        cases hfind : st.readyTxTable.find txData.pubKey txData.nonce with
        | none => rw [replace_eq_dup hfind]
        | some ex =>
          by_cases hbr : ex.tokenRewardAmount < txData.tokenRewardAmount
          · by_cases hlast : L - 1 = txData.nonce
            · rw [replace_eq_swap_last hfind hbr hlast] at h
              simp only [Except.ok.injEq] at h
              exact absurd h.symm hne
            · obtain ⟨e, st2, hloop⟩ : ∃ e st2,
                TxService.replaceReadyTxLoop cfg txData.pubKey
                  (((st.readyTxTable.removeTx ex).addTx txData).count + 1)
                  txData.nonce
                  { st with readyTxTable :=
                    (st.readyTxTable.removeTx ex).addTx txData } = (e, st2) :=
                ⟨_, _, rfl⟩
              rw [replace_eq_swap_cascade hfind hbr hlast hloop] at h
              cases e with
              | none =>
                simp only [Option.elim, Except.ok.injEq] at h
                exact absurd h.symm hne
              | some err => simp only [Option.elim] at h; cases h
          · rw [replace_eq_insufficient hfind (by omega)]
      · obtain ⟨e, st2, hloop⟩ : ∃ e st2,
          TxService.tryMoveFutureTxs cfg txData.pubKey (L + 1)
            { st with readyTxTable := st.readyTxTable.addTx txData } =
            (e, st2) := ⟨_, _, rfl⟩
        rw [add_eq_ready hLo heq.symm hloop] at h
        cases e with
        | none =>
          simp only [Option.elim, Except.ok.injEq] at h
          exact absurd h.symm hne
        | some err => simp only [Option.elim] at h; cases h
      · rw [add_eq_future hLo hgt] at h
        simp only [Except.ok.injEq] at h
        exact absurd h.symm hne
  · rw [add_eq_failures hfs]

/-- Witness for C10 at a concrete input: a validation failure from the
oracle leaves the (empty) state unchanged. -/
theorem C10_rejection_atomicity_witness :
    (TxService.add { txQueryLimit := 8, maxFutureTxs := 8 } {}
        [{ type := "invalid-signature", description := "bad" }] 3
        { pubKey := "a", nonce := 3, tokenRewardAmount := 1 }).state =
      ({} : TxServiceState) :=
  C10_rejection_atomicity _ _ _ 3 _
    [{ type := "invalid-signature", description := "bad" }] (by decide)
    (by decide)

/-! ## Loop invariance principles -/

theorem tryMoveLoop_invariant (cfg : TxServiceConfig) (pk : String)
    (P : TxServiceState → Prop)
    (hstep : ∀ st floor, P st →
      P { readyTxTable := (st.readyTxTable.add
            (TxService.scanFutureTxs floor
              (st.futureTxTable.pubKeyTxsInNonceOrder pk cfg.txQueryLimit)).txsToAdd)
          futureTxTable := (st.futureTxTable.remove
            (TxService.scanFutureTxs floor
              (st.futureTxTable.pubKeyTxsInNonceOrder pk cfg.txQueryLimit)).futureTxsToRemove) }) :
    ∀ fuel floor st, P st →
      P (TxService.tryMoveFutureTxsLoop cfg pk fuel floor st).2 := by
  intro fuel
  induction fuel with
  | zero => intro floor st h; exact h
  | succ n ih =>
    intro floor st h
    unfold TxService.tryMoveFutureTxsLoop
    dsimp only
    split
    · exact ih _ _ (hstep st floor h)
    · exact hstep st floor h

theorem replaceLoop_invariant (cfg : TxServiceConfig) (pk : String)
    (P : TxServiceState → Prop)
    (hstep : ∀ st last, P st →
      P { st with readyTxTable := (TxService.reinsertFollowups st.readyTxTable
            (st.readyTxTable.findAfter pk last cfg.txQueryLimit)) }) :
    ∀ fuel last st, P st →
      P (TxService.replaceReadyTxLoop cfg pk fuel last st).2 := by
  intro fuel
  induction fuel with
  | zero => intro last st h; exact h
  | succ n ih =>
    intro last st h
    unfold TxService.replaceReadyTxLoop
    dsimp only
    split
    · exact h
    · split
      · exact hstep st last h
      · exact ih _ _ (hstep st last h)

theorem replaceLoop_futureTxTable (cfg : TxServiceConfig) (pk : String)
    (fuel last : Nat) (st : TxServiceState) :
    ((TxService.replaceReadyTxLoop cfg pk fuel last st).2).futureTxTable =
      st.futureTxTable :=
  replaceLoop_invariant cfg pk
    (fun s => s.futureTxTable = st.futureTxTable)
    (fun _ _ h => h) fuel last st rfl

theorem ensure_nextId (cfg : TxServiceConfig) (t : TxTable) :
    (TxService.ensureFutureTxSpace cfg t).nextId = t.nextId := by
  unfold TxService.ensureFutureTxSpace
  dsimp only
  split
  · split <;> rfl
  · rfl

theorem ensure_keysUnique {cfg : TxServiceConfig} {t : TxTable}
    (h : t.KeysUnique) : (TxService.ensureFutureTxSpace cfg t).KeysUnique := by
  unfold TxService.ensureFutureTxSpace
  dsimp only
  split
  · split
    · exact h
    · exact KeysUnique_clearBeforeId h _
  · exact h

theorem ensure_WF {cfg : TxServiceConfig} {t : TxTable} (h : t.WF) :
    (TxService.ensureFutureTxSpace cfg t).WF := by
  unfold TxService.ensureFutureTxSpace
  dsimp only
  split
  · split
    · exact h
    · exact WF_clearBeforeId h _
  · exact h

theorem find_addTx_self (t : TxTable) (tx : TransactionData) :
    (t.addTx tx).find tx.pubKey tx.nonce =
      some { tx with txId := some t.nextId } := by
  unfold TxTable.find TxTable.addTx
  dsimp only
  rw [List.find?_append]
  have h1 : (t.txs.filter fun r => !(sameKey r tx)).find?
      (fun r => r.pubKey == tx.pubKey && r.nonce == tx.nonce) = none := by
    rw [List.find?_eq_none]
    intro r hr
    have h2 := List.of_mem_filter hr
    simp only [Bool.not_eq_true'] at h2
    unfold sameKey at h2
    simp [h2]
  rw [h1]
  simp

/-- Every step of the engine entry point transforms the state through one of
six shapes: unchanged, the replacement swap, reinsert pages of the cascade,
the ready insertion, promotion pages, or eviction plus future insertion.  A
predicate preserved by all of them holds of the state `add` returns. -/
theorem add_preserves (cfg : TxServiceConfig) (st : TxServiceState)
    (fs : List AddTransactionFailure) (nn : Nat) (txData : TransactionData)
    (P : TxServiceState → Prop)
    (hP : P st)
    (hswap : ∀ ex, st.readyTxTable.find txData.pubKey txData.nonce = some ex →
      P { st with readyTxTable := ((st.readyTxTable.removeTx ex).addTx txData) })
    (hreinsert : ∀ s last, P s →
      P { s with readyTxTable := (TxService.reinsertFollowups s.readyTxTable
          (s.readyTxTable.findAfter txData.pubKey last cfg.txQueryLimit)) })
    (hready : P { st with readyTxTable := (st.readyTxTable.addTx txData) })
    (hmove : ∀ s floor, P s →
      P { readyTxTable := (s.readyTxTable.add
            (TxService.scanFutureTxs floor
              (s.futureTxTable.pubKeyTxsInNonceOrder txData.pubKey
                cfg.txQueryLimit)).txsToAdd)
          futureTxTable := (s.futureTxTable.remove
            (TxService.scanFutureTxs floor
              (s.futureTxTable.pubKeyTxsInNonceOrder txData.pubKey
                cfg.txQueryLimit)).futureTxsToRemove) })
    (hfuture : P { st with futureTxTable :=
      ((TxService.ensureFutureTxSpace cfg st.futureTxTable).addTx txData) }) :
    P (TxService.add cfg st fs nn txData).state := by
  by_cases hfs : fs = []
  · subst hfs
    cases hLo : TxService.LowestAcceptableNonce st.readyTxTable nn
      txData.pubKey with
    | none => rw [add_eq_error_bignum hLo]; exact hP
    | some L =>
      rcases Nat.lt_trichotomy txData.nonce L with hlt | heq | hgt
      · rw [add_eq_replace hLo hlt]
        cases hfind : st.readyTxTable.find txData.pubKey txData.nonce with
        | none => rw [replace_eq_dup hfind]; exact hP
        | some ex =>
          by_cases hbr : ex.tokenRewardAmount < txData.tokenRewardAmount
          · by_cases hlast : L - 1 = txData.nonce
            · rw [replace_eq_swap_last hfind hbr hlast]; exact hswap ex hfind
            · obtain ⟨e, st2, hloop⟩ : ∃ e st2,
                TxService.replaceReadyTxLoop cfg txData.pubKey
                  (((st.readyTxTable.removeTx ex).addTx txData).count + 1)
                  txData.nonce
                  { st with readyTxTable :=
                    (st.readyTxTable.removeTx ex).addTx txData } = (e, st2) :=
                ⟨_, _, rfl⟩
              rw [replace_eq_swap_cascade hfind hbr hlast hloop]
              have hinv := replaceLoop_invariant cfg txData.pubKey P hreinsert
                (((st.readyTxTable.removeTx ex).addTx txData).count + 1)
                txData.nonce
                { st with readyTxTable :=
                  (st.readyTxTable.removeTx ex).addTx txData }
                (hswap ex hfind)
              rw [hloop] at hinv
              exact hinv
          · rw [replace_eq_insufficient hfind (by omega)]; exact hP
      · obtain ⟨e, st2, hloop⟩ : ∃ e st2,
          TxService.tryMoveFutureTxs cfg txData.pubKey (L + 1)
            { st with readyTxTable := st.readyTxTable.addTx txData } =
            (e, st2) := ⟨_, _, rfl⟩
        rw [add_eq_ready hLo heq.symm hloop]
        have hinv := tryMoveLoop_invariant cfg txData.pubKey P hmove
          ((({ st with readyTxTable := st.readyTxTable.addTx txData }
            : TxServiceState).futureTxTable.count) + 1) (L + 1)
          { st with readyTxTable := st.readyTxTable.addTx txData } hready
        rw [show TxService.tryMoveFutureTxsLoop cfg txData.pubKey
          ((({ st with readyTxTable := st.readyTxTable.addTx txData }
            : TxServiceState).futureTxTable.count) + 1) (L + 1)
          { st with readyTxTable := st.readyTxTable.addTx txData } =
          TxService.tryMoveFutureTxs cfg txData.pubKey (L + 1)
          { st with readyTxTable := st.readyTxTable.addTx txData } from rfl,
          hloop] at hinv
        exact hinv
      · rw [add_eq_future hLo hgt]; exact hfuture
  · rw [add_eq_failures hfs]; exact hP

/-! ## Claim C8 -/

theorem submit_future_keysUnique (cfg : TxServiceConfig) (st : TxServiceState)
    (s : Submission) (h : st.futureTxTable.KeysUnique) :
    (submitStep cfg st s).futureTxTable.KeysUnique := by
  unfold submitStep
  apply add_preserves cfg st _ _ _ (fun x => x.futureTxTable.KeysUnique) h
  · intro ex _; exact h
  · intro s2 last hs; exact hs
  · exact h
  · intro s2 floor hs; exact KeysUnique_remove hs _
  · exact KeysUnique_addTx (ensure_keysUnique h) _

theorem runFrom_future_keysUnique (cfg : TxServiceConfig)
    (subs : List Submission) :
    ∀ st : TxServiceState, st.futureTxTable.KeysUnique →
      (runSubmissionsFrom cfg st subs).futureTxTable.KeysUnique := by
  induction subs with
  | nil => intro st h; exact h
  | cons x xs ih =>
    intro st h
    exact ih _ (submit_future_keysUnique cfg st x h)

/-- Claim C8 (confirmed, spec-modelled pool): the Future pool never holds
two records at the same (account, nonce) after any run of `submit` calls
from empty pools, and a future-nonce submission at an (account, nonce)
already stored entirely supersedes the stored record: afterwards the pool
holds the newly submitted operation under a fresh id, strictly larger than
every id previously assigned, in particular than the superseded record's. -/
theorem C8_future_supersession :
    (∀ (cfg : TxServiceConfig) (subs : List Submission),
      (runSubmissions cfg subs).futureTxTable.KeysUnique) ∧
    (∀ (cfg : TxServiceConfig) (st : TxServiceState) (nn : Nat)
      (txData old : TransactionData) (L : Nat),
      st.futureTxTable.WF →
      TxService.LowestAcceptableNonce st.readyTxTable nn txData.pubKey = some L →
      L < txData.nonce →
      st.futureTxTable.find txData.pubKey txData.nonce = some old →
      (TxService.add cfg st [] nn txData).state.futureTxTable.find
          txData.pubKey txData.nonce =
        some { txData with txId := some st.futureTxTable.nextId } ∧
      idOf old < st.futureTxTable.nextId) := by
  constructor
  · intro cfg subs
    exact runFrom_future_keysUnique cfg subs {} List.Pairwise.nil
  · intro cfg st nn txData old L hWF hL hgt hfind
    rw [add_eq_future hL hgt]
    constructor
    · have hf := find_addTx_self
        (TxService.ensureFutureTxSpace cfg st.futureTxTable) txData
      rw [ensure_nextId] at hf
      exact hf
    · exact hWF.idsBelowNext old (find_eq_some hfind).1

/-- Witness for C8 at concrete inputs: a three-submission run keeps future
keys unique, and re-submitting (account "a", nonce 7) supersedes the stored
record under the fresh id 4. -/
theorem C8_future_supersession_witness :
    (runSubmissions { txQueryLimit := 8, maxFutureTxs := 8 }
      [{ txData := { pubKey := "a", nonce := 7, tokenRewardAmount := 1 }, nextNonce := 5 },
       { txData := { pubKey := "a", nonce := 7, tokenRewardAmount := 2 }, nextNonce := 5 },
       { txData := { pubKey := "b", nonce := 9, tokenRewardAmount := 1 }, nextNonce := 5 }]).futureTxTable.KeysUnique ∧
    ((TxService.add { txQueryLimit := 8, maxFutureTxs := 8 }
        { futureTxTable := { txs := [{ txId := some 3, pubKey := "a", nonce := 7, tokenRewardAmount := 1, payload := "p" }], nextId := 4 } }
        [] 5 { pubKey := "a", nonce := 7, tokenRewardAmount := 2, payload := "q" }).state.futureTxTable.find
        "a" 7 =
      some { txId := some 4, pubKey := "a", nonce := 7, tokenRewardAmount := 2, payload := "q" } ∧
      idOf { txId := some 3, pubKey := "a", nonce := 7, tokenRewardAmount := 1, payload := "p" } < 4) :=
  ⟨C8_future_supersession.1 _ _,
    C8_future_supersession.2 _ _ 5 _ _ 5 ⟨by decide, by decide, by decide⟩
      (by decide) (by decide) (by decide)⟩

/-! ## Claim C6 -/

theorem clearBeforeId_head {t : TxTable} (hWF : t.WF)
    {h0 : TransactionData} {rest : List TransactionData}
    (heq : t.txs = h0 :: rest) :
    (t.clearBeforeId (idOf h0 + 1)).txs = rest := by
  unfold TxTable.clearBeforeId
  dsimp only
  rw [heq]
  rw [List.filter_cons]
  have hhead : decide (idOf h0 + 1 ≤ idOf h0) = false := by
    simp
  rw [hhead]
  simp only [Bool.false_eq_true, if_false]
  apply List.filter_eq_self.mpr
  intro r hr
  have hpw := hWF.idsSorted
  rw [heq] at hpw
  rcases hpw with _ | ⟨hlt, _⟩
  have := hlt r hr
  simp
  omega

theorem ensure_count_lt {cfg : TxServiceConfig} {t : TxTable} (hWF : t.WF)
    (hmax : 1 ≤ cfg.maxFutureTxs) (hle : t.count ≤ cfg.maxFutureTxs) :
    (TxService.ensureFutureTxSpace cfg t).count < cfg.maxFutureTxs := by
  unfold TxService.ensureFutureTxSpace
  dsimp only
  split
  · have hcnt : t.count = cfg.maxFutureTxs := le_antisymm hle (by assumption)
    split
    · exfalso
      rename_i hFirst
      have hnil : t.txs = [] := by
        cases htxs : t.txs with
        | nil => rfl
        | cons a l =>
          exfalso
          have hsome : t.First = some a := by
            unfold TxTable.First; rw [htxs]; rfl
          rw [hFirst] at hsome
          cases hsome
      rw [TxTable.count, hnil] at hcnt
      simp at hcnt
      omega
    · rename_i first hFirst
      have htxs : ∃ rest, t.txs = first :: rest := by
        unfold TxTable.First at hFirst
        cases htxs : t.txs with
        | nil => rw [htxs] at hFirst; cases hFirst
        | cons a l =>
          rw [htxs] at hFirst
          simp only [List.head?_cons, Option.some.injEq] at hFirst
          exact ⟨l, by rw [hFirst]⟩
      obtain ⟨rest, hrest⟩ := htxs
      have hexcess : t.count - cfg.maxFutureTxs + 1 = 1 := by omega
      rw [hexcess]
      have := clearBeforeId_head hWF hrest
      show (t.clearBeforeId (idOf first + 1)).txs.length < cfg.maxFutureTxs
      rw [this]
      have : t.count = rest.length + 1 := by
        rw [TxTable.count, hrest]; simp
      omega
  · have : ¬ cfg.maxFutureTxs ≤ t.count := by assumption
    omega

theorem submit_future_cap (cfg : TxServiceConfig)
    (hmax : 1 ≤ cfg.maxFutureTxs) (st : TxServiceState) (s : Submission)
    (h : st.futureTxTable.WF ∧ st.futureTxTable.count ≤ cfg.maxFutureTxs) :
    (submitStep cfg st s).futureTxTable.WF ∧
      (submitStep cfg st s).futureTxTable.count ≤ cfg.maxFutureTxs := by
  unfold submitStep
  apply add_preserves cfg st _ _ _
    (fun x => x.futureTxTable.WF ∧ x.futureTxTable.count ≤ cfg.maxFutureTxs) h
  · intro ex _; exact h
  · intro s2 last hs; exact hs
  · exact h
  · intro s2 floor hs
    exact ⟨WF_remove hs.1 _, le_trans count_remove_le hs.2⟩
  · refine ⟨WF_addTx (ensure_WF h.1) _, ?_⟩
    have h1 := ensure_count_lt h.1 hmax h.2
    have h2 := @count_addTx_le
      (TxService.ensureFutureTxSpace cfg st.futureTxTable) s.txData
    show ((TxService.ensureFutureTxSpace cfg st.futureTxTable).addTx
      s.txData).count ≤ cfg.maxFutureTxs
    omega

theorem runFrom_future_cap (cfg : TxServiceConfig)
    (hmax : 1 ≤ cfg.maxFutureTxs) (subs : List Submission) :
    ∀ st : TxServiceState,
      st.futureTxTable.WF ∧ st.futureTxTable.count ≤ cfg.maxFutureTxs →
      (runSubmissionsFrom cfg st subs).futureTxTable.WF ∧
        (runSubmissionsFrom cfg st subs).futureTxTable.count ≤
          cfg.maxFutureTxs := by
  induction subs with
  | nil => intro st h; exact h
  | cons x xs ih =>
    intro st h
    exact ih _ (submit_future_cap cfg hmax st x h)

/-- Claim C6 (counterexample): with the degenerate cap `maxFutureTxs = 0`,
a single future-nonce submission leaves one record in the Future pool, so
the count exceeds the configured cap: the eviction step finds the pool
empty, skips pruning, and the insertion overshoots. -/
theorem C6_future_capacity_counterexample :
    ¬((runSubmissions { txQueryLimit := 8, maxFutureTxs := 0 }
        [{ txData := { pubKey := "a", nonce := 7, tokenRewardAmount := 1 }, nextNonce := 5 }]).futureTxTable.count ≤
      ({ txQueryLimit := 8, maxFutureTxs := 0 } : TxServiceConfig).maxFutureTxs) := by
  decide

/-- Claim C6 (amended, confirmed): for every positive cap
`maxFutureTxs ≥ 1`, after any sequence of `submit` calls from empty pools
the Future pool count never exceeds the cap. -/
theorem C6_future_capacity (cfg : TxServiceConfig)
    (hmax : 1 ≤ cfg.maxFutureTxs) (subs : List Submission) :
    (runSubmissions cfg subs).futureTxTable.count ≤ cfg.maxFutureTxs :=
  (runFrom_future_cap cfg hmax subs {}
    ⟨⟨List.Pairwise.nil, fun _ h => absurd h (List.not_mem_nil _),
      fun _ h => absurd h (List.not_mem_nil _)⟩, by simp [TxTable.count]⟩).2

/-- Witness for C6 at a concrete input: a run that fills the future pool to
its cap of 2 and then submits one more future-nonce operation. -/
theorem C6_future_capacity_witness :
    (runSubmissions { txQueryLimit := 8, maxFutureTxs := 2 }
      [{ txData := { pubKey := "a", nonce := 7, tokenRewardAmount := 1 }, nextNonce := 5 },
       { txData := { pubKey := "a", nonce := 8, tokenRewardAmount := 1 }, nextNonce := 5 },
       { txData := { pubKey := "a", nonce := 9, tokenRewardAmount := 1 }, nextNonce := 5 }]).futureTxTable.count ≤
      ({ txQueryLimit := 8, maxFutureTxs := 2 } : TxServiceConfig).maxFutureTxs :=
  C6_future_capacity _ (by decide) _

/-! ## Claim C7 -/

/-- Claim C7 (counterexample): with cap 0 the pool can sit above capacity
(one record, reachable because eviction on the empty pool is skipped); the
next future-nonce submission computes excess = count - cap + 1 = 2, yet the
eviction removes only 1 record — not "exactly the excess many oldest
records" the claim asserts, since fewer than excess ids lie below the
threshold. -/
theorem C7_eviction_counterexample :
    (runSubmissions { txQueryLimit := 8, maxFutureTxs := 0 }
        [{ txData := { pubKey := "a", nonce := 7, tokenRewardAmount := 1 }, nextNonce := 5 }]).futureTxTable.count = 1 ∧
    ((runSubmissions { txQueryLimit := 8, maxFutureTxs := 0 }
        [{ txData := { pubKey := "a", nonce := 7, tokenRewardAmount := 1 }, nextNonce := 5 }]).futureTxTable.count -
      ({ txQueryLimit := 8, maxFutureTxs := 0 } : TxServiceConfig).maxFutureTxs + 1) = 2 ∧
    ((runSubmissions { txQueryLimit := 8, maxFutureTxs := 0 }
        [{ txData := { pubKey := "a", nonce := 7, tokenRewardAmount := 1 }, nextNonce := 5 }]).futureTxTable.count -
      (TxService.ensureFutureTxSpace { txQueryLimit := 8, maxFutureTxs := 0 }
        (runSubmissions { txQueryLimit := 8, maxFutureTxs := 0 }
          [{ txData := { pubKey := "a", nonce := 7, tokenRewardAmount := 1 }, nextNonce := 5 }]).futureTxTable).count) = 1 := by
  decide

/-- Claim C7 (amended, confirmed): when a future-nonce operation is
submitted with the Future pool exactly at a positive capacity — the only
at-or-above-capacity situation reachable under a positive cap — the
eviction removes exactly the one (= excess) globally oldest record, the one
with id below `first().id + 1`, across all accounts, and the Ready pool is
not touched by the submission. -/
theorem C7_eviction_oldest_first (cfg : TxServiceConfig)
    (st : TxServiceState) (nn L : Nat) (txData : TransactionData)
    (hWF : st.futureTxTable.WF)
    (hL : TxService.LowestAcceptableNonce st.readyTxTable nn txData.pubKey =
      some L)
    (hgt : L < txData.nonce)
    (hcap : st.futureTxTable.count = cfg.maxFutureTxs)
    (hmax : 1 ≤ cfg.maxFutureTxs) :
    ∃ first rest, st.futureTxTable.txs = first :: rest ∧
      (∀ r ∈ rest, idOf first < idOf r) ∧
      (TxService.ensureFutureTxSpace cfg st.futureTxTable).txs = rest ∧
      (TxService.add cfg st [] nn txData).state.readyTxTable =
        st.readyTxTable ∧
      (TxService.add cfg st [] nn txData).result = Except.ok [] := by
  cases htxs : st.futureTxTable.txs with
  | nil =>
    exfalso
    have : st.futureTxTable.count = 0 := by rw [TxTable.count, htxs]; rfl
    omega
  | cons first rest =>
    have hFirst : st.futureTxTable.First = some first := by
      unfold TxTable.First; rw [htxs]; rfl
    have hexcess : st.futureTxTable.count - cfg.maxFutureTxs + 1 = 1 := by
      omega
    refine ⟨first, rest, rfl, ?_, ?_, ?_, ?_⟩
    · intro r hr
      have hpw := hWF.idsSorted
      rw [htxs] at hpw
      rcases hpw with _ | ⟨hlt, _⟩
      exact hlt r hr
    · unfold TxService.ensureFutureTxSpace
      dsimp only
      rw [if_pos (by omega)]
      rw [hFirst]
      show (st.futureTxTable.clearBeforeId
        (idOf first + (st.futureTxTable.count - cfg.maxFutureTxs + 1))).txs =
        rest
      rw [hexcess]
      exact clearBeforeId_head hWF htxs
    · rw [add_eq_future hL hgt]
    · rw [add_eq_future hL hgt]

/-- Witness for C7 at a concrete input: future pool at its cap of 2 with
records of two accounts; submitting a third future-nonce operation evicts
exactly the oldest record and leaves Ready alone. -/
theorem C7_eviction_oldest_first_witness :
    ∃ first rest,
      ({ txs := [{ txId := some 0, pubKey := "b", nonce := 9, tokenRewardAmount := 1, payload := "o" }, { txId := some 1, pubKey := "a", nonce := 8, tokenRewardAmount := 1, payload := "n" }], nextId := 2 } : TxTable).txs = first :: rest ∧
      (∀ r ∈ rest, idOf first < idOf r) ∧
      (TxService.ensureFutureTxSpace { txQueryLimit := 8, maxFutureTxs := 2 }
        { txs := [{ txId := some 0, pubKey := "b", nonce := 9, tokenRewardAmount := 1, payload := "o" }, { txId := some 1, pubKey := "a", nonce := 8, tokenRewardAmount := 1, payload := "n" }], nextId := 2 }).txs = rest ∧
      (TxService.add { txQueryLimit := 8, maxFutureTxs := 2 }
        { futureTxTable := { txs := [{ txId := some 0, pubKey := "b", nonce := 9, tokenRewardAmount := 1, payload := "o" }, { txId := some 1, pubKey := "a", nonce := 8, tokenRewardAmount := 1, payload := "n" }], nextId := 2 } }
        [] 5 { pubKey := "a", nonce := 7, tokenRewardAmount := 1 }).state.readyTxTable =
        ({ futureTxTable := { txs := [{ txId := some 0, pubKey := "b", nonce := 9, tokenRewardAmount := 1, payload := "o" }, { txId := some 1, pubKey := "a", nonce := 8, tokenRewardAmount := 1, payload := "n" }], nextId := 2 } } : TxServiceState).readyTxTable ∧
      (TxService.add { txQueryLimit := 8, maxFutureTxs := 2 }
        { futureTxTable := { txs := [{ txId := some 0, pubKey := "b", nonce := 9, tokenRewardAmount := 1, payload := "o" }, { txId := some 1, pubKey := "a", nonce := 8, tokenRewardAmount := 1, payload := "n" }], nextId := 2 } }
        [] 5 { pubKey := "a", nonce := 7, tokenRewardAmount := 1 }).result = Except.ok [] :=
  C7_eviction_oldest_first { txQueryLimit := 8, maxFutureTxs := 2 }
    { futureTxTable := { txs := [{ txId := some 0, pubKey := "b", nonce := 9, tokenRewardAmount := 1, payload := "o" }, { txId := some 1, pubKey := "a", nonce := 8, tokenRewardAmount := 1, payload := "n" }], nextId := 2 } }
    5 5 { pubKey := "a", nonce := 7, tokenRewardAmount := 1 }
    ⟨by decide, by decide, by decide⟩
    (by decide) (by decide) (by decide) (by decide)

/-! ## The reinsertion step of the replacement cascade -/

theorem eq_of_pairwise_not {α : Type} {R : α → α → Prop} :
    ∀ {l : List α}, l.Pairwise R → ∀ {a b : α}, a ∈ l → b ∈ l →
      ¬ R a b → ¬ R b a → a = b := by
  intro l
  induction l with
  | nil => intro _ a b ha; cases ha
  | cons x xs ih =>
    intro hpw a b ha hb hab hba
    rcases hpw with _ | ⟨hx, hpw2⟩
    rcases List.mem_cons.mp ha with rfl | ha2
    · rcases List.mem_cons.mp hb with rfl | hb2
      · rfl
      · exact absurd (hx b hb2) hab
    · rcases List.mem_cons.mp hb with rfl | hb2
      · exact absurd (hx a ha2) hba
      · exact ih hpw2 ha2 hb2 hab hba

theorem mem_eq_of_same_id {t : TxTable} (hWF : t.WF)
    {s r : TransactionData} (hs : s ∈ t.txs) (hr : r ∈ t.txs)
    (hid : s.txId = r.txId) : s = r := by
  apply eq_of_pairwise_not hWF.idsSorted hs hr
  · have : idOf s = idOf r := by rw [idOf, idOf, hid]
    omega
  · have : idOf s = idOf r := by rw [idOf, idOf, hid]
    omega

theorem removeTx_txs_perm {t : TxTable} {r : TransactionData} (hWF : t.WF)
    (hr : r ∈ t.txs) : t.txs.Perm (r :: (t.removeTx r).txs) :=
  filter_ne_id_perm t.txs hWF.idsSorted hWF.idsAssigned r hr

theorem mem_removeTx {t : TxTable} {r s : TransactionData} (hWF : t.WF)
    (hr : r ∈ t.txs) (hs : s ∈ t.txs) (hne : s ≠ r) :
    s ∈ (t.removeTx r).txs := by
  apply List.mem_filter.mpr
  refine ⟨hs, ?_⟩
  have hid : s.txId ≠ r.txId := fun h => hne (mem_eq_of_same_id hWF hs hr h)
  simp [hid]

theorem find?_filter_of_imp {α : Type} (l : List α) (p f : α → Bool)
    (h : ∀ x ∈ l, p x = true → f x = true) :
    (l.filter f).find? p = l.find? p := by
  induction l with
  | nil => rfl
  | cons x xs ih =>
    rw [List.filter_cons]
    cases hfx : f x with
    | true =>
      simp only [if_true]
      rw [List.find?_cons, List.find?_cons]
      cases hpx : p x with
      | true => rfl
      | false => exact ih (fun y hy => h y (List.mem_cons_of_mem x hy))
    | false =>
      have hpx : p x = false := by
        cases hpx : p x with
        | false => rfl
        | true => rw [h x (List.mem_cons_self x xs) hpx] at hfx; cases hfx
      simp only [Bool.false_eq_true, if_false]
      rw [List.find?_cons, hpx]
      exact ih (fun y hy => h y (List.mem_cons_of_mem x hy))

theorem find_removeTx {t : TxTable} {r : TransactionData} (hWF : t.WF)
    (hr : r ∈ t.txs) {q : String} {n : Nat}
    (hne : ¬(r.pubKey = q ∧ r.nonce = n)) :
    (t.removeTx r).find q n = t.find q n := by
  unfold TxTable.find TxTable.removeTx
  dsimp only
  apply find?_filter_of_imp
  intro x hx hp
  simp only [Bool.and_eq_true, beq_iff_eq] at hp
  have hxr : x ≠ r := by
    intro hc
    subst hc
    exact hne ⟨hp.1, hp.2⟩
  have hid : x.txId ≠ r.txId := fun h => hxr (mem_eq_of_same_id hWF hx hr h)
  simp [hid]

theorem addTx_txs_of_fresh {t : TxTable} {tx : TransactionData}
    (hfresh : ∀ r ∈ t.txs, sameKey r tx = false) :
    (t.addTx tx).txs = t.txs ++ [{ tx with txId := some t.nextId }] := by
  unfold TxTable.addTx
  dsimp only
  rw [List.filter_eq_self.mpr]
  intro r hr
  rw [hfresh r hr]
  rfl

theorem find_addTx_other {t : TxTable} {tx : TransactionData} {q : String}
    {n : Nat} (hne : ¬(tx.pubKey = q ∧ tx.nonce = n))
    (hfresh : ∀ r ∈ t.txs, sameKey r tx = false) :
    (t.addTx tx).find q n = t.find q n := by
  unfold TxTable.find
  rw [addTx_txs_of_fresh hfresh, List.find?_append]
  cases hfind : t.txs.find? (fun r => r.pubKey == q && r.nonce == n) with
  | some x => rfl
  | none =>
    rw [Option.none_or]
    have hp : ¬((fun r : TransactionData => r.pubKey == q && r.nonce == n)
        { tx with txId := some t.nextId } = true) := by
      show ¬((tx.pubKey == q && tx.nonce == n) = true)
      simp only [Bool.and_eq_true, beq_iff_eq]
      exact hne
    apply List.find?_eq_none.mpr
    intro x hx
    rw [List.mem_singleton] at hx
    subst hx
    exact hp

theorem valueOf_set_txId {r : TransactionData} {x : Option Nat} :
    valueOf { r with txId := x } = valueOf r := rfl

theorem sameKey_set_txId {s r : TransactionData} {x : Option Nat} :
    sameKey s { r with txId := x } = sameKey s r := rfl

theorem no_sameKey_after_remove {t : TxTable} {r : TransactionData}
    (hKU : t.KeysUnique) (hr : r ∈ t.txs) :
    ∀ s ∈ (t.removeTx r).txs, sameKey s r = false := by
  intro s hs
  have hsmem := List.mem_of_mem_filter hs
  have hpred := List.of_mem_filter hs
  simp only [Bool.not_eq_true'] at hpred
  cases hsk : sameKey s r with
  | false => rfl
  | true =>
    exfalso
    have hkey := sameKey_eq_true.mp hsk
    have heq : s = r := by
      apply eq_of_pairwise_not hKU hsmem hr
      · exact fun hR => hR ⟨hkey.1, hkey.2⟩
      · exact fun hR => hR ⟨hkey.1.symm, hkey.2.symm⟩
    subst heq
    simp at hpred

theorem reinsert_step_txs (t : TxTable) (r : TransactionData) (_hWF : t.WF)
    (hKU : t.KeysUnique) (hr : r ∈ t.txs) :
    ((t.removeTx r).addTx { r with txId := none }).txs =
      (t.removeTx r).txs ++ [{ r with txId := some t.nextId }] := by
  have hfresh : ∀ s ∈ (t.removeTx r).txs,
      sameKey s { r with txId := none } = false := by
    intro s hs
    rw [sameKey_set_txId]
    exact no_sameKey_after_remove hKU hr s hs
  rw [addTx_txs_of_fresh hfresh]
  rfl

theorem reinsert_step_values (t : TxTable) (r : TransactionData) (hWF : t.WF)
    (hKU : t.KeysUnique) (hr : r ∈ t.txs) :
    (((t.removeTx r).addTx { r with txId := none }).txs.map valueOf).Perm
      (t.txs.map valueOf) := by
  rw [reinsert_step_txs t r hWF hKU hr]
  rw [List.map_append]
  have h1 : ((t.removeTx r).txs.map valueOf ++ [valueOf r]).Perm
      (valueOf r :: (t.removeTx r).txs.map valueOf) :=
    List.perm_append_singleton _ _
  have h2 : (t.txs.map valueOf).Perm
      (valueOf r :: (t.removeTx r).txs.map valueOf) := by
    have := (removeTx_txs_perm hWF hr).map valueOf
    simpa using this
  exact (h1.trans h2.symm)

theorem keyNonces_filterMap (l : List TransactionData) (q : String) :
    (l.filter (fun r => r.pubKey == q)).map (fun r => r.nonce) =
      (l.map valueOf).filterMap
        (fun v => if v.1 = q then some v.2.1 else none) := by
  induction l with
  | nil => rfl
  | cons x xs ih =>
    simp only [List.filter_cons, List.map_cons, List.filterMap_cons]
    by_cases hq : x.pubKey = q
    · simp only [valueOf, hq, if_pos rfl, beq_self_eq_true, if_true,
        List.map_cons]
      rw [ih]
    · have hb : (x.pubKey == q) = false := by simp [hq]
      simp only [valueOf, hb, Bool.false_eq_true, if_false, if_neg hq]
      exact ih

theorem keyTxs_nonces_perm_of_values {t1 t2 : TxTable}
    (h : (t1.txs.map valueOf).Perm (t2.txs.map valueOf)) (q : String) :
    ((t1.keyTxs q).map (fun r => r.nonce)).Perm
      ((t2.keyTxs q).map (fun r => r.nonce)) := by
  unfold TxTable.keyTxs
  rw [keyNonces_filterMap, keyNonces_filterMap]
  exact h.filterMap _

theorem reinsertFollowups_spec :
    ∀ (followups : List TransactionData) (t : TxTable),
      t.WF → t.KeysUnique →
      (∀ r ∈ followups, r ∈ t.txs) →
      List.Pairwise (fun a b => ¬(a.pubKey = b.pubKey ∧ a.nonce = b.nonce))
        followups →
      (TxService.reinsertFollowups t followups).WF ∧
      (TxService.reinsertFollowups t followups).KeysUnique ∧
      ((TxService.reinsertFollowups t followups).txs.map valueOf).Perm
        (t.txs.map valueOf) ∧
      t.nextId ≤ (TxService.reinsertFollowups t followups).nextId ∧
      (∀ q n, (∀ r ∈ followups, ¬(r.pubKey = q ∧ r.nonce = n)) →
        (TxService.reinsertFollowups t followups).find q n = t.find q n) ∧
      (∀ s ∈ t.txs,
        (∀ r ∈ followups, ¬(s.pubKey = r.pubKey ∧ s.nonce = r.nonce)) →
        s ∈ (TxService.reinsertFollowups t followups).txs) ∧
      (∀ r ∈ followups,
        ∃ r2 ∈ (TxService.reinsertFollowups t followups).txs,
          r2.pubKey = r.pubKey ∧ r2.nonce = r.nonce ∧
          r2.tokenRewardAmount = r.tokenRewardAmount ∧
          r2.payload = r.payload ∧ t.nextId ≤ idOf r2) := by
  intro followups
  induction followups with
  | nil =>
    intro t hWF hKU _ _
    refine ⟨hWF, hKU, List.Perm.refl _, le_refl _, fun q n _ => rfl, ?_, ?_⟩
    · intro s hs _; exact hs
    · intro r hr; cases hr
  | cons r rest ih =>
    intro t hWF hKU hmem hpw
    have hr : r ∈ t.txs := hmem r (List.mem_cons_self r rest)
    rcases hpw with _ | ⟨hrk, hpw2⟩
    have hfold : TxService.reinsertFollowups t (r :: rest) =
        TxService.reinsertFollowups
          ((t.removeTx r).addTx { r with txId := none }) rest := rfl
    have ht1txs := reinsert_step_txs t r hWF hKU hr
    have ht1WF : ((t.removeTx r).addTx { r with txId := none }).WF :=
      WF_addTx (WF_removeTx hWF r) _
    have ht1KU : ((t.removeTx r).addTx { r with txId := none }).KeysUnique :=
      KeysUnique_addTx (KeysUnique_removeTx hKU r) _
    have ht1vals := reinsert_step_values t r hWF hKU hr
    have ht1next : ((t.removeTx r).addTx { r with txId := none }).nextId =
        t.nextId + 1 := rfl
    have hmemstep : ∀ s ∈ t.txs, s ≠ r →
        s ∈ ((t.removeTx r).addTx { r with txId := none }).txs := by
      intro s hs hne
      rw [ht1txs]
      exact List.mem_append_left _ (mem_removeTx hWF hr hs hne)
    have hmem1 : ∀ x ∈ rest,
        x ∈ ((t.removeTx r).addTx { r with txId := none }).txs := by
      intro x hx
      apply hmemstep x (hmem x (List.mem_cons_of_mem r hx))
      intro hc
      subst hc
      exact hrk x hx ⟨rfl, rfl⟩
    obtain ⟨iWF, iKU, ivals, inext, ifind, imem, iex⟩ :=
      ih ((t.removeTx r).addTx { r with txId := none })
        ht1WF ht1KU hmem1 hpw2
    rw [hfold]
    refine ⟨iWF, iKU, ivals.trans ht1vals, by omega, ?_, ?_, ?_⟩
    · intro q n hq
      have h1 := ifind q n (fun x hx => hq x (List.mem_cons_of_mem r hx))
      rw [h1]
      have hqr := hq r (List.mem_cons_self r rest)
      have hfresh : ∀ s ∈ (t.removeTx r).txs,
          sameKey s { r with txId := none } = false := by
        intro s hs
        rw [sameKey_set_txId]
        exact no_sameKey_after_remove hKU hr s hs
      have h2 : ((t.removeTx r).addTx { r with txId := none }).find q n =
          (t.removeTx r).find q n := by
        apply find_addTx_other
        · show ¬(r.pubKey = q ∧ r.nonce = n)
          exact hqr
        · exact hfresh
      rw [h2]
      exact find_removeTx hWF hr hqr
    · intro s hs hkeys
      apply imem
      · apply hmemstep s hs
        intro hc
        subst hc
        exact hkeys s (List.mem_cons_self s rest) ⟨rfl, rfl⟩
      · intro x hx
        exact hkeys x (List.mem_cons_of_mem r hx)
    · intro x hx
      rcases List.mem_cons.mp hx with rfl | hx2
      · have hr2mem : ({ x with txId := some t.nextId } : TransactionData) ∈
            ((t.removeTx x).addTx { x with txId := none }).txs := by
          rw [ht1txs]
          exact List.mem_append_right _ (List.mem_singleton_self _)
        have hfinal := imem { x with txId := some t.nextId } hr2mem ?_
        · exact ⟨{ x with txId := some t.nextId }, hfinal, rfl, rfl, rfl, rfl,
            by rw [idOf_newTx]⟩
        · intro b hb
          show ¬(x.pubKey = b.pubKey ∧ x.nonce = b.nonce)
          intro hc
          exact hrk b hb ⟨hc.1, hc.2⟩
      · obtain ⟨r2, hr2mem, hp1, hp2, hp3, hp4, hp5⟩ := iex x hx2
        exact ⟨r2, hr2mem, hp1, hp2, hp3, hp4, by omega⟩

/-! ## Per-account ordering facts -/

theorem keyTxs_pairwise_key {t : TxTable} {pk : String} (hKU : t.KeysUnique) :
    List.Pairwise (fun a b => ¬(a.pubKey = b.pubKey ∧ a.nonce = b.nonce))
      (t.keyTxs pk) :=
  List.Pairwise.sublist (List.filter_sublist _) hKU

theorem keyTxs_nonces_ne {t : TxTable} {pk : String} (hKU : t.KeysUnique) :
    List.Pairwise (fun a b => a.nonce ≠ b.nonce) (t.keyTxs pk) := by
  apply List.Pairwise.imp_of_mem ?_ (keyTxs_pairwise_key hKU)
  intro a b ha hb hR hc
  exact hR ⟨(mem_keyTxs.mp ha).2.trans (mem_keyTxs.mp hb).2.symm, hc⟩

theorem sortByNonce_strict {t : TxTable} {pk : String} (hKU : t.KeysUnique) :
    List.Pairwise (fun a b => a.nonce < b.nonce)
      (sortByNonce (t.keyTxs pk)) := by
  have hle := sortByNonce_pairwise (t.keyTxs pk)
  have hne : List.Pairwise (fun a b => a.nonce ≠ b.nonce)
      (sortByNonce (t.keyTxs pk)) := by
    apply ((sortByNonce_perm (t.keyTxs pk)).pairwise_iff ?_).mpr
      (keyTxs_nonces_ne hKU)
    intro a b h
    exact h.symm
  exact (hle.and hne).imp (fun h => lt_of_le_of_ne h.1 h.2)

theorem mem_findAfter {t : TxTable} {pk : String} {n limit : Nat}
    {x : TransactionData} (hx : x ∈ t.findAfter pk n limit) :
    x ∈ t.txs ∧ x.pubKey = pk ∧ n < x.nonce := by
  unfold TxTable.findAfter at hx
  have hx1 := List.mem_of_mem_take hx
  have hx2 := List.mem_of_mem_filter hx1
  have hx3 := List.of_mem_filter hx1
  have hx4 := (sortByNonce_perm (t.keyTxs pk)).mem_iff.mp hx2
  have hx5 := mem_keyTxs.mp hx4
  refine ⟨hx5.1, hx5.2, ?_⟩
  simpa using hx3

theorem findAfter_pairwise_lt {t : TxTable} {pk : String} {n limit : Nat}
    (hKU : t.KeysUnique) :
    List.Pairwise (fun a b => a.nonce < b.nonce) (t.findAfter pk n limit) := by
  unfold TxTable.findAfter
  exact List.Pairwise.sublist
    ((List.take_sublist _ _).trans (List.filter_sublist _))
    (sortByNonce_strict hKU)

theorem findAfter_pairwise_key {t : TxTable} {pk : String} {n limit : Nat}
    (hKU : t.KeysUnique) :
    List.Pairwise (fun a b => ¬(a.pubKey = b.pubKey ∧ a.nonce = b.nonce))
      (t.findAfter pk n limit) :=
  (findAfter_pairwise_lt hKU).imp (fun h hc => by omega)

theorem nonce_le_getLast :
    ∀ (l : List TransactionData),
      List.Pairwise (fun a b => a.nonce < b.nonce) l →
      ∀ x ∈ l, x.nonce ≤ ((l.getLast?.map (fun tx => tx.nonce)).getD 0) := by
  intro l
  induction l with
  | nil => intro _ x hx; cases hx
  | cons a rest ih =>
    intro hpw x hx
    rcases hpw with _ | ⟨ha, hpw2⟩
    cases rest with
    | nil =>
      rw [List.mem_singleton] at hx
      subst hx
      simp
    | cons b t2 =>
      rw [List.getLast?_cons_cons]
      rcases List.mem_cons.mp hx with rfl | hx2
      · have hb := ih hpw2 b (List.mem_cons_self b t2)
        have := ha b (List.mem_cons_self b t2)
        omega
      · exact ih hpw2 x hx2

theorem measure_drop {t : TxTable} {pk : String} (hKU : t.KeysUnique)
    {last limit : Nat}
    (hlen : (t.findAfter pk last limit).length = limit) (hpos : 0 < limit) :
    limit ≤ ((t.keyTxs pk).filter
        (fun r => decide (last < r.nonce))).length ∧
    ((t.keyTxs pk).filter (fun r => decide
        ((((t.findAfter pk last limit).getLast?.map
          (fun tx => tx.nonce)).getD 0) < r.nonce))).length =
      ((t.keyTxs pk).filter (fun r => decide (last < r.nonce))).length -
        limit := by
  have hBperm : ((sortByNonce (t.keyTxs pk)).filter
      (fun r => decide (last < r.nonce))).Perm
      ((t.keyTxs pk).filter (fun r => decide (last < r.nonce))) :=
    (sortByNonce_perm (t.keyTxs pk)).filter _
  have hBlen := hBperm.length_eq
  have hSdef : t.findAfter pk last limit =
      ((sortByNonce (t.keyTxs pk)).filter
        (fun r => decide (last < r.nonce))).take limit := rfl
  have hStake := List.length_take limit
    ((sortByNonce (t.keyTxs pk)).filter (fun r => decide (last < r.nonce)))
  rw [hSdef] at hlen
  have hlimB : limit ≤ ((sortByNonce (t.keyTxs pk)).filter
      (fun r => decide (last < r.nonce))).length := by
    rw [hlen] at hStake
    rcases Nat.le_total limit ((sortByNonce (t.keyTxs pk)).filter
      (fun r => decide (last < r.nonce))).length with h | h
    · exact h
    · have : limit ⊓ ((sortByNonce (t.keyTxs pk)).filter
          (fun r => decide (last < r.nonce))).length =
          ((sortByNonce (t.keyTxs pk)).filter
            (fun r => decide (last < r.nonce))).length :=
        Nat.min_eq_right h
      omega
  refine ⟨by omega, ?_⟩
  have hSne : ((sortByNonce (t.keyTxs pk)).filter
      (fun r => decide (last < r.nonce))).take limit ≠ [] := by
    intro hnil
    rw [hnil] at hlen
    simp at hlen
    omega
  have hgl := List.getLast?_eq_getLast_of_ne_nil hSne
  have hgmem := List.getLast_mem hSne
  obtain ⟨gn, hgn⟩ : ∃ gn,
      ((((sortByNonce (t.keyTxs pk)).filter
        (fun r => decide (last < r.nonce))).take limit).getLast hSne).nonce =
        gn := ⟨_, rfl⟩
  rw [hSdef, hgl]
  simp only [Option.map_some', Option.getD_some]
  simp only [hgn]
  have hpwB : List.Pairwise (fun a b => a.nonce < b.nonce)
      ((sortByNonce (t.keyTxs pk)).filter (fun r => decide (last < r.nonce))) :=
    List.Pairwise.sublist (List.filter_sublist _) (sortByNonce_strict hKU)
  have hpwS : List.Pairwise (fun a b => a.nonce < b.nonce)
      (((sortByNonce (t.keyTxs pk)).filter
        (fun r => decide (last < r.nonce))).take limit) :=
    List.Pairwise.sublist (List.take_sublist _ _) hpwB
  have hub : ∀ x ∈ ((sortByNonce (t.keyTxs pk)).filter
      (fun r => decide (last < r.nonce))).take limit, x.nonce ≤ gn := by
    intro x hx
    have := nonce_le_getLast _ hpwS x hx
    rw [hgl] at this
    simp only [Option.map_some', Option.getD_some] at this
    omega
  have hglast : last < gn := by
    have hmem2 := List.of_mem_filter (List.mem_of_mem_take hgmem)
    rw [hgn] at hmem2
    simpa using hmem2
  have hcross : ∀ y ∈ ((sortByNonce (t.keyTxs pk)).filter
      (fun r => decide (last < r.nonce))).drop limit, gn < y.nonce := by
    have hsplit := List.take_append_drop limit
      ((sortByNonce (t.keyTxs pk)).filter (fun r => decide (last < r.nonce)))
    have hpwB2 := hpwB
    rw [← hsplit] at hpwB2
    intro y hy
    have := (List.pairwise_append.mp hpwB2).2.2 _ hgmem y hy
    omega
  have hchain : ((t.keyTxs pk).filter
      (fun r => decide (gn < r.nonce))).length =
      (((sortByNonce (t.keyTxs pk)).filter
        (fun r => decide (last < r.nonce))).filter
        (fun r => decide (gn < r.nonce))).length := by
    rw [List.filter_filter]
    have hcongr : (sortByNonce (t.keyTxs pk)).filter
        (fun a => decide (gn < a.nonce) && decide (last < a.nonce)) =
        (sortByNonce (t.keyTxs pk)).filter
          (fun a => decide (gn < a.nonce)) := by
      apply List.filter_congr
      intro a _
      by_cases hga : gn < a.nonce
      · have hla : last < a.nonce := by omega
        simp [hga, hla]
      · simp [hga]
    rw [hcongr]
    exact (((sortByNonce_perm (t.keyTxs pk)).filter _).length_eq).symm
  rw [hchain]
  have hfinal : (((sortByNonce (t.keyTxs pk)).filter
      (fun r => decide (last < r.nonce))).filter
      (fun r => decide (gn < r.nonce))) =
      ((sortByNonce (t.keyTxs pk)).filter
        (fun r => decide (last < r.nonce))).drop limit := by
    conv_lhs => rw [← List.take_append_drop limit
      ((sortByNonce (t.keyTxs pk)).filter (fun r => decide (last < r.nonce)))]
    rw [List.filter_append]
    rw [List.filter_eq_nil_iff.mpr, List.filter_eq_self.mpr]
    · rw [List.nil_append]
    · intro y hy
      have := hcross y hy
      simp
      omega
    · intro x hx
      have := hub x hx
      simp
      omega
  rw [hfinal, List.length_drop]
  omega

theorem filter_nonce_length_of_perm {l1 l2 : List TransactionData}
    (h : (l1.map (fun r => r.nonce)).Perm (l2.map (fun r => r.nonce)))
    (c : Nat) :
    (l1.filter (fun r => decide (c < r.nonce))).length =
      (l2.filter (fun r => decide (c < r.nonce))).length := by
  have e1 : ∀ l : List TransactionData,
      (l.filter (fun r => decide (c < r.nonce))).length =
        (l.map (fun r => r.nonce)).countP (fun v => decide (c < v)) := by
    intro l
    rw [List.countP_map]
    rw [← List.countP_eq_length_filter]
    rfl
  rw [e1, e1]
  exact h.countP_eq _

theorem replaceLoop_none (cfg : TxServiceConfig) (pk : String) :
    ∀ (fuel last : Nat) (st : TxServiceState),
      st.readyTxTable.WF → st.readyTxTable.KeysUnique →
      ((st.readyTxTable.keyTxs pk).filter
        (fun r => decide (last < r.nonce))).length < fuel →
      (TxService.replaceReadyTxLoop cfg pk fuel last st).1 = none := by
  intro fuel
  induction fuel with
  | zero => intro last st _ _ hf; omega
  | succ n ih =>
    intro last st hWF hKU hf
    unfold TxService.replaceReadyTxLoop
    dsimp only
    by_cases h0 :
        (st.readyTxTable.findAfter pk last cfg.txQueryLimit).length = 0
    · rw [if_pos h0]
    · rw [if_neg h0]
      by_cases hlt : (st.readyTxTable.findAfter pk last
          cfg.txQueryLimit).length < cfg.txQueryLimit
      · rw [if_pos hlt]
      · rw [if_neg hlt]
        have hle : (st.readyTxTable.findAfter pk last
            cfg.txQueryLimit).length ≤ cfg.txQueryLimit := by
          have := List.length_take cfg.txQueryLimit
            ((sortByNonce (st.readyTxTable.keyTxs pk)).filter
              (fun r => decide (last < r.nonce)))
          have h2 : (st.readyTxTable.findAfter pk last
              cfg.txQueryLimit).length =
              cfg.txQueryLimit ⊓ ((sortByNonce
                (st.readyTxTable.keyTxs pk)).filter
                (fun r => decide (last < r.nonce))).length := this
          have := Nat.min_le_left cfg.txQueryLimit
            (((sortByNonce (st.readyTxTable.keyTxs pk)).filter
              (fun r => decide (last < r.nonce))).length)
          omega
        have hlen : (st.readyTxTable.findAfter pk last
            cfg.txQueryLimit).length = cfg.txQueryLimit := by omega
        have hpos : 0 < cfg.txQueryLimit := by omega
        have hmemS : ∀ r ∈ st.readyTxTable.findAfter pk last
            cfg.txQueryLimit, r ∈ st.readyTxTable.txs :=
          fun r hr => (mem_findAfter hr).1
        have hpwK : List.Pairwise
            (fun a b => ¬(a.pubKey = b.pubKey ∧ a.nonce = b.nonce))
            (st.readyTxTable.findAfter pk last cfg.txQueryLimit) :=
          findAfter_pairwise_key hKU
        obtain ⟨iWF, iKU, ivals, _, _, _, _⟩ :=
          reinsertFollowups_spec
            (st.readyTxTable.findAfter pk last cfg.txQueryLimit)
            st.readyTxTable hWF hKU hmemS hpwK
        obtain ⟨hlim, hdrop⟩ := measure_drop hKU hlen hpos
        apply ih
        · exact iWF
        · exact iKU
        · have hperm := keyTxs_nonces_perm_of_values ivals pk
          have htrans := filter_nonce_length_of_perm hperm
            ((((st.readyTxTable.findAfter pk last
              cfg.txQueryLimit).getLast?).map (fun tx => tx.nonce)).getD 0)
          have hgoal : (((TxService.reinsertFollowups st.readyTxTable
              (st.readyTxTable.findAfter pk last
                cfg.txQueryLimit)).keyTxs pk).filter
              (fun r => decide (((((st.readyTxTable.findAfter pk last
                cfg.txQueryLimit).getLast?).map
                  (fun tx => tx.nonce)).getD 0) < r.nonce))).length =
              ((st.readyTxTable.keyTxs pk).filter
                (fun r => decide (last < r.nonce))).length -
                cfg.txQueryLimit := by
            rw [htrans, hdrop]
          show (((TxService.reinsertFollowups st.readyTxTable
              (st.readyTxTable.findAfter pk last
                cfg.txQueryLimit)).keyTxs pk).filter
              (fun r => decide (((((st.readyTxTable.findAfter pk last
                cfg.txQueryLimit).getLast?).map
                  (fun tx => tx.nonce)).getD 0) < r.nonce))).length < n
          omega

theorem replaceLoop_invariant_rel (cfg : TxServiceConfig) (pk : String)
    (P : Nat → TxServiceState → Prop)
    (hstep : ∀ st last, P last st →
      st.readyTxTable.findAfter pk last cfg.txQueryLimit ≠ [] →
      P ((((st.readyTxTable.findAfter pk last
          cfg.txQueryLimit).getLast?).map (fun tx => tx.nonce)).getD 0)
        { st with readyTxTable := (TxService.reinsertFollowups st.readyTxTable
          (st.readyTxTable.findAfter pk last cfg.txQueryLimit)) }) :
    ∀ fuel last st, P last st →
      ∃ last2, P last2 (TxService.replaceReadyTxLoop cfg pk fuel last st).2 := by
  intro fuel
  induction fuel with
  | zero => intro last st h; exact ⟨last, h⟩
  | succ n ih =>
    intro last st h
    unfold TxService.replaceReadyTxLoop
    dsimp only
    split
    · exact ⟨last, h⟩
    · rename_i hne0
      have hne : st.readyTxTable.findAfter pk last cfg.txQueryLimit ≠ [] := by
        intro hnil
        apply hne0
        rw [hnil]
        rfl
      split
      · exact ⟨_, hstep st last h hne⟩
      · exact ih _ _ (hstep st last h hne)

theorem keyTxs_filter_length_le (t : TxTable) (pk : String)
    (p : TransactionData → Bool) :
    ((t.keyTxs pk).filter p).length ≤ t.count :=
  le_trans (List.length_filter_le _ _) (List.length_filter_le _ _)

/-! ## Claim C4 -/

/-- Claim C4 (confirmed): with a Ready record `ex` stored at the submitted
(account, nonce) — so the submitted nonce is below the account's
lowest-acceptable nonce and the call routes to replacement — a submission
whose reward does not strictly exceed the stored reward is rejected with
the "insufficient-reward" failure and no pool is touched, while a
submission with a strictly greater reward succeeds with an empty rejection
list and the Ready record stored at that nonce afterwards is the new
operation (fresh id, new payload and reward). -/
theorem C4_replacement_strict_improvement (cfg : TxServiceConfig)
    (st : TxServiceState) (nextNonce : Nat) (txData ex : TransactionData)
    (hWF : st.readyTxTable.WF) (hKU : st.readyTxTable.KeysUnique)
    (hfind : st.readyTxTable.find txData.pubKey txData.nonce = some ex) :
    (txData.tokenRewardAmount ≤ ex.tokenRewardAmount →
      TxService.add cfg st [] nextNonce txData =
        { result := Except.ok [insufficientRewardFailure txData ex]
          state := st }) ∧
    (ex.tokenRewardAmount < txData.tokenRewardAmount →
      (TxService.add cfg st [] nextNonce txData).result = Except.ok [] ∧
      (TxService.add cfg st [] nextNonce txData).state.readyTxTable.find
          txData.pubKey txData.nonce =
        some { txData with txId := some st.readyTxTable.nextId }) := by
  obtain ⟨hexmem, hexpk, hexn⟩ := find_eq_some hfind
  have hsome := nextNonceOf_isSome hexmem hexpk
  obtain ⟨m, hm⟩ := Option.isSome_iff_exists.mp hsome
  have hL : TxService.LowestAcceptableNonce st.readyTxTable nextNonce
      txData.pubKey = some (max nextNonce m) :=
    lowestAcceptable_of_nextNonce hm
  have hlt : txData.nonce < max nextNonce m := by
    have := lt_nextNonceOf hexmem hexpk hm
    have := Nat.le_max_right nextNonce m
    omega
  constructor
  · intro hle
    rw [add_eq_replace hL hlt]
    exact replace_eq_insufficient hfind hle
  · intro hbr
    rw [add_eq_replace hL hlt]
    have hWF1 : ((st.readyTxTable.removeTx ex).addTx txData).WF :=
      WF_addTx (WF_removeTx hWF ex) _
    have hKU1 : ((st.readyTxTable.removeTx ex).addTx txData).KeysUnique :=
      KeysUnique_addTx (KeysUnique_removeTx hKU ex) _
    have hfself : ((st.readyTxTable.removeTx ex).addTx txData).find
        txData.pubKey txData.nonce =
        some { txData with txId := some st.readyTxTable.nextId } :=
      find_addTx_self _ _
    by_cases hlast : max nextNonce m - 1 = txData.nonce
    · rw [replace_eq_swap_last hfind hbr hlast]
      exact ⟨rfl, hfself⟩
    · have hnone := replaceLoop_none cfg txData.pubKey
        (((st.readyTxTable.removeTx ex).addTx txData).count + 1)
        txData.nonce
        { st with readyTxTable := (st.readyTxTable.removeTx ex).addTx txData }
        hWF1 hKU1
        (by
          show ((((st.readyTxTable.removeTx ex).addTx txData).keyTxs
            txData.pubKey).filter
            (fun r => decide (txData.nonce < r.nonce))).length <
            ((st.readyTxTable.removeTx ex).addTx txData).count + 1
          have := keyTxs_filter_length_le
            ((st.readyTxTable.removeTx ex).addTx txData) txData.pubKey
            (fun r => decide (txData.nonce < r.nonce))
          omega)
      have hp : TxService.replaceReadyTxLoop cfg txData.pubKey
          (((st.readyTxTable.removeTx ex).addTx txData).count + 1)
          txData.nonce
          { st with readyTxTable :=
            (st.readyTxTable.removeTx ex).addTx txData } =
          (none, (TxService.replaceReadyTxLoop cfg txData.pubKey
            (((st.readyTxTable.removeTx ex).addTx txData).count + 1)
            txData.nonce
            { st with readyTxTable :=
              (st.readyTxTable.removeTx ex).addTx txData }).2) := by
        have hq : TxService.replaceReadyTxLoop cfg txData.pubKey
            (((st.readyTxTable.removeTx ex).addTx txData).count + 1)
            txData.nonce
            { st with readyTxTable :=
              (st.readyTxTable.removeTx ex).addTx txData } =
            ((TxService.replaceReadyTxLoop cfg txData.pubKey
              (((st.readyTxTable.removeTx ex).addTx txData).count + 1)
              txData.nonce
              { st with readyTxTable :=
                (st.readyTxTable.removeTx ex).addTx txData }).1,
            (TxService.replaceReadyTxLoop cfg txData.pubKey
              (((st.readyTxTable.removeTx ex).addTx txData).count + 1)
              txData.nonce
              { st with readyTxTable :=
                (st.readyTxTable.removeTx ex).addTx txData }).2) := rfl
        rw [hnone] at hq
        exact hq
      rw [replace_eq_swap_cascade hfind hbr hlast hp]
      refine ⟨rfl, ?_⟩
      have hinv := replaceLoop_invariant_rel cfg txData.pubKey
        (fun last s => txData.nonce ≤ last ∧ s.readyTxTable.WF ∧
          s.readyTxTable.KeysUnique ∧
          s.readyTxTable.find txData.pubKey txData.nonce =
            some { txData with txId := some st.readyTxTable.nextId })
        ?_
        (((st.readyTxTable.removeTx ex).addTx txData).count + 1)
        txData.nonce
        { st with readyTxTable := (st.readyTxTable.removeTx ex).addTx txData }
        ⟨le_refl _, hWF1, hKU1, hfself⟩
      · obtain ⟨last2, _, _, _, hfind2⟩ := hinv
        exact hfind2
      · intro s last hP hne
        obtain ⟨hkle, hsWF, hsKU, hsfind⟩ := hP
        have hmemS : ∀ r ∈ s.readyTxTable.findAfter txData.pubKey last
            cfg.txQueryLimit, r ∈ s.readyTxTable.txs :=
          fun r hr => (mem_findAfter hr).1
        have hpwK : List.Pairwise
            (fun a b => ¬(a.pubKey = b.pubKey ∧ a.nonce = b.nonce))
            (s.readyTxTable.findAfter txData.pubKey last cfg.txQueryLimit) :=
          findAfter_pairwise_key hsKU
        obtain ⟨iWF, iKU, _, _, ifind, _, _⟩ :=
          reinsertFollowups_spec
            (s.readyTxTable.findAfter txData.pubKey last cfg.txQueryLimit)
            s.readyTxTable hsWF hsKU hmemS hpwK
        refine ⟨?_, iWF, iKU, ?_⟩
        · have hgl := List.getLast?_eq_getLast_of_ne_nil hne
          have hgmem := List.getLast_mem hne
          have hgt := (mem_findAfter hgmem).2.2
          rw [hgl]
          simp only [Option.map_some', Option.getD_some]
          omega
        · have h1 := ifind txData.pubKey txData.nonce ?_
          · rw [h1]
            exact hsfind
          · intro r hr hc
            have hgt2 := (mem_findAfter hr).2.2
            have h2 := hc.2
            omega

/-- Witness for C4 at a concrete input: the Ready pool stores nonce 5 with
reward 3; an equal-reward resubmission is rejected with
"insufficient-reward" and leaves the state alone, while a reward-9
resubmission succeeds and replaces the stored record under a fresh id. -/
theorem C4_replacement_strict_improvement_witness :
    (TxService.add { txQueryLimit := 8, maxFutureTxs := 8 }
        { readyTxTable := { txs := [{ txId := some 0, pubKey := "a", nonce := 5, tokenRewardAmount := 3, payload := "x" }], nextId := 1 } }
        [] 5 { pubKey := "a", nonce := 5, tokenRewardAmount := 3, payload := "y" } =
      { result := Except.ok [insufficientRewardFailure
          { pubKey := "a", nonce := 5, tokenRewardAmount := 3, payload := "y" }
          { txId := some 0, pubKey := "a", nonce := 5, tokenRewardAmount := 3, payload := "x" }]
        state := { readyTxTable := { txs := [{ txId := some 0, pubKey := "a", nonce := 5, tokenRewardAmount := 3, payload := "x" }], nextId := 1 } } }) ∧
    ((TxService.add { txQueryLimit := 8, maxFutureTxs := 8 }
        { readyTxTable := { txs := [{ txId := some 0, pubKey := "a", nonce := 5, tokenRewardAmount := 3, payload := "x" }], nextId := 1 } }
        [] 5 { pubKey := "a", nonce := 5, tokenRewardAmount := 9, payload := "y" }).result =
        Except.ok [] ∧
      (TxService.add { txQueryLimit := 8, maxFutureTxs := 8 }
        { readyTxTable := { txs := [{ txId := some 0, pubKey := "a", nonce := 5, tokenRewardAmount := 3, payload := "x" }], nextId := 1 } }
        [] 5 { pubKey := "a", nonce := 5, tokenRewardAmount := 9, payload := "y" }).state.readyTxTable.find
        "a" 5 =
        some { txId := some 1, pubKey := "a", nonce := 5, tokenRewardAmount := 9, payload := "y" }) :=
  ⟨(C4_replacement_strict_improvement { txQueryLimit := 8, maxFutureTxs := 8 }
      { readyTxTable := { txs := [{ txId := some 0, pubKey := "a", nonce := 5, tokenRewardAmount := 3, payload := "x" }], nextId := 1 } }
      5 { pubKey := "a", nonce := 5, tokenRewardAmount := 3, payload := "y" }
      { txId := some 0, pubKey := "a", nonce := 5, tokenRewardAmount := 3, payload := "x" }
      ⟨by decide, by decide, by decide⟩
      (by unfold TxTable.KeysUnique; decide) (by decide)).1 (by decide),
   (C4_replacement_strict_improvement { txQueryLimit := 8, maxFutureTxs := 8 }
      { readyTxTable := { txs := [{ txId := some 0, pubKey := "a", nonce := 5, tokenRewardAmount := 3, payload := "x" }], nextId := 1 } }
      5 { pubKey := "a", nonce := 5, tokenRewardAmount := 9, payload := "y" }
      { txId := some 0, pubKey := "a", nonce := 5, tokenRewardAmount := 3, payload := "x" }
      ⟨by decide, by decide, by decide⟩
      (by unfold TxTable.KeysUnique; decide) (by decide)).2 (by decide)⟩

theorem find_eq_of_mem {t : TxTable} (hKU : t.KeysUnique)
    {r : TransactionData} (hr : r ∈ t.txs) :
    t.find r.pubKey r.nonce = some r := by
  cases hf : t.find r.pubKey r.nonce with
  | none =>
    exact absurd ⟨rfl, rfl⟩ ((find_eq_none.mp hf) r hr)
  | some r2 =>
    obtain ⟨hmem2, hpk2, hn2⟩ := find_eq_some hf
    have hr2 : r2 = r := by
      apply eq_of_pairwise_not hKU hmem2 hr
      · exact fun hR => hR ⟨hpk2, hn2⟩
      · exact fun hR => hR ⟨hpk2.symm, hn2.symm⟩
    rw [hr2]

theorem sameKey_congr {s a b : TransactionData} (hpk : a.pubKey = b.pubKey)
    (hn : a.nonce = b.nonce) : sameKey s a = sameKey s b := by
  unfold sameKey
  rw [hpk, hn]

theorem mem_findAfter_of_small_page {t : TxTable} {pk : String}
    {last limit : Nat} {r : TransactionData}
    (hlen : (t.findAfter pk last limit).length < limit)
    (hr : r ∈ t.txs) (hpk : r.pubKey = pk) (hgt : last < r.nonce) :
    r ∈ t.findAfter pk last limit := by
  have hfa : t.findAfter pk last limit =
      ((sortByNonce (t.keyTxs pk)).filter
        (fun x => decide (last < x.nonce))).take limit := rfl
  have hBlen := List.length_take limit
    ((sortByNonce (t.keyTxs pk)).filter (fun x => decide (last < x.nonce)))
  have hBsmall : ((sortByNonce (t.keyTxs pk)).filter
      (fun x => decide (last < x.nonce))).length ≤ limit := by
    rw [hfa, hBlen] at hlen
    rcases Nat.le_total limit (((sortByNonce (t.keyTxs pk)).filter
      (fun x => decide (last < x.nonce))).length) with h | h
    · have := Nat.min_eq_left h
      omega
    · exact h
  rw [hfa, List.take_of_length_le hBsmall]
  apply List.mem_filter.mpr
  constructor
  · exact (sortByNonce_perm (t.keyTxs pk)).symm.mem_iff.mp
      (mem_keyTxs.mpr ⟨hr, hpk⟩)
  · simp [hgt]

theorem mem_page_of_le_last {t : TxTable} {pk : String} {last limit : Nat}
    {r : TransactionData} (hKU : t.KeysUnique)
    (hne : t.findAfter pk last limit ≠ [])
    (hr : r ∈ t.txs) (hpk : r.pubKey = pk) (hgt : last < r.nonce)
    (hle : r.nonce ≤ (((t.findAfter pk last limit).getLast?.map
      (fun tx => tx.nonce)).getD 0)) :
    r ∈ t.findAfter pk last limit := by
  have hfa : t.findAfter pk last limit =
      ((sortByNonce (t.keyTxs pk)).filter
        (fun x => decide (last < x.nonce))).take limit := rfl
  have hrB : r ∈ (sortByNonce (t.keyTxs pk)).filter
      (fun x => decide (last < x.nonce)) := by
    apply List.mem_filter.mpr
    exact ⟨(sortByNonce_perm (t.keyTxs pk)).symm.mem_iff.mp
      (mem_keyTxs.mpr ⟨hr, hpk⟩), by simp [hgt]⟩
  have hsplit := List.take_append_drop limit
    ((sortByNonce (t.keyTxs pk)).filter (fun x => decide (last < x.nonce)))
  rw [← hsplit] at hrB
  rcases List.mem_append.mp hrB with hin | hin
  · rw [hfa]; exact hin
  · exfalso
    have hgl := List.getLast?_eq_getLast_of_ne_nil hne
    have hgmem := List.getLast_mem hne
    rw [hgl] at hle
    simp only [Option.map_some', Option.getD_some] at hle
    have hpwB : List.Pairwise (fun a b => a.nonce < b.nonce)
        ((sortByNonce (t.keyTxs pk)).filter
          (fun x => decide (last < x.nonce))) :=
      List.Pairwise.sublist (List.filter_sublist _) (sortByNonce_strict hKU)
    have hpwB2 := hpwB
    rw [← hsplit] at hpwB2
    have hcross := (List.pairwise_append.mp hpwB2).2.2
    have hlast := hcross _ hgmem r hin
    omega

/-! ## Claim C5 -/

/-- Claim C5 (confirmed for a positive page size): a successful replacement
leaves the Future pool alone and changes the Ready pool contents, up to
serial ids, only by swapping the replaced record for the newcomer; every
Ready record of the account with a higher nonce is re-inserted — it is
afterwards present with unchanged account, nonce, reward and payload but a
strictly larger (fresh) serial id.  A positive `txQueryLimit` is required:
with a zero page limit the cascade fetches nothing and the higher records
keep their ids. -/
theorem C5_replacement_cascade (cfg : TxServiceConfig) (st : TxServiceState)
    (nextNonce : Nat) (txData ex : TransactionData)
    (hWF : st.readyTxTable.WF) (hKU : st.readyTxTable.KeysUnique)
    (hlim : 1 ≤ cfg.txQueryLimit)
    (hfind : st.readyTxTable.find txData.pubKey txData.nonce = some ex)
    (hbr : ex.tokenRewardAmount < txData.tokenRewardAmount) :
    (TxService.add cfg st [] nextNonce txData).result = Except.ok [] ∧
    (TxService.add cfg st [] nextNonce txData).state.futureTxTable =
      st.futureTxTable ∧
    (((TxService.add cfg st [] nextNonce
        txData).state.readyTxTable.txs.map valueOf) ++
      [valueOf ex]).Perm
      ((st.readyTxTable.txs.map valueOf) ++ [valueOf txData]) ∧
    (∀ r ∈ st.readyTxTable.txs, r.pubKey = txData.pubKey →
      txData.nonce < r.nonce →
      ∃ r2 ∈ (TxService.add cfg st [] nextNonce
          txData).state.readyTxTable.txs,
        r2.pubKey = r.pubKey ∧ r2.nonce = r.nonce ∧
        r2.tokenRewardAmount = r.tokenRewardAmount ∧
        r2.payload = r.payload ∧ idOf r < idOf r2) := by
  obtain ⟨hexmem, hexpk, hexn⟩ := find_eq_some hfind
  have hsome := nextNonceOf_isSome hexmem hexpk
  obtain ⟨m, hm⟩ := Option.isSome_iff_exists.mp hsome
  have hL : TxService.LowestAcceptableNonce st.readyTxTable nextNonce
      txData.pubKey = some (max nextNonce m) :=
    lowestAcceptable_of_nextNonce hm
  have hmaxr := Nat.le_max_right nextNonce m
  have hlt : txData.nonce < max nextNonce m := by
    have := lt_nextNonceOf hexmem hexpk hm
    omega
  have hWF1 : ((st.readyTxTable.removeTx ex).addTx txData).WF :=
    WF_addTx (WF_removeTx hWF ex) _
  have hKU1 : ((st.readyTxTable.removeTx ex).addTx txData).KeysUnique :=
    KeysUnique_addTx (KeysUnique_removeTx hKU ex) _
  have hfresh : ∀ s ∈ (st.readyTxTable.removeTx ex).txs,
      sameKey s txData = false := by
    intro s hs
    rw [show sameKey s txData = sameKey s ex from
      sameKey_congr hexpk.symm hexn.symm]
    exact no_sameKey_after_remove hKU hexmem s hs
  have hst1txs : ((st.readyTxTable.removeTx ex).addTx txData).txs =
      (st.readyTxTable.removeTx ex).txs ++
        [{ txData with txId := some st.readyTxTable.nextId }] :=
    addTx_txs_of_fresh hfresh
  have hV1 : ((st.readyTxTable.removeTx ex).addTx txData).txs.map valueOf =
      (st.readyTxTable.removeTx ex).txs.map valueOf ++ [valueOf txData] := by
    rw [hst1txs, List.map_append]
    rfl
  have hstPerm : st.readyTxTable.txs.Perm
      (ex :: (st.readyTxTable.removeTx ex).txs) :=
    removeTx_txs_perm hWF hexmem
  have hMS : ∀ t2 : TxTable,
      (t2.txs.map valueOf).Perm
        (((st.readyTxTable.removeTx ex).addTx txData).txs.map valueOf) →
      ((t2.txs.map valueOf) ++ [valueOf ex]).Perm
        ((st.readyTxTable.txs.map valueOf) ++ [valueOf txData]) := by
    intro t2 hp
    have h1 : ((t2.txs.map valueOf) ++ [valueOf ex]).Perm
        (((st.readyTxTable.removeTx ex).txs.map valueOf ++
          [valueOf txData]) ++ [valueOf ex]) := by
      apply List.Perm.append_right
      exact hp.trans (by rw [hV1])
    have h2 : ((st.readyTxTable.txs.map valueOf) ++
        [valueOf txData]).Perm
        ((valueOf ex :: (st.readyTxTable.removeTx ex).txs.map valueOf) ++
          [valueOf txData]) := by
      apply List.Perm.append_right
      simpa using hstPerm.map valueOf
    refine h1.trans (List.Perm.trans ?_ h2.symm)
    have h3 : (((st.readyTxTable.removeTx ex).txs.map valueOf ++
        [valueOf txData]) ++ [valueOf ex]).Perm
        (valueOf ex :: ((st.readyTxTable.removeTx ex).txs.map valueOf ++
          [valueOf txData])) :=
      List.perm_append_singleton _ _
    refine h3.trans ?_
    rw [List.cons_append]
  by_cases hlast : max nextNonce m - 1 = txData.nonce
  · rw [add_eq_replace hL hlt, replace_eq_swap_last hfind hbr hlast]
    refine ⟨rfl, rfl, hMS _ (List.Perm.refl _), ?_⟩
    intro r hr hpk hgt
    exfalso
    have hrm : r.nonce < m := by
      have := lt_nextNonceOf hr hpk hm
      omega
    omega
  · have hnone := replaceLoop_none cfg txData.pubKey
      (((st.readyTxTable.removeTx ex).addTx txData).count + 1)
      txData.nonce
      { st with readyTxTable := (st.readyTxTable.removeTx ex).addTx txData }
      hWF1 hKU1
      (by
        show ((((st.readyTxTable.removeTx ex).addTx txData).keyTxs
          txData.pubKey).filter
          (fun r => decide (txData.nonce < r.nonce))).length <
          ((st.readyTxTable.removeTx ex).addTx txData).count + 1
        have := keyTxs_filter_length_le
          ((st.readyTxTable.removeTx ex).addTx txData) txData.pubKey
          (fun r => decide (txData.nonce < r.nonce))
        omega)
    have hp : TxService.replaceReadyTxLoop cfg txData.pubKey
        (((st.readyTxTable.removeTx ex).addTx txData).count + 1)
        txData.nonce
        { st with readyTxTable :=
          (st.readyTxTable.removeTx ex).addTx txData } =
        (none, (TxService.replaceReadyTxLoop cfg txData.pubKey
          (((st.readyTxTable.removeTx ex).addTx txData).count + 1)
          txData.nonce
          { st with readyTxTable :=
            (st.readyTxTable.removeTx ex).addTx txData }).2) := by
      have hq : TxService.replaceReadyTxLoop cfg txData.pubKey
          (((st.readyTxTable.removeTx ex).addTx txData).count + 1)
          txData.nonce
          { st with readyTxTable :=
            (st.readyTxTable.removeTx ex).addTx txData } =
          ((TxService.replaceReadyTxLoop cfg txData.pubKey
            (((st.readyTxTable.removeTx ex).addTx txData).count + 1)
            txData.nonce
            { st with readyTxTable :=
              (st.readyTxTable.removeTx ex).addTx txData }).1,
          (TxService.replaceReadyTxLoop cfg txData.pubKey
            (((st.readyTxTable.removeTx ex).addTx txData).count + 1)
            txData.nonce
            { st with readyTxTable :=
              (st.readyTxTable.removeTx ex).addTx txData }).2) := rfl
      rw [hnone] at hq
      exact hq
    rw [add_eq_replace hL hlt, replace_eq_swap_cascade hfind hbr hlast hp]
    have key : ∀ fuel : Nat, ∀ (last : Nat) (s : TxServiceState),
        (txData.nonce ≤ last ∧ s.readyTxTable.WF ∧
          s.readyTxTable.KeysUnique ∧
          (s.readyTxTable.txs.map valueOf).Perm
            (((st.readyTxTable.removeTx ex).addTx txData).txs.map valueOf) ∧
          st.readyTxTable.nextId ≤ s.readyTxTable.nextId ∧
          (∀ r ∈ st.readyTxTable.txs, r.pubKey = txData.pubKey →
            txData.nonce < r.nonce →
            ((r.nonce ≤ last → ∃ r2 ∈ s.readyTxTable.txs,
              r2.pubKey = r.pubKey ∧ r2.nonce = r.nonce ∧
              r2.tokenRewardAmount = r.tokenRewardAmount ∧
              r2.payload = r.payload ∧ idOf r < idOf r2) ∧
            (last < r.nonce →
              s.readyTxTable.find txData.pubKey r.nonce = some r)))) →
        (TxService.replaceReadyTxLoop cfg txData.pubKey fuel last s).1 =
          none →
        (((TxService.replaceReadyTxLoop cfg txData.pubKey fuel last
            s).2.readyTxTable.txs.map valueOf).Perm
          (((st.readyTxTable.removeTx ex).addTx txData).txs.map valueOf) ∧
        (∀ r ∈ st.readyTxTable.txs, r.pubKey = txData.pubKey →
          txData.nonce < r.nonce →
          ∃ r2 ∈ (TxService.replaceReadyTxLoop cfg txData.pubKey fuel last
              s).2.readyTxTable.txs,
            r2.pubKey = r.pubKey ∧ r2.nonce = r.nonce ∧
            r2.tokenRewardAmount = r.tokenRewardAmount ∧
            r2.payload = r.payload ∧ idOf r < idOf r2)) := by
      intro fuel
      induction fuel with
      | zero =>
        intro last s _ hnone2
        simp [TxService.replaceReadyTxLoop] at hnone2
      | succ nfuel ih =>
        intro last s hP hnone2
        obtain ⟨hA, hB, hC, hD, hE, hF⟩ := hP
        unfold TxService.replaceReadyTxLoop at hnone2 ⊢
        dsimp only at hnone2 ⊢
        by_cases h0 : (s.readyTxTable.findAfter txData.pubKey last
            cfg.txQueryLimit).length = 0
        · rw [if_pos h0] at hnone2 ⊢
          refine ⟨hD, ?_⟩
          intro r hr hpk hgt
          by_cases hro : r.nonce ≤ last
          · exact ((hF r hr hpk hgt).1 hro)
          · exfalso
            have hfr := (hF r hr hpk hgt).2 (by omega)
            obtain ⟨hrmem, _, _⟩ := find_eq_some hfr
            have hrpage := mem_findAfter_of_small_page
              (by omega : (s.readyTxTable.findAfter txData.pubKey last
                cfg.txQueryLimit).length < cfg.txQueryLimit)
              hrmem hpk (by omega)
            rw [List.length_eq_zero.mp h0] at hrpage
            cases hrpage
        · rw [if_neg h0] at hnone2 ⊢
          have hne : s.readyTxTable.findAfter txData.pubKey last
              cfg.txQueryLimit ≠ [] := by
            intro hnil
            rw [hnil] at h0
            exact h0 rfl
          have hmemS : ∀ x ∈ s.readyTxTable.findAfter txData.pubKey last
              cfg.txQueryLimit, x ∈ s.readyTxTable.txs :=
            fun x hx => (mem_findAfter hx).1
          have hpwK : List.Pairwise
              (fun a b => ¬(a.pubKey = b.pubKey ∧ a.nonce = b.nonce))
              (s.readyTxTable.findAfter txData.pubKey last
                cfg.txQueryLimit) :=
            findAfter_pairwise_key hC
          obtain ⟨iWF, iKU, ivals, inext, ifind, imem, iex⟩ :=
            reinsertFollowups_spec
              (s.readyTxTable.findAfter txData.pubKey last cfg.txQueryLimit)
              s.readyTxTable hB hC hmemS hpwK
          have hgl := List.getLast?_eq_getLast_of_ne_nil hne
          have hgmem := List.getLast_mem hne
          have hgfa := (mem_findAfter hgmem).2.2
          have hpageub := nonce_le_getLast
            (s.readyTxTable.findAfter txData.pubKey last cfg.txQueryLimit)
            (findAfter_pairwise_lt hC)
          by_cases hsl : (s.readyTxTable.findAfter txData.pubKey last
              cfg.txQueryLimit).length < cfg.txQueryLimit
          · rw [if_pos hsl] at hnone2 ⊢
            refine ⟨ivals.trans hD, ?_⟩
            intro r hr hpk hgt
            by_cases hro : r.nonce ≤ last
            · obtain ⟨r2, hr2mem, hq1, hq2, hq3, hq4, hq5⟩ :=
                (hF r hr hpk hgt).1 hro
              refine ⟨r2, ?_, hq1, hq2, hq3, hq4, hq5⟩
              apply imem r2 hr2mem
              intro x hx hc
              have := (mem_findAfter hx).2.2
              omega
            · have hfr := (hF r hr hpk hgt).2 (by omega)
              obtain ⟨hrmem, _, _⟩ := find_eq_some hfr
              have hrpage := mem_findAfter_of_small_page hsl hrmem hpk
                (by omega)
              obtain ⟨r2, hr2mem, hq1, hq2, hq3, hq4, hq5⟩ := iex r hrpage
              refine ⟨r2, hr2mem, hq1, hq2, hq3, hq4, ?_⟩
              have := hWF.idsBelowNext r hr
              omega
          · rw [if_neg hsl] at hnone2 ⊢
            apply ih
            · refine ⟨?_, iWF, iKU, ivals.trans hD, ?_, ?_⟩
              · rw [hgl]
                simp only [Option.map_some', Option.getD_some]
                omega
              · show st.readyTxTable.nextId ≤
                  (TxService.reinsertFollowups s.readyTxTable
                    (s.readyTxTable.findAfter txData.pubKey last
                      cfg.txQueryLimit)).nextId
                omega
              · intro r hr hpk hgt
                constructor
                · intro hro
                  by_cases hro2 : r.nonce ≤ last
                  · obtain ⟨r2, hr2mem, hq1, hq2, hq3, hq4, hq5⟩ :=
                      (hF r hr hpk hgt).1 hro2
                    refine ⟨r2, ?_, hq1, hq2, hq3, hq4, hq5⟩
                    apply imem r2 hr2mem
                    intro x hx hc
                    have := (mem_findAfter hx).2.2
                    omega
                  · have hfr := (hF r hr hpk hgt).2 (by omega)
                    obtain ⟨hrmem, _, _⟩ := find_eq_some hfr
                    have hrpage := mem_page_of_le_last hC hne hrmem hpk
                      (by omega) hro
                    obtain ⟨r2, hr2mem, hq1, hq2, hq3, hq4, hq5⟩ :=
                      iex r hrpage
                    refine ⟨r2, hr2mem, hq1, hq2, hq3, hq4, ?_⟩
                    have := hWF.idsBelowNext r hr
                    omega
                · intro hro
                  have hro2 : last < r.nonce := by
                    rw [hgl] at hro
                    simp only [Option.map_some', Option.getD_some] at hro
                    omega
                  have hfr := (hF r hr hpk hgt).2 hro2
                  rw [ifind txData.pubKey r.nonce ?_]
                  · exact hfr
                  · intro x hx hc
                    have hxle := hpageub x hx
                    rw [hgl] at hro hxle
                    simp only [Option.map_some', Option.getD_some]
                      at hro hxle
                    omega
            · exact hnone2
    have hP0F : ∀ r ∈ st.readyTxTable.txs, r.pubKey = txData.pubKey →
        txData.nonce < r.nonce →
        ((r.nonce ≤ txData.nonce → ∃ r2 ∈
          (({ st with readyTxTable := ((st.readyTxTable.removeTx ex).addTx txData) } : TxServiceState)).readyTxTable.txs,
          r2.pubKey = r.pubKey ∧ r2.nonce = r.nonce ∧
          r2.tokenRewardAmount = r.tokenRewardAmount ∧
          r2.payload = r.payload ∧ idOf r < idOf r2) ∧
        (txData.nonce < r.nonce →
          (({ st with readyTxTable := ((st.readyTxTable.removeTx ex).addTx txData) } : TxServiceState)).readyTxTable.find txData.pubKey
            r.nonce = some r)) := by
      intro r hr hpk hgt
      constructor
      · intro hro
        exfalso
        omega
      · intro _
        have hf0 : st.readyTxTable.find txData.pubKey r.nonce = some r := by
          have := find_eq_of_mem hKU hr
          rw [hpk] at this
          exact this
        have hf1 : (st.readyTxTable.removeTx ex).find txData.pubKey
            r.nonce = some r := by
          rw [find_removeTx hWF hexmem ?_]
          · exact hf0
          · intro hc
            have := hc.2
            omega
        show ((st.readyTxTable.removeTx ex).addTx txData).find
          txData.pubKey r.nonce = some r
        rw [find_addTx_other ?_ hfresh]
        · exact hf1
        · intro hc
          have := hc.2
          omega
    have hP0E : st.readyTxTable.nextId ≤
        (({ st with readyTxTable := ((st.readyTxTable.removeTx ex).addTx txData) } : TxServiceState)).readyTxTable.nextId := by
      show st.readyTxTable.nextId ≤
        ((st.readyTxTable.removeTx ex).addTx txData).nextId
      have he : ((st.readyTxTable.removeTx ex).addTx txData).nextId =
        st.readyTxTable.nextId + 1 := rfl
      omega
    obtain ⟨kvals, kex⟩ := key
      (((st.readyTxTable.removeTx ex).addTx txData).count + 1)
      txData.nonce
      { st with readyTxTable := (st.readyTxTable.removeTx ex).addTx txData }
      ⟨le_refl _, hWF1, hKU1, List.Perm.refl _, hP0E, hP0F⟩ hnone
    refine ⟨rfl, ?_, hMS _ kvals, kex⟩
    exact replaceLoop_futureTxTable cfg txData.pubKey _ _ _

/-- Witness for C5 at a concrete input: the account holds Ready nonces
5, 6, 7; replacing nonce 5 with a better-paying operation keeps the pool
contents equal up to ids (5 carries the new payload) and re-inserts the
records at nonces 6 and 7 under fresh, larger ids. -/
theorem C5_replacement_cascade_witness :
    (TxService.add { txQueryLimit := 2, maxFutureTxs := 8 }
        { readyTxTable := { txs := [{ txId := some 0, pubKey := "a", nonce := 5, tokenRewardAmount := 1, payload := "p5" }, { txId := some 1, pubKey := "a", nonce := 6, tokenRewardAmount := 1, payload := "p6" }, { txId := some 2, pubKey := "a", nonce := 7, tokenRewardAmount := 1, payload := "p7" }], nextId := 3 } }
        [] 5 { pubKey := "a", nonce := 5, tokenRewardAmount := 9, payload := "new" }).result =
      Except.ok [] ∧
    (TxService.add { txQueryLimit := 2, maxFutureTxs := 8 }
        { readyTxTable := { txs := [{ txId := some 0, pubKey := "a", nonce := 5, tokenRewardAmount := 1, payload := "p5" }, { txId := some 1, pubKey := "a", nonce := 6, tokenRewardAmount := 1, payload := "p6" }, { txId := some 2, pubKey := "a", nonce := 7, tokenRewardAmount := 1, payload := "p7" }], nextId := 3 } }
        [] 5 { pubKey := "a", nonce := 5, tokenRewardAmount := 9, payload := "new" }).state.futureTxTable =
      ({ readyTxTable := { txs := [{ txId := some 0, pubKey := "a", nonce := 5, tokenRewardAmount := 1, payload := "p5" }, { txId := some 1, pubKey := "a", nonce := 6, tokenRewardAmount := 1, payload := "p6" }, { txId := some 2, pubKey := "a", nonce := 7, tokenRewardAmount := 1, payload := "p7" }], nextId := 3 } } : TxServiceState).futureTxTable ∧
    (((TxService.add { txQueryLimit := 2, maxFutureTxs := 8 }
        { readyTxTable := { txs := [{ txId := some 0, pubKey := "a", nonce := 5, tokenRewardAmount := 1, payload := "p5" }, { txId := some 1, pubKey := "a", nonce := 6, tokenRewardAmount := 1, payload := "p6" }, { txId := some 2, pubKey := "a", nonce := 7, tokenRewardAmount := 1, payload := "p7" }], nextId := 3 } }
        [] 5 { pubKey := "a", nonce := 5, tokenRewardAmount := 9, payload := "new" }).state.readyTxTable.txs.map valueOf) ++
      [valueOf { txId := some 0, pubKey := "a", nonce := 5, tokenRewardAmount := 1, payload := "p5" }]).Perm
      ((({ readyTxTable := { txs := [{ txId := some 0, pubKey := "a", nonce := 5, tokenRewardAmount := 1, payload := "p5" }, { txId := some 1, pubKey := "a", nonce := 6, tokenRewardAmount := 1, payload := "p6" }, { txId := some 2, pubKey := "a", nonce := 7, tokenRewardAmount := 1, payload := "p7" }], nextId := 3 } } : TxServiceState).readyTxTable.txs.map valueOf) ++
        [valueOf { pubKey := "a", nonce := 5, tokenRewardAmount := 9, payload := "new" }]) ∧
    (∀ r ∈ ({ readyTxTable := { txs := [{ txId := some 0, pubKey := "a", nonce := 5, tokenRewardAmount := 1, payload := "p5" }, { txId := some 1, pubKey := "a", nonce := 6, tokenRewardAmount := 1, payload := "p6" }, { txId := some 2, pubKey := "a", nonce := 7, tokenRewardAmount := 1, payload := "p7" }], nextId := 3 } } : TxServiceState).readyTxTable.txs,
      r.pubKey = ({ pubKey := "a", nonce := 5, tokenRewardAmount := 9, payload := "new" } : TransactionData).pubKey →
      ({ pubKey := "a", nonce := 5, tokenRewardAmount := 9, payload := "new" } : TransactionData).nonce < r.nonce →
      ∃ r2 ∈ (TxService.add { txQueryLimit := 2, maxFutureTxs := 8 }
          { readyTxTable := { txs := [{ txId := some 0, pubKey := "a", nonce := 5, tokenRewardAmount := 1, payload := "p5" }, { txId := some 1, pubKey := "a", nonce := 6, tokenRewardAmount := 1, payload := "p6" }, { txId := some 2, pubKey := "a", nonce := 7, tokenRewardAmount := 1, payload := "p7" }], nextId := 3 } }
          [] 5 { pubKey := "a", nonce := 5, tokenRewardAmount := 9, payload := "new" }).state.readyTxTable.txs,
        r2.pubKey = r.pubKey ∧ r2.nonce = r.nonce ∧
        r2.tokenRewardAmount = r.tokenRewardAmount ∧
        r2.payload = r.payload ∧ idOf r < idOf r2) :=
  C5_replacement_cascade { txQueryLimit := 2, maxFutureTxs := 8 }
    { readyTxTable := { txs := [{ txId := some 0, pubKey := "a", nonce := 5, tokenRewardAmount := 1, payload := "p5" }, { txId := some 1, pubKey := "a", nonce := 6, tokenRewardAmount := 1, payload := "p6" }, { txId := some 2, pubKey := "a", nonce := 7, tokenRewardAmount := 1, payload := "p7" }], nextId := 3 } }
    5 { pubKey := "a", nonce := 5, tokenRewardAmount := 9, payload := "new" }
    { txId := some 0, pubKey := "a", nonce := 5, tokenRewardAmount := 1, payload := "p5" }
    ⟨by decide, by decide, by decide⟩
    (by unfold TxTable.KeysUnique; decide) (by decide) (by decide) (by decide)

/-- Claim C5 (counterexample): with a zero page limit the cascade fetches
no followup records, so after a successful replacement of nonce 5 the
account's Ready record at nonce 6 keeps its old serial id instead of being
re-inserted under a new one. -/
theorem C5_cascade_counterexample :
    ¬ (∀ r ∈ ({ readyTxTable := { txs := [{ txId := some 0, pubKey := "a", nonce := 5, tokenRewardAmount := 1, payload := "p5" }, { txId := some 1, pubKey := "a", nonce := 6, tokenRewardAmount := 1, payload := "p6" }], nextId := 2 } } : TxServiceState).readyTxTable.txs,
      r.pubKey = "a" → 5 < r.nonce →
      ∃ r2 ∈ (TxService.add { txQueryLimit := 0, maxFutureTxs := 8 }
          { readyTxTable := { txs := [{ txId := some 0, pubKey := "a", nonce := 5, tokenRewardAmount := 1, payload := "p5" }, { txId := some 1, pubKey := "a", nonce := 6, tokenRewardAmount := 1, payload := "p6" }], nextId := 2 } }
          [] 5 { pubKey := "a", nonce := 5, tokenRewardAmount := 9, payload := "new" }).state.readyTxTable.txs,
        r2.pubKey = r.pubKey ∧ r2.nonce = r.nonce ∧
        r2.tokenRewardAmount = r.tokenRewardAmount ∧
        r2.payload = r.payload ∧ idOf r < idOf r2) := by
  decide

/-! ## Claim C1: contiguity machinery -/

theorem scan_spec :
    ∀ (l : List TransactionData) (floor : Nat),
      ((TxService.scanFutureTxs floor l).txsToAdd.map (fun r => r.nonce) =
        List.range' floor (TxService.scanFutureTxs floor l).txsToAdd.length) ∧
      (TxService.scanFutureTxs floor l).newLowest =
        floor + (TxService.scanFutureTxs floor l).txsToAdd.length ∧
      ∀ x ∈ (TxService.scanFutureTxs floor l).txsToAdd,
        ∃ y ∈ l, x = { y with txId := none } := by
  intro l
  induction l with
  | nil =>
    intro floor
    refine ⟨rfl, by simp [TxService.scanFutureTxs], ?_⟩
    intro x hx
    simp [TxService.scanFutureTxs] at hx
  | cons tx rest ih =>
    intro floor
    unfold TxService.scanFutureTxs
    dsimp only
    by_cases h1 : tx.nonce < floor
    · rw [if_pos h1]
      obtain ⟨ih1, ih2, ih3⟩ := ih floor
      exact ⟨ih1, ih2, fun x hx => by
        obtain ⟨y, hy, hxy⟩ := ih3 x hx
        exact ⟨y, List.mem_cons_of_mem tx hy, hxy⟩⟩
    · rw [if_neg h1]
      by_cases h2 : tx.nonce = floor
      · rw [if_pos h2]
        obtain ⟨ih1, ih2, ih3⟩ := ih (floor + 1)
        refine ⟨?_, ?_, ?_⟩
        · dsimp only
          rw [List.map_cons, ih1, List.length_cons]
          rw [List.range'_succ]
          have : ({ tx with txId := none } : TransactionData).nonce =
            floor := h2
          rw [this]
        · dsimp only
          rw [List.length_cons, ih2]
          omega
        · intro x hx
          dsimp only at hx
          rcases List.mem_cons.mp hx with rfl | hx2
          · exact ⟨tx, List.mem_cons_self tx rest, rfl⟩
          · obtain ⟨y, hy, hxy⟩ := ih3 x hx2
            exact ⟨y, List.mem_cons_of_mem tx hy, hxy⟩
      · rw [if_neg h2]
        refine ⟨rfl, by simp, ?_⟩
        intro x hx
        simp at hx

theorem mem_pubKeyTxsInNonceOrder {t : TxTable} {pk : String} {limit : Nat}
    {x : TransactionData} (hx : x ∈ t.pubKeyTxsInNonceOrder pk limit) :
    x ∈ t.txs ∧ x.pubKey = pk := by
  unfold TxTable.pubKeyTxsInNonceOrder at hx
  have hx1 := List.mem_of_mem_take hx
  have hx2 := (sortByNonce_perm (t.keyTxs pk)).mem_iff.mp hx1
  exact mem_keyTxs.mp hx2

theorem nextNonceOf_run {t : TxTable} {pk : String} {c m : Nat}
    (hperm : ((t.keyTxs pk).map (fun r => r.nonce)).Perm (List.range' c m))
    (hm : 1 ≤ m) : t.nextNonceOf pk = some (c + m) := by
  unfold TxTable.nextNonceOf
  cases hmap : (t.keyTxs pk).map (fun r => r.nonce) with
  | nil =>
    exfalso
    rw [hmap] at hperm
    have := hperm.length_eq
    simp only [List.length_nil, List.length_range'] at this
    omega
  | cons n rest =>
    rw [hmap] at hperm
    dsimp only
    have hub : ∀ x ∈ n :: rest, x ≤ c + m - 1 := by
      intro x hx
      have hx2 := hperm.mem_iff.mp hx
      rw [List.mem_range'] at hx2
      obtain ⟨i, hi, hxe⟩ := hx2
      omega
    have htop : c + (m - 1) ∈ n :: rest := by
      apply hperm.mem_iff.mpr
      rw [List.mem_range']
      exact ⟨m - 1, by omega, by omega⟩
    have hvub : rest.foldl Nat.max n ≤ c + m - 1 := by
      rcases foldl_max_mem rest n with h | h
      · rw [h]; exact hub n (List.mem_cons_self n rest)
      · exact hub _ (List.mem_cons_of_mem n h)
    have hvlb : c + (m - 1) ≤ rest.foldl Nat.max n := by
      rcases List.mem_cons.mp htop with heq | hmem
      · rw [heq]; exact le_foldl_max rest n
      · exact mem_le_foldl_max hmem n
    have : rest.foldl Nat.max n = c + m - 1 := by omega
    rw [this]
    congr 1
    omega

theorem filter_filter_of_imp {α : Type} (l : List α) (p s : α → Bool)
    (h : ∀ a ∈ l, p a = true → s a = true) :
    (l.filter s).filter p = l.filter p := by
  induction l with
  | nil => rfl
  | cons x xs ih =>
    have ih2 := ih (fun a ha => h a (List.mem_cons_of_mem x ha))
    rw [List.filter_cons]
    cases hsx : s x with
    | true =>
      simp only [if_true]
      rw [List.filter_cons, List.filter_cons, ih2]
    | false =>
      have hpx : p x = false := by
        cases hpx : p x with
        | false => rfl
        | true => rw [h x (List.mem_cons_self x xs) hpx] at hsx; cases hsx
      simp only [Bool.false_eq_true, if_false]
      rw [ih2, List.filter_cons, hpx]
      simp

theorem keyTxs_addTx_other {t : TxTable} {x : TransactionData} {q : String}
    (hq : x.pubKey ≠ q) : (t.addTx x).keyTxs q = t.keyTxs q := by
  unfold TxTable.keyTxs TxTable.addTx
  dsimp only
  rw [List.filter_append]
  have h2 : ([{ x with txId := some t.nextId }].filter
      (fun r => r.pubKey == q)) = [] := by
    simp only [List.filter_cons, List.filter_nil]
    have : (({ x with txId := some t.nextId } :
        TransactionData).pubKey == q) = false := by
      simp only [beq_eq_false_iff_ne]
      exact hq
    rw [this]
    simp
  rw [h2, List.append_nil]
  apply filter_filter_of_imp
  intro a _ hp
  have hap : a.pubKey = q := by simpa using hp
  cases hsk : sameKey a x with
  | false => rfl
  | true =>
    exfalso
    exact hq ((sameKey_eq_true.mp hsk).1.symm.trans hap)

theorem keyTxs_addTx_fresh {t : TxTable} {x : TransactionData} {pk : String}
    (hpk : x.pubKey = pk)
    (hfresh : ∀ r ∈ t.keyTxs pk, r.nonce ≠ x.nonce) :
    (t.addTx x).keyTxs pk =
      t.keyTxs pk ++ [{ x with txId := some t.nextId }] := by
  unfold TxTable.keyTxs TxTable.addTx
  dsimp only
  rw [List.filter_append]
  have h2 : ([{ x with txId := some t.nextId }].filter
      (fun r => r.pubKey == pk)) = [{ x with txId := some t.nextId }] := by
    simp only [List.filter_cons, List.filter_nil]
    have : (({ x with txId := some t.nextId } :
        TransactionData).pubKey == pk) = true := by
      simpa using hpk
    rw [this]
    simp
  rw [h2]
  congr 1
  apply filter_filter_of_imp
  intro a ha hp
  have hap : a.pubKey = pk := by simpa using hp
  cases hsk : sameKey a x with
  | false => rfl
  | true =>
    exfalso
    have hk := sameKey_eq_true.mp hsk
    have hamem : a ∈ t.keyTxs pk :=
      List.mem_filter.mpr ⟨ha, by simpa using hap⟩
    exact hfresh a hamem hk.2

theorem addTx_runs_extend {cn : String → Nat} {t : TxTable} {pk : String}
    {k : Nat} {x : TransactionData}
    (hruns : ReadyRuns cn t)
    (hrun : ((t.keyTxs pk).map (fun r => r.nonce)).Perm
      (List.range' (cn pk) k))
    (hpk : x.pubKey = pk) (hx : x.nonce = cn pk + k) :
    ReadyRuns cn (t.addTx x) ∧
      (((t.addTx x).keyTxs pk).map (fun r => r.nonce)).Perm
        (List.range' (cn pk) (k + 1)) := by
  have hfresh : ∀ r ∈ t.keyTxs pk, r.nonce ≠ x.nonce := by
    intro r hr hc
    have hmem : r.nonce ∈ (t.keyTxs pk).map (fun r => r.nonce) :=
      List.mem_map.mpr ⟨r, hr, rfl⟩
    have hmem2 := hrun.mem_iff.mp hmem
    rw [List.mem_range'] at hmem2
    obtain ⟨i, hi, he⟩ := hmem2
    omega
  have hpkc : (((t.addTx x).keyTxs pk).map (fun r => r.nonce)).Perm
      (List.range' (cn pk) (k + 1)) := by
    rw [keyTxs_addTx_fresh hpk hfresh, List.map_append,
      List.range'_concat (cn pk) k]
    apply hrun.append
    simp only [List.map_cons, List.map_nil]
    have hxx : ({ x with txId := some t.nextId } : TransactionData).nonce =
        cn pk + 1 * k := by
      show x.nonce = cn pk + 1 * k
      omega
    rw [hxx]
  refine ⟨?_, hpkc⟩
  intro q
  by_cases hq : x.pubKey = q
  · have hqpk : q = pk := by rw [← hq, hpk]
    subst hqpk
    exact ⟨k + 1, hpkc⟩
  · obtain ⟨m, hm⟩ := hruns q
    exact ⟨m, by rw [keyTxs_addTx_other hq]; exact hm⟩

theorem add_runs_extend {cn : String → Nat} {pk : String} :
    ∀ (toAdd : List TransactionData) (t : TxTable) (k : Nat),
      (∀ x ∈ toAdd, x.pubKey = pk) →
      (toAdd.map (fun r => r.nonce) =
        List.range' (cn pk + k) toAdd.length) →
      ReadyRuns cn t →
      ((t.keyTxs pk).map (fun r => r.nonce)).Perm (List.range' (cn pk) k) →
      ReadyRuns cn (t.add toAdd) ∧
        (((t.add toAdd).keyTxs pk).map (fun r => r.nonce)).Perm
          (List.range' (cn pk) (k + toAdd.length)) := by
  intro toAdd
  induction toAdd with
  | nil =>
    intro t k _ _ hruns hrun
    exact ⟨hruns, by simpa using hrun⟩
  | cons x rest ih =>
    intro t k hpk hmap hruns hrun
    rw [List.map_cons, List.length_cons, List.range'_succ] at hmap
    injection hmap with hx hrest
    have hext := addTx_runs_extend hruns hrun
      (hpk x (List.mem_cons_self x rest)) hx
    have hsub := ih (t.addTx x) (k + 1)
      (fun y hy => hpk y (List.mem_cons_of_mem x hy)) hrest hext.1 hext.2
    refine ⟨hsub.1, ?_⟩
    rw [List.length_cons, show k + (rest.length + 1) = k + 1 + rest.length
      from by omega]
    exact hsub.2

theorem tryMoveLoop_invariant_rel (cfg : TxServiceConfig) (pk : String)
    (P : Nat → TxServiceState → Prop)
    (hstep : ∀ st floor, P floor st →
      P (TxService.scanFutureTxs floor
          (st.futureTxTable.pubKeyTxsInNonceOrder pk cfg.txQueryLimit)).newLowest
        { readyTxTable := (st.readyTxTable.add
            (TxService.scanFutureTxs floor
              (st.futureTxTable.pubKeyTxsInNonceOrder pk
                cfg.txQueryLimit)).txsToAdd)
          futureTxTable := (st.futureTxTable.remove
            (TxService.scanFutureTxs floor
              (st.futureTxTable.pubKeyTxsInNonceOrder pk
                cfg.txQueryLimit)).futureTxsToRemove) }) :
    ∀ fuel floor st, P floor st →
      ∃ floor2, P floor2 (TxService.tryMoveFutureTxsLoop cfg pk fuel floor st).2 := by
  intro fuel
  induction fuel with
  | zero => intro floor st h; exact ⟨floor, h⟩
  | succ n ih =>
    intro floor st h
    unfold TxService.tryMoveFutureTxsLoop
    dsimp only
    split
    · exact ih _ _ (hstep st floor h)
    · exact ⟨_, hstep st floor h⟩

theorem keyNonces_eq (t : TxTable) (q : String) :
    (t.keyTxs q).map (fun r => r.nonce) =
      t.txs.filterMap (fun r => if r.pubKey = q then some r.nonce else none) := by
  show (t.txs.filter (fun r => r.pubKey == q)).map (fun r => r.nonce) = _
  induction t.txs with
  | nil => rfl
  | cons x xs ih =>
    rw [List.filter_cons, List.filterMap_cons]
    by_cases hq : x.pubKey = q
    · have hb : (x.pubKey == q) = true := by simpa using hq
      rw [hb, if_pos hq]
      simp only [if_true, List.map_cons]
      rw [ih]
    · have hb : (x.pubKey == q) = false := by simpa using hq
      rw [hb, if_neg hq]
      simp only [Bool.false_eq_true, if_false]
      exact ih

theorem swap_keyTxs_nonces {t : TxTable} {ex txData : TransactionData}
    (hWF : t.WF) (hKU : t.KeysUnique)
    (hfind : t.find txData.pubKey txData.nonce = some ex) :
    ∀ q, ((((t.removeTx ex).addTx txData).keyTxs q).map
        (fun r => r.nonce)).Perm
      ((t.keyTxs q).map (fun r => r.nonce)) := by
  intro q
  obtain ⟨hexmem, hexpk, hexn⟩ := find_eq_some hfind
  have hfresh : ∀ s ∈ (t.removeTx ex).txs, sameKey s txData = false := by
    intro s hs
    have h1 := no_sameKey_after_remove hKU hexmem s hs
    cases hsk : sameKey s txData with
    | false => rfl
    | true =>
      exfalso
      have hk := sameKey_eq_true.mp hsk
      have : sameKey s ex = true := by
        apply sameKey_eq_true.mpr
        exact ⟨hk.1.trans hexpk.symm, hk.2.trans hexn.symm⟩
      rw [this] at h1
      cases h1
  rw [keyNonces_eq, keyNonces_eq, addTx_txs_of_fresh hfresh,
    List.filterMap_append]
  have hperm := (removeTx_txs_perm hWF hexmem).filterMap
    (fun r => if r.pubKey = q then some r.nonce else none)
  rw [List.filterMap_cons] at hperm
  have hheads :
      (if ex.pubKey = q then some ex.nonce else none) =
        (if ({ txData with txId := some (t.removeTx ex).nextId } :
          TransactionData).pubKey = q then
          some ({ txData with txId := some (t.removeTx ex).nextId } :
            TransactionData).nonce else none) := by
    show (if ex.pubKey = q then some ex.nonce else none) =
      (if txData.pubKey = q then some txData.nonce else none)
    rw [hexpk, hexn]
  apply List.Perm.symm
  apply hperm.trans
  rw [hheads]
  cases hc : (if ({ txData with txId := some (t.removeTx ex).nextId } :
      TransactionData).pubKey = q then
      some ({ txData with txId := some (t.removeTx ex).nextId } :
        TransactionData).nonce else none) with
  | none =>
    simp only [List.filterMap_cons, hc, List.filterMap_nil, List.append_nil]
    exact List.Perm.refl _
  | some v =>
    simp only [List.filterMap_cons, hc, List.filterMap_nil]
    exact (List.perm_append_singleton v _).symm

theorem submit_readyInv (cfg : TxServiceConfig) (cn : String → Nat)
    (st : TxServiceState) (s : Submission)
    (hnn : s.nextNonce = cn s.txData.pubKey)
    (h : ReadyInv cn st.readyTxTable) :
    ReadyInv cn (submitStep cfg st s).readyTxTable := by
  obtain ⟨hWF, hKU, hruns⟩ := h
  unfold submitStep
  by_cases hfs : s.checkTxFailures = []
  · cases hLo : TxService.LowestAcceptableNonce st.readyTxTable s.nextNonce
      s.txData.pubKey with
    | none =>
      rw [hfs, add_eq_error_bignum hLo]
      exact ⟨hWF, hKU, hruns⟩
    | some L =>
      rcases Nat.lt_trichotomy s.txData.nonce L with hlt | heq | hgt
      · rw [hfs, add_eq_replace hLo hlt]
        cases hfind : st.readyTxTable.find s.txData.pubKey s.txData.nonce with
        | none =>
          rw [replace_eq_dup hfind]
          exact ⟨hWF, hKU, hruns⟩
        | some ex =>
          by_cases hbr : ex.tokenRewardAmount < s.txData.tokenRewardAmount
          · have hswapP : ReadyInv cn
                ((st.readyTxTable.removeTx ex).addTx s.txData) := by
              refine ⟨WF_addTx (WF_removeTx hWF ex) _,
                KeysUnique_addTx (KeysUnique_removeTx hKU ex) _, ?_⟩
              intro q
              obtain ⟨m, hm⟩ := hruns q
              exact ⟨m, (swap_keyTxs_nonces hWF hKU hfind q).trans hm⟩
            have hstep : ∀ (s2 : TxServiceState) (last : Nat),
                ReadyInv cn s2.readyTxTable →
                ReadyInv cn (TxService.reinsertFollowups s2.readyTxTable
                  (s2.readyTxTable.findAfter s.txData.pubKey last
                    cfg.txQueryLimit)) := by
              intro s2 last h2
              obtain ⟨hWF2, hKU2, hruns2⟩ := h2
              have hmem : ∀ r ∈ s2.readyTxTable.findAfter s.txData.pubKey last
                  cfg.txQueryLimit, r ∈ s2.readyTxTable.txs :=
                fun r hr => (mem_findAfter hr).1
              have hpw : List.Pairwise
                  (fun a b => ¬(a.pubKey = b.pubKey ∧ a.nonce = b.nonce))
                  (s2.readyTxTable.findAfter s.txData.pubKey last
                    cfg.txQueryLimit) := findAfter_pairwise_key hKU2
              have hspec := reinsertFollowups_spec
                (s2.readyTxTable.findAfter s.txData.pubKey last cfg.txQueryLimit)
                s2.readyTxTable hWF2 hKU2 hmem hpw
              refine ⟨hspec.1, hspec.2.1, ?_⟩
              intro q
              obtain ⟨m, hm⟩ := hruns2 q
              exact ⟨m, (keyTxs_nonces_perm_of_values hspec.2.2.1 q).trans hm⟩
            by_cases hlast : L - 1 = s.txData.nonce
            · rw [replace_eq_swap_last hfind hbr hlast]
              exact hswapP
            · obtain ⟨e, st2, hloop⟩ : ∃ e st2,
                  TxService.replaceReadyTxLoop cfg s.txData.pubKey
                    (((st.readyTxTable.removeTx ex).addTx s.txData).count + 1)
                    s.txData.nonce
                    { st with readyTxTable :=
                      (st.readyTxTable.removeTx ex).addTx s.txData } =
                    (e, st2) := ⟨_, _, rfl⟩
              rw [replace_eq_swap_cascade hfind hbr hlast hloop]
              have hinv := replaceLoop_invariant cfg s.txData.pubKey
                (fun s2 => ReadyInv cn s2.readyTxTable)
                (fun s2 last h2 => hstep s2 last h2)
                (((st.readyTxTable.removeTx ex).addTx s.txData).count + 1)
                s.txData.nonce
                { st with readyTxTable :=
                  (st.readyTxTable.removeTx ex).addTx s.txData }
                hswapP
              rw [hloop] at hinv
              exact hinv
          · rw [replace_eq_insufficient hfind (by omega)]
            exact ⟨hWF, hKU, hruns⟩
      · obtain ⟨m0, hm0⟩ := hruns s.txData.pubKey
        have hLeq : L = cn s.txData.pubKey + m0 := by
          cases hkt : st.readyTxTable.keyTxs s.txData.pubKey with
          | nil =>
            have hmap0 : ((st.readyTxTable.keyTxs s.txData.pubKey).map
                (fun r => r.nonce)) = [] := by rw [hkt]; rfl
            rw [hmap0] at hm0
            have hm00 : m0 = 0 := by
              have hl := hm0.length_eq
              simp only [List.length_nil, List.length_range'] at hl
              omega
            have hnone : st.readyTxTable.nextNonceOf s.txData.pubKey = none :=
              nextNonceOf_eq_none.mpr hkt
            have hLA : TxService.LowestAcceptableNonce st.readyTxTable
                s.nextNonce s.txData.pubKey =
                if 0 < s.nextNonce then some s.nextNonce else none :=
              lowestAcceptable_of_empty hnone
            rw [hLA] at hLo
            by_cases hc0 : 0 < s.nextNonce
            · rw [if_pos hc0] at hLo
              injection hLo with hLo2
              rw [← hLo2, hnn, hm00]
              omega
            · rw [if_neg hc0] at hLo
              cases hLo
          | cons r rest =>
            have hm01 : 1 ≤ m0 := by
              have hl := hm0.length_eq
              rw [hkt] at hl
              simp only [List.length_cons, List.length_map,
                List.length_range'] at hl
              omega
            have hnn2 := nextNonceOf_run hm0 hm01
            have hLA : TxService.LowestAcceptableNonce st.readyTxTable
                s.nextNonce s.txData.pubKey =
                some (max s.nextNonce (cn s.txData.pubKey + m0)) :=
              lowestAcceptable_of_nextNonce hnn2
            have hLeq2 := hLo.symm.trans hLA
            injection hLeq2 with hLeq3
            rw [hLeq3, hnn]
            exact Nat.max_eq_right (Nat.le_add_right _ _)
        obtain ⟨e, st2, hloop⟩ : ∃ e st2,
            TxService.tryMoveFutureTxs cfg s.txData.pubKey (L + 1)
              { st with readyTxTable := st.readyTxTable.addTx s.txData } =
              (e, st2) := ⟨_, _, rfl⟩
        rw [hfs, add_eq_ready hLo heq.symm hloop]
        have hext0 := @addTx_runs_extend cn st.readyTxTable s.txData.pubKey
          m0 s.txData hruns hm0 rfl (by omega)
        have hstep : ∀ (s2 : TxServiceState) (floor : Nat),
            (ReadyInv cn s2.readyTxTable ∧
              ∃ k, ((s2.readyTxTable.keyTxs s.txData.pubKey).map
                (fun r => r.nonce)).Perm
                  (List.range' (cn s.txData.pubKey) k) ∧
                floor = cn s.txData.pubKey + k) →
            (ReadyInv cn (s2.readyTxTable.add
                (TxService.scanFutureTxs floor
                  (s2.futureTxTable.pubKeyTxsInNonceOrder s.txData.pubKey
                    cfg.txQueryLimit)).txsToAdd) ∧
              ∃ k, (((s2.readyTxTable.add
                  (TxService.scanFutureTxs floor
                    (s2.futureTxTable.pubKeyTxsInNonceOrder s.txData.pubKey
                      cfg.txQueryLimit)).txsToAdd).keyTxs s.txData.pubKey).map
                (fun r => r.nonce)).Perm
                  (List.range' (cn s.txData.pubKey) k) ∧
                (TxService.scanFutureTxs floor
                  (s2.futureTxTable.pubKeyTxsInNonceOrder s.txData.pubKey
                    cfg.txQueryLimit)).newLowest =
                  cn s.txData.pubKey + k) := by
          intro s2 floor h2
          obtain ⟨⟨hWF2, hKU2, hruns2⟩, k, hk, hfl⟩ := h2
          obtain ⟨hs1, hs2eq, hs3⟩ := scan_spec
            (s2.futureTxTable.pubKeyTxsInNonceOrder s.txData.pubKey
              cfg.txQueryLimit) floor
          have hpkAll : ∀ x ∈ (TxService.scanFutureTxs floor
              (s2.futureTxTable.pubKeyTxsInNonceOrder s.txData.pubKey
                cfg.txQueryLimit)).txsToAdd, x.pubKey = s.txData.pubKey := by
            intro x hx
            obtain ⟨y, hy, rfl⟩ := hs3 x hx
            exact (mem_pubKeyTxsInNonceOrder hy).2
          have hmapeq : (TxService.scanFutureTxs floor
              (s2.futureTxTable.pubKeyTxsInNonceOrder s.txData.pubKey
                cfg.txQueryLimit)).txsToAdd.map (fun r => r.nonce) =
              List.range' (cn s.txData.pubKey + k)
                (TxService.scanFutureTxs floor
                  (s2.futureTxTable.pubKeyTxsInNonceOrder s.txData.pubKey
                    cfg.txQueryLimit)).txsToAdd.length := by
            rw [hs1, hfl]
          have hext := add_runs_extend
            (TxService.scanFutureTxs floor
              (s2.futureTxTable.pubKeyTxsInNonceOrder s.txData.pubKey
                cfg.txQueryLimit)).txsToAdd
            s2.readyTxTable k hpkAll hmapeq hruns2 hk
          refine ⟨⟨WF_add hWF2 _, KeysUnique_add hKU2 _, hext.1⟩,
            k + (TxService.scanFutureTxs floor
              (s2.futureTxTable.pubKeyTxsInNonceOrder s.txData.pubKey
                cfg.txQueryLimit)).txsToAdd.length, hext.2, by omega⟩
        obtain ⟨floor2, hP2⟩ := tryMoveLoop_invariant_rel cfg s.txData.pubKey
          (fun floor s2 => ReadyInv cn s2.readyTxTable ∧
            ∃ k, ((s2.readyTxTable.keyTxs s.txData.pubKey).map
              (fun r => r.nonce)).Perm
                (List.range' (cn s.txData.pubKey) k) ∧
              floor = cn s.txData.pubKey + k)
          (fun s2 floor h2 => hstep s2 floor h2)
          ((({ st with readyTxTable := st.readyTxTable.addTx s.txData }
            : TxServiceState).futureTxTable.count) + 1) (L + 1)
          { st with readyTxTable := st.readyTxTable.addTx s.txData }
          ⟨⟨WF_addTx hWF _, KeysUnique_addTx hKU _, hext0.1⟩,
            m0 + 1, hext0.2, by omega⟩
        rw [show TxService.tryMoveFutureTxsLoop cfg s.txData.pubKey
          ((({ st with readyTxTable := st.readyTxTable.addTx s.txData }
            : TxServiceState).futureTxTable.count) + 1) (L + 1)
          { st with readyTxTable := st.readyTxTable.addTx s.txData } =
          TxService.tryMoveFutureTxs cfg s.txData.pubKey (L + 1)
          { st with readyTxTable := st.readyTxTable.addTx s.txData } from rfl,
          hloop] at hP2
        exact hP2.1
      · rw [hfs, add_eq_future hLo hgt]
        exact ⟨hWF, hKU, hruns⟩
  · rw [add_eq_failures hfs]
    exact ⟨hWF, hKU, hruns⟩

theorem runFrom_readyInv (cfg : TxServiceConfig) (cn : String → Nat) :
    ∀ (subs : List Submission) (st : TxServiceState),
      (∀ s ∈ subs, s.nextNonce = cn s.txData.pubKey) →
      ReadyInv cn st.readyTxTable →
      ReadyInv cn (runSubmissionsFrom cfg st subs).readyTxTable := by
  intro subs
  induction subs with
  | nil => intro st _ h; exact h
  | cons s rest ih =>
    intro st hnn h
    exact ih (submitStep cfg st s)
      (fun x hx => hnn x (List.mem_cons_of_mem s hx))
      (submit_readyInv cfg cn st s (hnn s (List.mem_cons_self s rest)) h)

theorem readyInv_empty (cn : String → Nat) :
    ReadyInv cn ({} : TxServiceState).readyTxTable := by
  refine ⟨⟨List.Pairwise.nil, ?_, ?_⟩, List.Pairwise.nil, ?_⟩
  · intro tx h; cases h
  · intro tx h; cases h
  · intro q
    exact ⟨0, List.Perm.refl _⟩

/-! ## Claim C1 -/

/-- Claim C1 (confirmed, reading "lowest-acceptable nonce" as the account's
chain next-nonce, as the spec's testable-property form `max(chainNextNonce,
0)` makes explicit): after any sequence of submit calls from empty pools in
which the oracle consistently reports each account's chain next-nonce, every
account's Ready-pool nonces, listed in the pool's ascending nonce order,
form exactly the contiguous run `chainNonce pk, chainNonce pk + 1, ...` of
some length — no gaps, no duplicates, nothing below the chain nonce. -/
theorem C1_ready_contiguity (cfg : TxServiceConfig) (chainNonce : String → Nat)
    (subs : List Submission)
    (h : ∀ s ∈ subs, s.nextNonce = chainNonce s.txData.pubKey) :
    ∀ pk, ∃ m, readyNoncesOf (runSubmissions cfg subs).readyTxTable pk =
      List.range' (chainNonce pk) m := by
  obtain ⟨hWF, hKU, hruns⟩ :=
    runFrom_readyInv cfg chainNonce subs {} h (readyInv_empty chainNonce)
  intro pk
  obtain ⟨m, hm⟩ := hruns pk
  refine ⟨m, ?_⟩
  have hperm : (readyNoncesOf (runSubmissions cfg subs).readyTxTable pk).Perm
      (List.range' (chainNonce pk) m) := by
    unfold readyNoncesOf
    exact ((sortByNonce_perm _).map _).trans hm
  have hsorted1 : List.Sorted (· ≤ ·)
      (readyNoncesOf (runSubmissions cfg subs).readyTxTable pk) := by
    unfold readyNoncesOf
    exact (sortByNonce_pairwise _).map _ (fun a b hab => hab)
  have hsorted2 : List.Sorted (· ≤ ·) (List.range' (chainNonce pk) m) := by
    have := List.pairwise_lt_range' (chainNonce pk) m
    exact this.imp le_of_lt
  exact List.eq_of_perm_of_sorted hperm hsorted1 hsorted2

/-- Witness for C1 at a concrete run: chain nonce 1 for every account,
submissions at nonces 1, 3, 2 for one account. -/
theorem C1_ready_contiguity_witness :
    (∀ s ∈ [({ txData := { pubKey := "a", nonce := 1, tokenRewardAmount := 0 }, nextNonce := 1 } : Submission),
        ({ txData := { pubKey := "a", nonce := 3, tokenRewardAmount := 0 }, nextNonce := 1 } : Submission),
        ({ txData := { pubKey := "a", nonce := 2, tokenRewardAmount := 0 }, nextNonce := 1 } : Submission)],
      s.nextNonce = (fun _ => 1) s.txData.pubKey) ∧
    ∃ m, readyNoncesOf (runSubmissions ⟨1, 2⟩
        [({ txData := { pubKey := "a", nonce := 1, tokenRewardAmount := 0 }, nextNonce := 1 } : Submission),
          ({ txData := { pubKey := "a", nonce := 3, tokenRewardAmount := 0 }, nextNonce := 1 } : Submission),
          ({ txData := { pubKey := "a", nonce := 2, tokenRewardAmount := 0 }, nextNonce := 1 } : Submission)]).readyTxTable "a" =
      List.range' ((fun _ => 1) "a") m :=
  ⟨by decide, C1_ready_contiguity ⟨1, 2⟩ (fun _ => 1)
    [({ txData := { pubKey := "a", nonce := 1, tokenRewardAmount := 0 }, nextNonce := 1 } : Submission),
      ({ txData := { pubKey := "a", nonce := 3, tokenRewardAmount := 0 }, nextNonce := 1 } : Submission),
      ({ txData := { pubKey := "a", nonce := 2, tokenRewardAmount := 0 }, nextNonce := 1 } : Submission)] (by decide) "a"⟩

/-! ## Claim C3 -/

theorem tryMoveLoop_succ (cfg : TxServiceConfig) (pk : String) (fuel floor : Nat)
    (st : TxServiceState) :
    TxService.tryMoveFutureTxsLoop cfg pk (fuel + 1) floor st =
      (let s := TxService.scanFutureTxs floor
        (st.futureTxTable.pubKeyTxsInNonceOrder pk cfg.txQueryLimit);
      let st1 : TxServiceState :=
        { readyTxTable := st.readyTxTable.add s.txsToAdd
          futureTxTable := st.futureTxTable.remove s.futureTxsToRemove };
      if s.futureTxsToRemove.length = cfg.txQueryLimit then
        TxService.tryMoveFutureTxsLoop cfg pk fuel s.newLowest st1
      else (none, st1)) := rfl

theorem tryMoveLoop_iter_cont (cfg : TxServiceConfig) (pk : String)
    (fuel floor : Nat) (st : TxServiceState) (page : List TransactionData)
    (s1 : ScanResult)
    (hpage : st.futureTxTable.pubKeyTxsInNonceOrder pk cfg.txQueryLimit = page)
    (hscan : TxService.scanFutureTxs floor page = s1)
    (hlen : s1.futureTxsToRemove.length = cfg.txQueryLimit) :
    TxService.tryMoveFutureTxsLoop cfg pk (fuel + 1) floor st =
      TxService.tryMoveFutureTxsLoop cfg pk fuel s1.newLowest
        ⟨st.readyTxTable.add s1.txsToAdd,
          st.futureTxTable.remove s1.futureTxsToRemove⟩ := by
  rw [tryMoveLoop_succ]
  dsimp only
  rw [hpage, hscan, if_pos hlen]

theorem tryMoveLoop_iter_stop (cfg : TxServiceConfig) (pk : String)
    (fuel floor : Nat) (st : TxServiceState) (page : List TransactionData)
    (s1 : ScanResult)
    (hpage : st.futureTxTable.pubKeyTxsInNonceOrder pk cfg.txQueryLimit = page)
    (hscan : TxService.scanFutureTxs floor page = s1)
    (hlen : ¬(s1.futureTxsToRemove.length = cfg.txQueryLimit)) :
    TxService.tryMoveFutureTxsLoop cfg pk (fuel + 1) floor st =
      (none, ⟨st.readyTxTable.add s1.txsToAdd,
        st.futureTxTable.remove s1.futureTxsToRemove⟩) := by
  rw [tryMoveLoop_succ]
  dsimp only
  rw [hpage, hscan, if_neg hlen]

theorem tryMoveLoop_empty_future (cfg : TxServiceConfig) (pk : String)
    (fuel floor : Nat) (st : TxServiceState)
    (hf : st.futureTxTable.txs = []) (hq : cfg.txQueryLimit ≠ 0) :
    TxService.tryMoveFutureTxsLoop cfg pk (fuel + 1) floor st = (none, st) := by
  rw [tryMoveLoop_succ]
  dsimp only
  have hpage : st.futureTxTable.pubKeyTxsInNonceOrder pk cfg.txQueryLimit = [] := by
    unfold TxTable.pubKeyTxsInNonceOrder TxTable.keyTxs
    rw [hf]
    exact List.take_nil
  rw [hpage]
  rw [show TxService.scanFutureTxs floor [] = ⟨[], [], floor⟩ from rfl]
  dsimp only
  rw [if_neg (fun hc => hq hc.symm)]
  rfl

theorem addTx_eq_of_fresh {t : TxTable} {tx : TransactionData}
    (hfresh : ∀ r ∈ t.txs, sameKey r tx = false) :
    t.addTx tx = ⟨t.txs ++ [{ tx with txId := some t.nextId }], t.nextId + 1⟩ := by
  unfold TxTable.addTx
  rw [List.filter_eq_self.mpr]
  intro r hr
  rw [hfresh r hr]
  rfl

theorem c3_addTx_fresh {pk : String} {l : List TransactionData} {i n : Nat}
    (h : ∀ r ∈ l, r.nonce ≠ n) :
    (⟨l, i⟩ : TxTable).addTx (c3tx pk n) = ⟨l ++ [c3rec pk n i], i + 1⟩ := by
  have hfresh : ∀ r ∈ (⟨l, i⟩ : TxTable).txs, sameKey r (c3tx pk n) = false := by
    intro r hr
    unfold sameKey c3tx
    dsimp only
    have hb : (r.nonce == n) = false := beq_eq_false_iff_ne.mpr (h r hr)
    rw [hb, Bool.and_false]
  rw [addTx_eq_of_fresh hfresh]
  rfl

theorem c3Lowest_empty (pk : String) (N : Nat) (hN : 1 ≤ N) :
    TxService.LowestAcceptableNonce ⟨[], 0⟩ N pk = some N := by
  unfold TxService.LowestAcceptableNonce TxTable.nextNonceOf TxTable.keyTxs
  dsimp only
  rw [if_pos (by show (0 : Nat) < N; omega)]

theorem c3Lowest_one (pk : String) (N : Nat) :
    TxService.LowestAcceptableNonce ⟨[c3rec pk N 0], 1⟩ N pk = some (N + 1) := by
  have h1 : TxTable.nextNonceOf ⟨[c3rec pk N 0], 1⟩ pk = some (N + 1) := by
    unfold TxTable.nextNonceOf TxTable.keyTxs c3rec
    simp only [List.filter_cons, List.filter_nil, beq_self_eq_true, if_true]
    rfl
  unfold TxService.LowestAcceptableNonce
  dsimp only
  rw [h1]
  rw [if_neg (by show ¬((some (N + 1)).getD 0 < N); simp only [Option.getD_some]; omega)]

theorem c3Lowest_two (pk : String) (N : Nat) :
    TxService.LowestAcceptableNonce ⟨[c3rec pk N 0, c3rec pk (N + 1) 1], 2⟩ N pk =
      some (N + 2) := by
  have h1 : TxTable.nextNonceOf ⟨[c3rec pk N 0, c3rec pk (N + 1) 1], 2⟩ pk =
      some (N + 2) := by
    unfold TxTable.nextNonceOf TxTable.keyTxs c3rec
    simp only [List.filter_cons, List.filter_nil, beq_self_eq_true, if_true,
      List.map_cons, List.map_nil, List.foldl_cons, List.foldl_nil]
    have hmax : N.max (N + 1) = N + 1 := Nat.max_eq_right (by omega)
    rw [hmax]
  unfold TxService.LowestAcceptableNonce
  dsimp only
  rw [h1]
  rw [if_neg (by show ¬((some (N + 2)).getD 0 < N); simp only [Option.getD_some]; omega)]

theorem sortByNonce_pair_desc {a b : TransactionData} (h : ¬(a.nonce ≤ b.nonce)) :
    sortByNonce [a, b] = [b, a] := by
  show insertByNonce a (sortByNonce [b]) = _
  show insertByNonce a [b] = _
  unfold insertByNonce
  rw [if_neg h]
  rfl

theorem sortByNonce_pair_asc {a b : TransactionData} (h : a.nonce ≤ b.nonce) :
    sortByNonce [a, b] = [a, b] := by
  show insertByNonce a (sortByNonce [b]) = _
  show insertByNonce a [b] = _
  unfold insertByNonce
  rw [if_pos h]

theorem c3_page_one (pk : String) (n j f : Nat) :
    ((⟨[c3rec pk n j], f⟩ : TxTable)).pubKeyTxsInNonceOrder pk 2 =
      [c3rec pk n j] := by
  unfold TxTable.pubKeyTxsInNonceOrder TxTable.keyTxs c3rec
  simp only [List.filter_cons, List.filter_nil, beq_self_eq_true, if_true]
  rfl

theorem c3_page_desc (pk : String) (N j1 j2 f : Nat) :
    ((⟨[c3rec pk (N + 2) j1, c3rec pk (N + 1) j2], f⟩ : TxTable)).pubKeyTxsInNonceOrder
        pk 2 = [c3rec pk (N + 1) j2, c3rec pk (N + 2) j1] := by
  unfold TxTable.pubKeyTxsInNonceOrder TxTable.keyTxs
  simp only [c3rec, List.filter_cons, List.filter_nil, beq_self_eq_true, if_true]
  rw [sortByNonce_pair_desc (by show ¬(N + 2 ≤ N + 1); omega)]
  rfl

theorem c3_page_asc (pk : String) (N j1 j2 f : Nat) :
    ((⟨[c3rec pk (N + 1) j1, c3rec pk (N + 2) j2], f⟩ : TxTable)).pubKeyTxsInNonceOrder
        pk 2 = [c3rec pk (N + 1) j1, c3rec pk (N + 2) j2] := by
  unfold TxTable.pubKeyTxsInNonceOrder TxTable.keyTxs
  simp only [c3rec, List.filter_cons, List.filter_nil, beq_self_eq_true, if_true]
  rw [sortByNonce_pair_asc (by show N + 1 ≤ N + 2; omega)]
  rfl

theorem scanFutureTxs_promote_one {r : TransactionData} {n : Nat}
    (h : r.nonce = n) :
    TxService.scanFutureTxs n [r] = ⟨[r], [{ r with txId := none }], n + 1⟩ := by
  unfold TxService.scanFutureTxs
  rw [if_neg (by omega), if_pos h]
  rfl

theorem scanFutureTxs_stop {r : TransactionData} {n : Nat}
    (h1 : ¬(r.nonce < n)) (h2 : ¬(r.nonce = n)) :
    TxService.scanFutureTxs n [r] = ⟨[], [], n⟩ := by
  unfold TxService.scanFutureTxs
  rw [if_neg h1, if_neg h2]

theorem scanFutureTxs_promote_two {a b : TransactionData} {n : Nat}
    (ha : a.nonce = n) (hb : b.nonce = n + 1) :
    TxService.scanFutureTxs n [a, b] =
      ⟨[a, b], [{ a with txId := none }, { b with txId := none }], n + 2⟩ := by
  unfold TxService.scanFutureTxs
  rw [if_neg (by omega), if_pos ha]
  dsimp only
  rw [scanFutureTxs_promote_one hb]

theorem c3_tryMove_one (pk : String) (R : TxTable) (n f : Nat) :
    TxService.tryMoveFutureTxs ⟨2, 2⟩ pk n ⟨R, ⟨[c3rec pk n 0], f⟩⟩ =
      (none, ⟨R.addTx (c3tx pk n), ⟨[], f⟩⟩) := by
  show TxService.tryMoveFutureTxsLoop ⟨2, 2⟩ pk (1 + 1) n _ = _
  rw [tryMoveLoop_iter_stop ⟨2, 2⟩ pk 1 n _ [c3rec pk n 0]
    ⟨[c3rec pk n 0], [{ c3rec pk n 0 with txId := none }], n + 1⟩
    (c3_page_one pk n 0 f) (scanFutureTxs_promote_one rfl) (by simp)]
  rfl

theorem c3_tryMove_stop (pk : String) (R : TxTable) (n m f : Nat)
    (hlt : n < m) :
    TxService.tryMoveFutureTxs ⟨2, 2⟩ pk n ⟨R, ⟨[c3rec pk m 0], f⟩⟩ =
      (none, ⟨R, ⟨[c3rec pk m 0], f⟩⟩) := by
  show TxService.tryMoveFutureTxsLoop ⟨2, 2⟩ pk (1 + 1) n _ = _
  rw [tryMoveLoop_iter_stop ⟨2, 2⟩ pk 1 n _ [c3rec pk m 0] ⟨[], [], n⟩
    (c3_page_one pk m 0 f)
    (scanFutureTxs_stop (by show ¬((c3rec pk m 0).nonce < n); show ¬(m < n); omega)
      (by show ¬((c3rec pk m 0).nonce = n); show ¬(m = n); omega))
    (by simp)]
  rfl

theorem c3_tryMove_two_desc (pk : String) (R : TxTable) (N : Nat) :
    TxService.tryMoveFutureTxs ⟨2, 2⟩ pk (N + 1)
      ⟨R, ⟨[c3rec pk (N + 2) 0, c3rec pk (N + 1) 1], 2⟩⟩ =
      (none, ⟨(R.addTx (c3tx pk (N + 1))).addTx (c3tx pk (N + 2)), ⟨[], 2⟩⟩) := by
  show TxService.tryMoveFutureTxsLoop ⟨2, 2⟩ pk (2 + 1) (N + 1) _ = _
  rw [tryMoveLoop_iter_cont ⟨2, 2⟩ pk 2 (N + 1) _
    [c3rec pk (N + 1) 1, c3rec pk (N + 2) 0]
    ⟨[c3rec pk (N + 1) 1, c3rec pk (N + 2) 0],
      [{ c3rec pk (N + 1) 1 with txId := none },
        { c3rec pk (N + 2) 0 with txId := none }], N + 3⟩
    (c3_page_desc pk N 0 1 2)
    (scanFutureTxs_promote_two rfl (by show N + 2 = N + 1 + 1; omega)) rfl]
  exact tryMoveLoop_empty_future ⟨2, 2⟩ pk 1 (N + 3)
    ⟨(R.addTx (c3tx pk (N + 1))).addTx (c3tx pk (N + 2)), ⟨[], 2⟩⟩ rfl
    (by decide)

theorem c3_tryMove_two_asc (pk : String) (R : TxTable) (N : Nat) :
    TxService.tryMoveFutureTxs ⟨2, 2⟩ pk (N + 1)
      ⟨R, ⟨[c3rec pk (N + 1) 0, c3rec pk (N + 2) 1], 2⟩⟩ =
      (none, ⟨(R.addTx (c3tx pk (N + 1))).addTx (c3tx pk (N + 2)), ⟨[], 2⟩⟩) := by
  show TxService.tryMoveFutureTxsLoop ⟨2, 2⟩ pk (2 + 1) (N + 1) _ = _
  rw [tryMoveLoop_iter_cont ⟨2, 2⟩ pk 2 (N + 1) _
    [c3rec pk (N + 1) 0, c3rec pk (N + 2) 1]
    ⟨[c3rec pk (N + 1) 0, c3rec pk (N + 2) 1],
      [{ c3rec pk (N + 1) 0 with txId := none },
        { c3rec pk (N + 2) 1 with txId := none }], N + 3⟩
    (c3_page_asc pk N 0 1 2)
    (scanFutureTxs_promote_two rfl (by show N + 2 = N + 1 + 1; omega)) rfl]
  exact tryMoveLoop_empty_future ⟨2, 2⟩ pk 1 (N + 3)
    ⟨(R.addTx (c3tx pk (N + 1))).addTx (c3tx pk (N + 2)), ⟨[], 2⟩⟩ rfl
    (by decide)

theorem submitStep_future_eq (cfg : TxServiceConfig) (st : TxServiceState)
    (s : Submission) (L : Nat) (F2 : TxTable)
    (hcf : s.checkTxFailures = [])
    (hLo : TxService.LowestAcceptableNonce st.readyTxTable s.nextNonce
      s.txData.pubKey = some L)
    (hgt : L < s.txData.nonce)
    (hF2 : (TxService.ensureFutureTxSpace cfg st.futureTxTable).addTx
      s.txData = F2) :
    submitStep cfg st s = ⟨st.readyTxTable, F2⟩ := by
  unfold submitStep
  rw [hcf, add_eq_future hLo hgt]
  show ({ st with futureTxTable :=
    (TxService.ensureFutureTxSpace cfg st.futureTxTable).addTx s.txData }
    : TxServiceState) = _
  rw [hF2]

theorem submitStep_ready_eq (cfg : TxServiceConfig) (st : TxServiceState)
    (s : Submission) (L : Nat) (out : TxServiceState)
    (hcf : s.checkTxFailures = [])
    (hLo : TxService.LowestAcceptableNonce st.readyTxTable s.nextNonce
      s.txData.pubKey = some L)
    (heqn : L = s.txData.nonce)
    (hloop : TxService.tryMoveFutureTxs cfg s.txData.pubKey (L + 1)
      ⟨st.readyTxTable.addTx s.txData, st.futureTxTable⟩ = (none, out)) :
    submitStep cfg st s = out := by
  unfold submitStep
  rw [hcf, add_eq_ready hLo heqn hloop]

theorem c3_add0 (pk : String) (N : Nat) :
    (⟨[], 0⟩ : TxTable).addTx (c3tx pk N) = ⟨[c3rec pk N 0], 1⟩ := rfl

theorem c3_add1 (pk : String) (N : Nat) :
    (⟨[c3rec pk N 0], 1⟩ : TxTable).addTx (c3tx pk (N + 1)) =
      ⟨[c3rec pk N 0, c3rec pk (N + 1) 1], 2⟩ :=
  c3_addTx_fresh (fun r hr => by
    rw [List.mem_singleton] at hr
    subst hr
    show N ≠ N + 1
    omega)

theorem c3_add2 (pk : String) (N : Nat) :
    (⟨[c3rec pk N 0, c3rec pk (N + 1) 1], 2⟩ : TxTable).addTx
        (c3tx pk (N + 2)) =
      ⟨[c3rec pk N 0, c3rec pk (N + 1) 1, c3rec pk (N + 2) 2], 3⟩ :=
  c3_addTx_fresh (fun r hr => by
    rcases List.mem_cons.mp hr with rfl | hr2
    · show N ≠ N + 2
      omega
    · rw [List.mem_singleton] at hr2
      subst hr2
      show N + 1 ≠ N + 2
      omega)

theorem c3_stepA (pk : String) (N : Nat) (hN : 1 ≤ N) :
    submitStep ⟨2, 2⟩ ⟨⟨[], 0⟩, ⟨[], 0⟩⟩ (c3sub pk N N) =
      ⟨⟨[c3rec pk N 0], 1⟩, ⟨[], 0⟩⟩ := by
  apply submitStep_ready_eq ⟨2, 2⟩ ⟨⟨[], 0⟩, ⟨[], 0⟩⟩ (c3sub pk N N) N
    ⟨⟨[c3rec pk N 0], 1⟩, ⟨[], 0⟩⟩ rfl (c3Lowest_empty pk N hN) rfl
  show TxService.tryMoveFutureTxsLoop ⟨2, 2⟩ pk (0 + 1) (N + 1) _ = _
  exact tryMoveLoop_empty_future ⟨2, 2⟩ pk 0 (N + 1)
    ⟨⟨[c3rec pk N 0], 1⟩, ⟨[], 0⟩⟩ rfl (by decide)

theorem c3_stepB (pk : String) (N : Nat) (hN : 1 ≤ N) :
    submitStep ⟨2, 2⟩ ⟨⟨[], 0⟩, ⟨[], 0⟩⟩ (c3sub pk (N + 1) N) =
      ⟨⟨[], 0⟩, ⟨[c3rec pk (N + 1) 0], 1⟩⟩ :=
  submitStep_future_eq ⟨2, 2⟩ ⟨⟨[], 0⟩, ⟨[], 0⟩⟩ (c3sub pk (N + 1) N) N
    ⟨[c3rec pk (N + 1) 0], 1⟩ rfl (c3Lowest_empty pk N hN)
    (by show N < N + 1; omega) rfl

theorem c3_stepC (pk : String) (N : Nat) (hN : 1 ≤ N) :
    submitStep ⟨2, 2⟩ ⟨⟨[], 0⟩, ⟨[], 0⟩⟩ (c3sub pk (N + 2) N) =
      ⟨⟨[], 0⟩, ⟨[c3rec pk (N + 2) 0], 1⟩⟩ :=
  submitStep_future_eq ⟨2, 2⟩ ⟨⟨[], 0⟩, ⟨[], 0⟩⟩ (c3sub pk (N + 2) N) N
    ⟨[c3rec pk (N + 2) 0], 1⟩ rfl (c3Lowest_empty pk N hN)
    (by show N < N + 2; omega) rfl

theorem c3_stepD (pk : String) (N : Nat) (hN : 1 ≤ N) :
    submitStep ⟨2, 2⟩ ⟨⟨[], 0⟩, ⟨[c3rec pk (N + 1) 0], 1⟩⟩ (c3sub pk (N + 2) N) =
      ⟨⟨[], 0⟩, ⟨[c3rec pk (N + 1) 0, c3rec pk (N + 2) 1], 2⟩⟩ := by
  apply submitStep_future_eq ⟨2, 2⟩ ⟨⟨[], 0⟩, ⟨[c3rec pk (N + 1) 0], 1⟩⟩
    (c3sub pk (N + 2) N) N ⟨[c3rec pk (N + 1) 0, c3rec pk (N + 2) 1], 2⟩ rfl
    (c3Lowest_empty pk N hN) (by show N < N + 2; omega)
  rw [show TxService.ensureFutureTxSpace ⟨2, 2⟩
    (⟨[c3rec pk (N + 1) 0], 1⟩ : TxTable) = ⟨[c3rec pk (N + 1) 0], 1⟩ from rfl]
  exact c3_addTx_fresh (fun r hr => by
    rw [List.mem_singleton] at hr
    subst hr
    show N + 1 ≠ N + 2
    omega)

theorem c3_stepE (pk : String) (N : Nat) (hN : 1 ≤ N) :
    submitStep ⟨2, 2⟩ ⟨⟨[], 0⟩, ⟨[c3rec pk (N + 2) 0], 1⟩⟩ (c3sub pk (N + 1) N) =
      ⟨⟨[], 0⟩, ⟨[c3rec pk (N + 2) 0, c3rec pk (N + 1) 1], 2⟩⟩ := by
  apply submitStep_future_eq ⟨2, 2⟩ ⟨⟨[], 0⟩, ⟨[c3rec pk (N + 2) 0], 1⟩⟩
    (c3sub pk (N + 1) N) N ⟨[c3rec pk (N + 2) 0, c3rec pk (N + 1) 1], 2⟩ rfl
    (c3Lowest_empty pk N hN) (by show N < N + 1; omega)
  rw [show TxService.ensureFutureTxSpace ⟨2, 2⟩
    (⟨[c3rec pk (N + 2) 0], 1⟩ : TxTable) = ⟨[c3rec pk (N + 2) 0], 1⟩ from rfl]
  exact c3_addTx_fresh (fun r hr => by
    rw [List.mem_singleton] at hr
    subst hr
    show N + 2 ≠ N + 1
    omega)

theorem c3_stepI (pk : String) (N : Nat) :
    submitStep ⟨2, 2⟩ ⟨⟨[c3rec pk N 0], 1⟩, ⟨[], 0⟩⟩ (c3sub pk (N + 2) N) =
      ⟨⟨[c3rec pk N 0], 1⟩, ⟨[c3rec pk (N + 2) 0], 1⟩⟩ :=
  submitStep_future_eq ⟨2, 2⟩ ⟨⟨[c3rec pk N 0], 1⟩, ⟨[], 0⟩⟩
    (c3sub pk (N + 2) N) (N + 1) ⟨[c3rec pk (N + 2) 0], 1⟩ rfl
    (c3Lowest_one pk N) (by show N + 1 < N + 2; omega) rfl

theorem c3_stepH (pk : String) (N : Nat) :
    submitStep ⟨2, 2⟩ ⟨⟨[c3rec pk N 0], 1⟩, ⟨[], 0⟩⟩ (c3sub pk (N + 1) N) =
      ⟨⟨[c3rec pk N 0, c3rec pk (N + 1) 1], 2⟩, ⟨[], 0⟩⟩ := by
  have hloop : TxService.tryMoveFutureTxs ⟨2, 2⟩ pk (N + 1 + 1)
      ⟨(⟨[c3rec pk N 0], 1⟩ : TxTable).addTx (c3tx pk (N + 1)), ⟨[], 0⟩⟩ =
      (none, ⟨⟨[c3rec pk N 0, c3rec pk (N + 1) 1], 2⟩, ⟨[], 0⟩⟩) := by
    rw [c3_add1 pk N]
    show TxService.tryMoveFutureTxsLoop ⟨2, 2⟩ pk (0 + 1) (N + 1 + 1) _ = _
    exact tryMoveLoop_empty_future ⟨2, 2⟩ pk 0 (N + 1 + 1)
      ⟨⟨[c3rec pk N 0, c3rec pk (N + 1) 1], 2⟩, ⟨[], 0⟩⟩ rfl (by decide)
  exact submitStep_ready_eq ⟨2, 2⟩ ⟨⟨[c3rec pk N 0], 1⟩, ⟨[], 0⟩⟩
    (c3sub pk (N + 1) N) (N + 1) ⟨⟨[c3rec pk N 0, c3rec pk (N + 1) 1], 2⟩, ⟨[], 0⟩⟩
    rfl (c3Lowest_one pk N) rfl hloop

theorem c3_stepL (pk : String) (N f : Nat) :
    submitStep ⟨2, 2⟩ ⟨⟨[c3rec pk N 0, c3rec pk (N + 1) 1], 2⟩, ⟨[], f⟩⟩
      (c3sub pk (N + 2) N) =
      ⟨⟨[c3rec pk N 0, c3rec pk (N + 1) 1, c3rec pk (N + 2) 2], 3⟩, ⟨[], f⟩⟩ := by
  have hloop : TxService.tryMoveFutureTxs ⟨2, 2⟩ pk (N + 2 + 1)
      ⟨(⟨[c3rec pk N 0, c3rec pk (N + 1) 1], 2⟩ : TxTable).addTx
        (c3tx pk (N + 2)), ⟨[], f⟩⟩ =
      (none, ⟨⟨[c3rec pk N 0, c3rec pk (N + 1) 1, c3rec pk (N + 2) 2], 3⟩,
        ⟨[], f⟩⟩) := by
    rw [c3_add2 pk N]
    show TxService.tryMoveFutureTxsLoop ⟨2, 2⟩ pk (0 + 1) (N + 2 + 1) _ = _
    exact tryMoveLoop_empty_future ⟨2, 2⟩ pk 0 (N + 2 + 1)
      ⟨⟨[c3rec pk N 0, c3rec pk (N + 1) 1, c3rec pk (N + 2) 2], 3⟩, ⟨[], f⟩⟩
      rfl (by decide)
  exact submitStep_ready_eq ⟨2, 2⟩
    ⟨⟨[c3rec pk N 0, c3rec pk (N + 1) 1], 2⟩, ⟨[], f⟩⟩
    (c3sub pk (N + 2) N) (N + 2)
    ⟨⟨[c3rec pk N 0, c3rec pk (N + 1) 1, c3rec pk (N + 2) 2], 3⟩, ⟨[], f⟩⟩
    rfl (c3Lowest_two pk N) rfl hloop

theorem c3_stepM (pk : String) (N : Nat) (hN : 1 ≤ N) :
    submitStep ⟨2, 2⟩ ⟨⟨[], 0⟩, ⟨[c3rec pk (N + 1) 0], 1⟩⟩ (c3sub pk N N) =
      ⟨⟨[c3rec pk N 0, c3rec pk (N + 1) 1], 2⟩, ⟨[], 1⟩⟩ := by
  have hloop : TxService.tryMoveFutureTxs ⟨2, 2⟩ pk (N + 1)
      ⟨(⟨[], 0⟩ : TxTable).addTx (c3tx pk N), ⟨[c3rec pk (N + 1) 0], 1⟩⟩ =
      (none, ⟨⟨[c3rec pk N 0, c3rec pk (N + 1) 1], 2⟩, ⟨[], 1⟩⟩) := by
    rw [c3_tryMove_one pk ((⟨[], 0⟩ : TxTable).addTx (c3tx pk N)) (N + 1) 1,
      c3_add0 pk N, c3_add1 pk N]
  exact submitStep_ready_eq ⟨2, 2⟩ ⟨⟨[], 0⟩, ⟨[c3rec pk (N + 1) 0], 1⟩⟩
    (c3sub pk N N) N ⟨⟨[c3rec pk N 0, c3rec pk (N + 1) 1], 2⟩, ⟨[], 1⟩⟩
    rfl (c3Lowest_empty pk N hN) rfl hloop

theorem c3_stepJ (pk : String) (N : Nat) :
    submitStep ⟨2, 2⟩ ⟨⟨[c3rec pk N 0], 1⟩, ⟨[c3rec pk (N + 2) 0], 1⟩⟩
      (c3sub pk (N + 1) N) =
      ⟨⟨[c3rec pk N 0, c3rec pk (N + 1) 1, c3rec pk (N + 2) 2], 3⟩, ⟨[], 1⟩⟩ := by
  have hloop : TxService.tryMoveFutureTxs ⟨2, 2⟩ pk (N + 1 + 1)
      ⟨(⟨[c3rec pk N 0], 1⟩ : TxTable).addTx (c3tx pk (N + 1)),
        ⟨[c3rec pk (N + 2) 0], 1⟩⟩ =
      (none, ⟨⟨[c3rec pk N 0, c3rec pk (N + 1) 1, c3rec pk (N + 2) 2], 3⟩,
        ⟨[], 1⟩⟩) := by
    rw [show (N + 1 + 1) = N + 2 from rfl,
      c3_tryMove_one pk ((⟨[c3rec pk N 0], 1⟩ : TxTable).addTx
        (c3tx pk (N + 1))) (N + 2) 1,
      c3_add1 pk N, c3_add2 pk N]
  exact submitStep_ready_eq ⟨2, 2⟩
    ⟨⟨[c3rec pk N 0], 1⟩, ⟨[c3rec pk (N + 2) 0], 1⟩⟩
    (c3sub pk (N + 1) N) (N + 1)
    ⟨⟨[c3rec pk N 0, c3rec pk (N + 1) 1, c3rec pk (N + 2) 2], 3⟩, ⟨[], 1⟩⟩
    rfl (c3Lowest_one pk N) rfl hloop

theorem c3_stepK (pk : String) (N : Nat) (hN : 1 ≤ N) :
    submitStep ⟨2, 2⟩ ⟨⟨[], 0⟩, ⟨[c3rec pk (N + 2) 0], 1⟩⟩ (c3sub pk N N) =
      ⟨⟨[c3rec pk N 0], 1⟩, ⟨[c3rec pk (N + 2) 0], 1⟩⟩ := by
  have hloop : TxService.tryMoveFutureTxs ⟨2, 2⟩ pk (N + 1)
      ⟨(⟨[], 0⟩ : TxTable).addTx (c3tx pk N), ⟨[c3rec pk (N + 2) 0], 1⟩⟩ =
      (none, ⟨⟨[c3rec pk N 0], 1⟩, ⟨[c3rec pk (N + 2) 0], 1⟩⟩) := by
    rw [c3_tryMove_stop pk ((⟨[], 0⟩ : TxTable).addTx (c3tx pk N)) (N + 1)
      (N + 2) 1 (by omega), c3_add0 pk N]
  exact submitStep_ready_eq ⟨2, 2⟩ ⟨⟨[], 0⟩, ⟨[c3rec pk (N + 2) 0], 1⟩⟩
    (c3sub pk N N) N ⟨⟨[c3rec pk N 0], 1⟩, ⟨[c3rec pk (N + 2) 0], 1⟩⟩
    rfl (c3Lowest_empty pk N hN) rfl hloop

theorem c3_stepF (pk : String) (N : Nat) (hN : 1 ≤ N) :
    submitStep ⟨2, 2⟩ ⟨⟨[], 0⟩, ⟨[c3rec pk (N + 1) 0, c3rec pk (N + 2) 1], 2⟩⟩
      (c3sub pk N N) =
      ⟨⟨[c3rec pk N 0, c3rec pk (N + 1) 1, c3rec pk (N + 2) 2], 3⟩, ⟨[], 2⟩⟩ := by
  have hloop : TxService.tryMoveFutureTxs ⟨2, 2⟩ pk (N + 1)
      ⟨(⟨[], 0⟩ : TxTable).addTx (c3tx pk N),
        ⟨[c3rec pk (N + 1) 0, c3rec pk (N + 2) 1], 2⟩⟩ =
      (none, ⟨⟨[c3rec pk N 0, c3rec pk (N + 1) 1, c3rec pk (N + 2) 2], 3⟩,
        ⟨[], 2⟩⟩) := by
    rw [c3_tryMove_two_asc pk ((⟨[], 0⟩ : TxTable).addTx (c3tx pk N)) N,
      c3_add0 pk N, c3_add1 pk N, c3_add2 pk N]
  exact submitStep_ready_eq ⟨2, 2⟩
    ⟨⟨[], 0⟩, ⟨[c3rec pk (N + 1) 0, c3rec pk (N + 2) 1], 2⟩⟩
    (c3sub pk N N) N
    ⟨⟨[c3rec pk N 0, c3rec pk (N + 1) 1, c3rec pk (N + 2) 2], 3⟩, ⟨[], 2⟩⟩
    rfl (c3Lowest_empty pk N hN) rfl hloop

theorem c3_stepG (pk : String) (N : Nat) (hN : 1 ≤ N) :
    submitStep ⟨2, 2⟩ ⟨⟨[], 0⟩, ⟨[c3rec pk (N + 2) 0, c3rec pk (N + 1) 1], 2⟩⟩
      (c3sub pk N N) =
      ⟨⟨[c3rec pk N 0, c3rec pk (N + 1) 1, c3rec pk (N + 2) 2], 3⟩, ⟨[], 2⟩⟩ := by
  have hloop : TxService.tryMoveFutureTxs ⟨2, 2⟩ pk (N + 1)
      ⟨(⟨[], 0⟩ : TxTable).addTx (c3tx pk N),
        ⟨[c3rec pk (N + 2) 0, c3rec pk (N + 1) 1], 2⟩⟩ =
      (none, ⟨⟨[c3rec pk N 0, c3rec pk (N + 1) 1, c3rec pk (N + 2) 2], 3⟩,
        ⟨[], 2⟩⟩) := by
    rw [c3_tryMove_two_desc pk ((⟨[], 0⟩ : TxTable).addTx (c3tx pk N)) N,
      c3_add0 pk N, c3_add1 pk N, c3_add2 pk N]
  exact submitStep_ready_eq ⟨2, 2⟩
    ⟨⟨[], 0⟩, ⟨[c3rec pk (N + 2) 0, c3rec pk (N + 1) 1], 2⟩⟩
    (c3sub pk N N) N
    ⟨⟨[c3rec pk N 0, c3rec pk (N + 1) 1, c3rec pk (N + 2) 2], 3⟩, ⟨[], 2⟩⟩
    rfl (c3Lowest_empty pk N hN) rfl hloop

theorem c3_run1 (pk : String) (N : Nat) (hN : 1 ≤ N) :
    runSubmissions ⟨2, 2⟩ [c3sub pk N N, c3sub pk (N + 1) N, c3sub pk (N + 2) N] =
      ⟨⟨[c3rec pk N 0, c3rec pk (N + 1) 1, c3rec pk (N + 2) 2], 3⟩, ⟨[], 0⟩⟩ := by
  show submitStep ⟨2, 2⟩ (submitStep ⟨2, 2⟩ (submitStep ⟨2, 2⟩
    ⟨⟨[], 0⟩, ⟨[], 0⟩⟩ (c3sub pk N N)) (c3sub pk (N + 1) N))
    (c3sub pk (N + 2) N) = _
  rw [c3_stepA pk N hN, c3_stepH pk N, c3_stepL pk N 0]

theorem c3_run2 (pk : String) (N : Nat) (hN : 1 ≤ N) :
    runSubmissions ⟨2, 2⟩ [c3sub pk N N, c3sub pk (N + 2) N, c3sub pk (N + 1) N] =
      ⟨⟨[c3rec pk N 0, c3rec pk (N + 1) 1, c3rec pk (N + 2) 2], 3⟩, ⟨[], 1⟩⟩ := by
  show submitStep ⟨2, 2⟩ (submitStep ⟨2, 2⟩ (submitStep ⟨2, 2⟩
    ⟨⟨[], 0⟩, ⟨[], 0⟩⟩ (c3sub pk N N)) (c3sub pk (N + 2) N))
    (c3sub pk (N + 1) N) = _
  rw [c3_stepA pk N hN, c3_stepI pk N, c3_stepJ pk N]

theorem c3_run3 (pk : String) (N : Nat) (hN : 1 ≤ N) :
    runSubmissions ⟨2, 2⟩ [c3sub pk (N + 1) N, c3sub pk N N, c3sub pk (N + 2) N] =
      ⟨⟨[c3rec pk N 0, c3rec pk (N + 1) 1, c3rec pk (N + 2) 2], 3⟩, ⟨[], 1⟩⟩ := by
  show submitStep ⟨2, 2⟩ (submitStep ⟨2, 2⟩ (submitStep ⟨2, 2⟩
    ⟨⟨[], 0⟩, ⟨[], 0⟩⟩ (c3sub pk (N + 1) N)) (c3sub pk N N))
    (c3sub pk (N + 2) N) = _
  rw [c3_stepB pk N hN, c3_stepM pk N hN, c3_stepL pk N 1]

theorem c3_run4 (pk : String) (N : Nat) (hN : 1 ≤ N) :
    runSubmissions ⟨2, 2⟩ [c3sub pk (N + 1) N, c3sub pk (N + 2) N, c3sub pk N N] =
      ⟨⟨[c3rec pk N 0, c3rec pk (N + 1) 1, c3rec pk (N + 2) 2], 3⟩, ⟨[], 2⟩⟩ := by
  show submitStep ⟨2, 2⟩ (submitStep ⟨2, 2⟩ (submitStep ⟨2, 2⟩
    ⟨⟨[], 0⟩, ⟨[], 0⟩⟩ (c3sub pk (N + 1) N)) (c3sub pk (N + 2) N))
    (c3sub pk N N) = _
  rw [c3_stepB pk N hN, c3_stepD pk N hN, c3_stepF pk N hN]

theorem c3_run5 (pk : String) (N : Nat) (hN : 1 ≤ N) :
    runSubmissions ⟨2, 2⟩ [c3sub pk (N + 2) N, c3sub pk N N, c3sub pk (N + 1) N] =
      ⟨⟨[c3rec pk N 0, c3rec pk (N + 1) 1, c3rec pk (N + 2) 2], 3⟩, ⟨[], 1⟩⟩ := by
  show submitStep ⟨2, 2⟩ (submitStep ⟨2, 2⟩ (submitStep ⟨2, 2⟩
    ⟨⟨[], 0⟩, ⟨[], 0⟩⟩ (c3sub pk (N + 2) N)) (c3sub pk N N))
    (c3sub pk (N + 1) N) = _
  rw [c3_stepC pk N hN, c3_stepK pk N hN, c3_stepJ pk N]

theorem c3_run6 (pk : String) (N : Nat) (hN : 1 ≤ N) :
    runSubmissions ⟨2, 2⟩ [c3sub pk (N + 2) N, c3sub pk (N + 1) N, c3sub pk N N] =
      ⟨⟨[c3rec pk N 0, c3rec pk (N + 1) 1, c3rec pk (N + 2) 2], 3⟩, ⟨[], 2⟩⟩ := by
  show submitStep ⟨2, 2⟩ (submitStep ⟨2, 2⟩ (submitStep ⟨2, 2⟩
    ⟨⟨[], 0⟩, ⟨[], 0⟩⟩ (c3sub pk (N + 2) N)) (c3sub pk (N + 1) N))
    (c3sub pk N N) = _
  rw [c3_stepC pk N hN, c3_stepE pk N hN, c3_stepG pk N hN]

theorem c3_find_all (pk : String) (N : Nat) :
    ((⟨[c3rec pk N 0, c3rec pk (N + 1) 1, c3rec pk (N + 2) 2], 3⟩ : TxTable)).find
        pk N = some (c3rec pk N 0) ∧
    ((⟨[c3rec pk N 0, c3rec pk (N + 1) 1, c3rec pk (N + 2) 2], 3⟩ : TxTable)).find
        pk (N + 1) = some (c3rec pk (N + 1) 1) ∧
    ((⟨[c3rec pk N 0, c3rec pk (N + 1) 1, c3rec pk (N + 2) 2], 3⟩ : TxTable)).find
        pk (N + 2) = some (c3rec pk (N + 2) 2) := by
  unfold TxTable.find
  refine ⟨?_, ?_, ?_⟩
  · rw [List.find?_cons_of_pos]
    show ((c3rec pk N 0).pubKey == pk && (c3rec pk N 0).nonce == N) = true
    unfold c3rec
    simp
  · rw [List.find?_cons_of_neg, List.find?_cons_of_pos]
    · show ((c3rec pk (N + 1) 1).pubKey == pk &&
        (c3rec pk (N + 1) 1).nonce == N + 1) = true
      unfold c3rec
      simp
    · show ¬(((c3rec pk N 0).pubKey == pk && (c3rec pk N 0).nonce == N + 1) = true)
      unfold c3rec
      simp
  · rw [List.find?_cons_of_neg, List.find?_cons_of_neg, List.find?_cons_of_pos]
    · show ((c3rec pk (N + 2) 2).pubKey == pk &&
        (c3rec pk (N + 2) 2).nonce == N + 2) = true
      unfold c3rec
      simp
    · show ¬(((c3rec pk (N + 1) 1).pubKey == pk &&
        (c3rec pk (N + 1) 1).nonce == N + 2) = true)
      unfold c3rec
      simp
    · show ¬(((c3rec pk N 0).pubKey == pk && (c3rec pk N 0).nonce == N + 2) = true)
      unfold c3rec
      simp

/-- Claim C3 (corrected): with a positive chain next-nonce (1 <= N, avoiding
the C2 crash), a positive page size and a Future capacity that can hold both
pending operations (txQueryLimit = 2, maxFutureTxs = 2), submitting the
nonces N, N+1, N+2 of one account in any of the six orders from empty pools
leaves all three operations in the Ready pool (each stored at its nonce with
a serial id in nonce order) and the Future pool empty. -/
theorem C3_promotion_any_order (pk : String) (N : Nat) (hN : 1 ≤ N)
    (subs : List Submission)
    (h : subs ∈ [[c3sub pk N N, c3sub pk (N + 1) N, c3sub pk (N + 2) N],
      [c3sub pk N N, c3sub pk (N + 2) N, c3sub pk (N + 1) N],
      [c3sub pk (N + 1) N, c3sub pk N N, c3sub pk (N + 2) N],
      [c3sub pk (N + 1) N, c3sub pk (N + 2) N, c3sub pk N N],
      [c3sub pk (N + 2) N, c3sub pk N N, c3sub pk (N + 1) N],
      [c3sub pk (N + 2) N, c3sub pk (N + 1) N, c3sub pk N N]]) :
    (runSubmissions ⟨2, 2⟩ subs).readyTxTable.find pk N =
        some (c3rec pk N 0) ∧
    (runSubmissions ⟨2, 2⟩ subs).readyTxTable.find pk (N + 1) =
        some (c3rec pk (N + 1) 1) ∧
    (runSubmissions ⟨2, 2⟩ subs).readyTxTable.find pk (N + 2) =
        some (c3rec pk (N + 2) 2) ∧
    (runSubmissions ⟨2, 2⟩ subs).futureTxTable.txs = [] := by
  obtain ⟨hf1, hf2, hf3⟩ := c3_find_all pk N
  simp only [List.mem_cons, List.not_mem_nil, or_false] at h
  rcases h with rfl | rfl | rfl | rfl | rfl | rfl
  · rw [c3_run1 pk N hN]
    exact ⟨hf1, hf2, hf3, rfl⟩
  · rw [c3_run2 pk N hN]
    exact ⟨hf1, hf2, hf3, rfl⟩
  · rw [c3_run3 pk N hN]
    exact ⟨hf1, hf2, hf3, rfl⟩
  · rw [c3_run4 pk N hN]
    exact ⟨hf1, hf2, hf3, rfl⟩
  · rw [c3_run5 pk N hN]
    exact ⟨hf1, hf2, hf3, rfl⟩
  · rw [c3_run6 pk N hN]
    exact ⟨hf1, hf2, hf3, rfl⟩

/-- Counterexample to claim C3 as stated (it quantifies over every chain
next-nonce N): at N = 0, every one of the three submissions hits the
`BigNumber.from(null)` crash of `LowestAcceptableNonce` (claim C2), so the
run ends with both pools still empty and nonce 0 absent from Ready. -/
theorem C3_promotion_counterexample :
    runSubmissions ⟨2, 2⟩ [c3sub "a" 2 0, c3sub "a" 1 0, c3sub "a" 0 0] =
      ⟨⟨[], 0⟩, ⟨[], 0⟩⟩ ∧
    (runSubmissions ⟨2, 2⟩
      [c3sub "a" 2 0, c3sub "a" 1 0, c3sub "a" 0 0]).readyTxTable.find "a" 0 =
      none := by
  decide

/-- Witness for C3 at N = 1, account "a", submission order 3, 2, 1. -/
theorem C3_promotion_any_order_witness :
    ([c3sub "a" 3 1, c3sub "a" 2 1, c3sub "a" 1 1] ∈
      [[c3sub "a" 1 1, c3sub "a" 2 1, c3sub "a" 3 1],
        [c3sub "a" 1 1, c3sub "a" 3 1, c3sub "a" 2 1],
        [c3sub "a" 2 1, c3sub "a" 1 1, c3sub "a" 3 1],
        [c3sub "a" 2 1, c3sub "a" 3 1, c3sub "a" 1 1],
        [c3sub "a" 3 1, c3sub "a" 1 1, c3sub "a" 2 1],
        [c3sub "a" 3 1, c3sub "a" 2 1, c3sub "a" 1 1]]) ∧
    ((runSubmissions ⟨2, 2⟩
        [c3sub "a" 3 1, c3sub "a" 2 1, c3sub "a" 1 1]).readyTxTable.find "a" 1 =
        some (c3rec "a" 1 0) ∧
      (runSubmissions ⟨2, 2⟩
        [c3sub "a" 3 1, c3sub "a" 2 1, c3sub "a" 1 1]).readyTxTable.find "a" 2 =
        some (c3rec "a" 2 1) ∧
      (runSubmissions ⟨2, 2⟩
        [c3sub "a" 3 1, c3sub "a" 2 1, c3sub "a" 1 1]).readyTxTable.find "a" 3 =
        some (c3rec "a" 3 2) ∧
      (runSubmissions ⟨2, 2⟩
        [c3sub "a" 3 1, c3sub "a" 2 1, c3sub "a" 1 1]).futureTxTable.txs = []) :=
  ⟨by decide, C3_promotion_any_order "a" 1 (by decide)
    [c3sub "a" 3 1, c3sub "a" 2 1, c3sub "a" 1 1] (by decide)⟩
